import Mathlib

/-!
# Lightspark external scripting bridge: `backends/extscriptobject.cpp`

A shallow embedding of `ExtIdentifier`, `ExtObject` and `ExtVariant` together with
the two conversions between `ExtVariant` and the values of the scripting runtime
(`ASObject`), followed by the properties established about them.

Conventions of the embedding.

* A `std::string` is a Lean `String`; the algorithms work on its list of characters.
  A `const char*` is the content of the C string (the characters before the
  terminating NUL); `cstr` is the passage `std::string::c_str()` from the first to
  the second.
* `int32_t` values are integers (`Int`); every place where the source converts a wider
  or unsigned quantity to `int32_t` goes through `toInt32`.
* `uint32_t` counters are natural numbers reduced by `toUInt32`.
* A pointer result that may be `NULL` is an `Option`; a function that would dereference
  a `NULL` pointer returns `none`.
* A method that changes its object returns the object afterwards next to its result; a
  `const` method is a function of the object that returns its result only, the object
  after the call being the object before it.
-/

namespace lightspark

/-! ## C and C++ library primitives used by the source -/

/-- The C function `isspace` in the "C" locale: space, and the controls `\t \n \v \f \r`. -/
def isSpace (c : Char) : Bool := c.toNat = 32 || (9 ≤ c.toNat && c.toNat ≤ 13)

/-- The C function `isdigit`. -/
def isDigit (c : Char) : Bool := 48 ≤ c.toNat && c.toNat ≤ 57

/-- Value of a decimal digit character. -/
def digitVal (c : Char) : Nat := c.toNat - 48

/-- Character of a decimal digit. -/
def digitChar (d : Nat) : Char := Char.ofNat (48 + d)

/-- The passage `std::string::c_str()`: what a reader of the resulting `const char*`
sees, namely the characters before the first NUL. -/
def cstr (s : String) : String := String.mk (s.data.takeWhile (fun c => c.toNat != 0))

/-- Leading white space skipped by `strtol`. -/
def skipSpace : List Char → List Char
  | [] => []
  | c :: t => if isSpace c then skipSpace t else c :: t

/-- The digit loop of `strtol` in base 10: accumulates while digits are read and stops at
the first other character (or at the end). -/
def readDigits : List Char → Nat → Nat
  | [], acc => acc
  | c :: t, acc => if isDigit c then readDigits t (acc * 10 + digitVal c) else acc

/-- Saturation of `strtol` to the range of `long` (64 bits). -/
def clampLong (v : Int) : Int :=
  if v < -9223372036854775808 then -9223372036854775808
  else if 9223372036854775807 < v then 9223372036854775807
  else v

/-- The C function `strtol(s, NULL, 10)`: white space, an optional sign, digits. -/
def strtol (s : List Char) : Int :=
  match skipSpace s with
  | '-' :: t => clampLong (-(readDigits t 0 : Int))
  | '+' :: t => clampLong (readDigits t 0 : Int)
  | t => clampLong (readDigits t 0 : Int)

/-- Conversion of an integer to `int32_t` (two's complement wrap-around). -/
def toInt32 (v : Int) : Int := (v + 2147483648) % 4294967296 - 2147483648

/-- Conversion of a size to `uint32_t`. -/
def toUInt32 (n : Nat) : Nat := n % 4294967296

/-- The C function `atoi`, that is `(int) strtol(s, NULL, 10)`. -/
def atoi (s : String) : Int := toInt32 (strtol s.data)

/-- Decimal digits of a natural number, most significant first, in front of `acc`;
the first argument bounds the number of digits produced. -/
def natDigitsAux : Nat → Nat → List Char → List Char
  | 0, _, acc => acc
  | fuel + 1, n, acc =>
    if n < 10 then digitChar n :: acc
    else natDigitsAux fuel (n / 10) (digitChar (n % 10) :: acc)

/-- Decimal digits of a natural number. -/
def natDigits (n : Nat) : List Char := natDigitsAux (n + 1) n []

/-- The text `std::ostream::operator<<(int)` appends with the default flags: decimal,
a minus sign for negative values, no plus sign, no padding. -/
def intToText (v : Int) : List Char :=
  if v < 0 then '-' :: natDigits v.natAbs else natDigits v.natAbs

/-- The comparison `std::string::operator<`: lexicographic on the characters taken as
unsigned values, a proper prefix being smaller. -/
def stringLess : List Char → List Char → Bool
  | _, [] => false
  | [], _ :: _ => true
  | a :: as, b :: bs =>
    if a.toNat < b.toNat then true
    else if b.toNat < a.toNat then false
    else stringLess as bs

/-! ## ExtIdentifier -/

/-- The enumeration `ExtIdentifier::EI_TYPE`. -/
inductive EI_TYPE where
  | EI_STRING
  | EI_INT32
  deriving DecidableEq, Repr

open EI_TYPE

/-- The class `ExtIdentifier`: fields `type`, `strValue`, `intValue`. -/
structure ExtIdentifier where
  type : EI_TYPE
  strValue : String
  intValue : Int
  deriving DecidableEq, Repr

namespace ExtIdentifier

/-- The method `ExtIdentifier::stringToInt`. -/
def stringToInt (self : ExtIdentifier) : ExtIdentifier :=
  let intValue := atoi (cstr self.strValue)
  let conv : String := String.mk (intToText intValue)
  if conv = self.strValue then
    { type := EI_INT32, strValue := self.strValue, intValue := intValue }
  else
    { type := self.type, strValue := self.strValue, intValue := intValue }

/-- The constructor `ExtIdentifier::ExtIdentifier()`. -/
def mkDefault : ExtIdentifier := { type := EI_STRING, strValue := "", intValue := 0 }

/-- The constructor `ExtIdentifier::ExtIdentifier(const std::string&)`. -/
def ofString (value : String) : ExtIdentifier :=
  stringToInt { type := EI_STRING, strValue := value, intValue := 0 }

/-- The constructor `ExtIdentifier::ExtIdentifier(const char*)`; `value` is the content
of the C string. -/
def ofCString (value : String) : ExtIdentifier :=
  stringToInt { type := EI_STRING, strValue := value, intValue := 0 }

/-- The constructor `ExtIdentifier::ExtIdentifier(int32_t)`. -/
def ofInt32 (value : Int) : ExtIdentifier :=
  { type := EI_INT32, strValue := "", intValue := value }

/-- The copy constructor `ExtIdentifier::ExtIdentifier(const ExtIdentifier&)`. -/
def copy (other : ExtIdentifier) : ExtIdentifier :=
  { type := other.type, strValue := other.strValue, intValue := other.intValue }

/-- The comparator `ExtIdentifier::operator<`. -/
def lt (self other : ExtIdentifier) : Bool :=
  if self.type = EI_STRING ∧ other.type = EI_STRING then
    stringLess self.strValue.data other.strValue.data
  else if self.type = EI_INT32 ∧ other.type = EI_INT32 then
    decide (self.intValue < other.intValue)
  else if self.type = EI_INT32 ∧ other.type = EI_STRING then
    true
  else
    false

/-- Equivalence of two keys for `std::map`: neither is less than the other. -/
def equiv (a b : ExtIdentifier) : Bool := !(a.lt b) && !(b.lt a)

end ExtIdentifier

/-! ## Canonical decimal text, as the specification words it -/

/-- A digit string without sign: not empty, only digits, and no leading zero unless it
is the single digit zero. -/
def isCanonicalDigits (ds : List Char) : Bool :=
  !ds.isEmpty && ds.all isDigit && (ds.head? != some '0' || ds == ['0'])

/-- Value of a digit string read in base ten. -/
def decimalValue (ds : List Char) : Nat :=
  ds.foldl (fun acc c => acc * 10 + digitVal c) 0

/-- The string `s` is the canonical decimal text of the 32-bit signed integer `n`:
an optional leading minus sign (never for zero), no plus sign, no leading zeros, no
white space or other characters around the digits, and `n` within
`[-2^31, 2^31 - 1]`. -/
def isCanonicalInt32 (s : String) (n : Int) : Prop :=
  -2147483648 ≤ n ∧ n ≤ 2147483647 ∧
  ((isCanonicalDigits s.data = true ∧ n = (decimalValue s.data : Int)) ∨
   (∃ ds : List Char, s.data = '-' :: ds ∧ isCanonicalDigits ds = true ∧ ds ≠ ['0'] ∧
      n = -(decimalValue ds : Int)))

/-! ## The property map `std::map<ExtIdentifier, ExtVariant>` -/

/-- The ordered sequence of entries held by a `std::map` keyed by `ExtIdentifier`, in
iteration order (`begin()` to `end()`). -/
abbrev PropertyMap (V : Type) := List (ExtIdentifier × V)

namespace PropertyMap

/-- The lookup `std::map::find`: the first entry whose key is not less than `id`
(`lower_bound`), provided `id` is not less than that key; `none` stands for `end()`. -/
def find {V : Type} : PropertyMap V → ExtIdentifier → Option (ExtIdentifier × V)
  | [], _ => none
  | (k, w) :: t, id =>
    if k.lt id then find t id
    else if id.lt k then none
    else some (k, w)

/-- The statement `m[id] = value`: `std::map::operator[]` finds the entry equivalent to
`id`, or inserts one at its ordered position, and the value is then assigned. An
existing entry keeps its key object. -/
def assign {V : Type} : PropertyMap V → ExtIdentifier → V → PropertyMap V
  | [], id, value => [(id, value)]
  | (k, w) :: t, id, value =>
    if k.lt id then (k, w) :: assign t id value
    else if id.lt k then (id, value) :: (k, w) :: t
    else (k, value) :: t

/-- The call `m.erase(m.find(id))` for a key that `find` locates; a map without such a
key is returned as it is. -/
def erase {V : Type} : PropertyMap V → ExtIdentifier → PropertyMap V
  | [], _ => []
  | (k, w) :: t, id =>
    if k.lt id then (k, w) :: erase t id
    else if id.lt k then (k, w) :: t
    else t

/-- The keys of the map, in map order, are the `EI_INT32` identifiers `a`, `a + 1`, and
so on; from `a = 0` this says that the key set of a map of `n` entries is exactly the
integer identifiers `0` to `n - 1`. -/
def denseFrom {V : Type} : Int → PropertyMap V → Bool
  | _, [] => true
  | a, (k, _) :: t =>
    decide (k.type = EI_INT32) && decide (k.intValue = a) && denseFrom (a + 1) t

/-- The invariant of `std::map`: the keys are strictly increasing for the comparator. -/
def Sorted {V : Type} (m : PropertyMap V) : Prop :=
  List.Pairwise (fun a b => a.1.lt b.1 = true) m

end PropertyMap

/-! ## ExtVariant and ExtObject -/

/-- A `double`, carried as its IEEE-754 bit pattern; the source only stores and copies
such values. -/
structure Double where
  bits : Nat
  deriving DecidableEq, Repr

/-- The literal `0` initialising `doubleValue`. -/
def Double.zero : Double := { bits := 0 }

/-- The enumeration `ExtVariant::EV_TYPE`. -/
inductive EV_TYPE where
  | EV_STRING
  | EV_INT32
  | EV_DOUBLE
  | EV_BOOLEAN
  | EV_OBJECT
  | EV_NULL
  | EV_VOID
  deriving DecidableEq, Repr

/-- The enumeration `ExtObject::EO_TYPE`. -/
inductive EO_TYPE where
  | EO_OBJECT
  | EO_ARRAY
  deriving DecidableEq, Repr

open EV_TYPE EO_TYPE

mutual
/-- The class `ExtVariant`: fields `type`, `strValue`, `intValue`, `doubleValue`,
`booleanValue`, `objectValue`. -/
inductive ExtVariant where
  | mk (type : EV_TYPE) (strValue : String) (intValue : Int) (doubleValue : Double)
      (booleanValue : Bool) (objectValue : ExtObject)
/-- The class `ExtObject`: fields `type` and `properties`. -/
inductive ExtObject where
  | mk (type : EO_TYPE) (properties : List (ExtIdentifier × ExtVariant))
end

namespace ExtObject

/-- Field `type`. -/
def type : ExtObject → EO_TYPE
  | mk t _ => t

/-- Field `properties`. -/
def properties : ExtObject → PropertyMap ExtVariant
  | mk _ p => p

/-- The constructor `ExtObject::ExtObject()`. -/
def mkDefault : ExtObject := mk EO_OBJECT []

/-- The copy constructor and `operator=`: the type and a copy of the whole map. -/
def copy (other : ExtObject) : ExtObject := mk other.type other.properties

/-- The accessor `getType`. -/
def getType (self : ExtObject) : EO_TYPE := self.type

/-- The mutator `setType`. -/
def setType (self : ExtObject) (t : EO_TYPE) : ExtObject := mk t self.properties

/-- The accessor `getLength`: the number of properties. -/
def getLength (self : ExtObject) : Nat := self.properties.length

/-- The method `ExtObject::hasProperty`. -/
def hasProperty (self : ExtObject) (id : ExtIdentifier) : Bool :=
  (PropertyMap.find self.properties id).isSome

/-- The method `ExtObject::getProperty`; `none` is the `NULL` result, otherwise a copy
of the stored variant. -/
def getProperty (self : ExtObject) (id : ExtIdentifier) : Option ExtVariant :=
  match PropertyMap.find self.properties id with
  | none => none
  | some it => some it.2

/-- The method `ExtObject::setProperty`. -/
def setProperty (self : ExtObject) (id : ExtIdentifier) (value : ExtVariant) : ExtObject :=
  mk self.type (PropertyMap.assign self.properties id value)

/-- The method `ExtObject::removeProperty`: the returned flag and the object afterwards. -/
def removeProperty (self : ExtObject) (id : ExtIdentifier) : Bool × ExtObject :=
  match PropertyMap.find self.properties id with
  | none => (false, self)
  | some _ => (true, mk self.type (PropertyMap.erase self.properties id))

/-- The method `ExtObject::enumerate`: the returned flag, the copies of the keys in map
order, and `*count`. -/
def enumerate (self : ExtObject) : Bool × List ExtIdentifier × Nat :=
  (true, self.properties.map (fun e => ExtIdentifier.copy e.1),
    toUInt32 self.properties.length)

/-- The property map of the object satisfies the `std::map` invariant. -/
def WellFormed (self : ExtObject) : Prop := PropertyMap.Sorted self.properties

end ExtObject

namespace ExtVariant

/-- Field `type`. -/
def type : ExtVariant → EV_TYPE
  | mk t _ _ _ _ _ => t

/-- Field `strValue`. -/
def strValue : ExtVariant → String
  | mk _ s _ _ _ _ => s

/-- Field `intValue`. -/
def intValue : ExtVariant → Int
  | mk _ _ i _ _ _ => i

/-- Field `doubleValue`. -/
def doubleValue : ExtVariant → Double
  | mk _ _ _ d _ _ => d

/-- Field `booleanValue`. -/
def booleanValue : ExtVariant → Bool
  | mk _ _ _ _ b _ => b

/-- Field `objectValue`. -/
def objectValue : ExtVariant → ExtObject
  | mk _ _ _ _ _ o => o

/-- The constructor `ExtVariant::ExtVariant()`. -/
def mkDefault : ExtVariant := mk EV_VOID "" 0 Double.zero false ExtObject.mkDefault

/-- The constructor `ExtVariant::ExtVariant(const std::string&)`. -/
def ofString (value : String) : ExtVariant :=
  mk EV_STRING value 0 Double.zero false ExtObject.mkDefault

/-- The constructor `ExtVariant::ExtVariant(const char*)`; `value` is the content of
the C string. -/
def ofCString (value : String) : ExtVariant :=
  mk EV_STRING value 0 Double.zero false ExtObject.mkDefault

/-- The constructor `ExtVariant::ExtVariant(int32_t)`. -/
def ofInt32 (value : Int) : ExtVariant :=
  mk EV_INT32 "" value Double.zero false ExtObject.mkDefault

/-- The constructor `ExtVariant::ExtVariant(double)`. -/
def ofDouble (value : Double) : ExtVariant :=
  mk EV_DOUBLE "" 0 value false ExtObject.mkDefault

/-- The constructor `ExtVariant::ExtVariant(bool)`. -/
def ofBool (value : Bool) : ExtVariant :=
  mk EV_BOOLEAN "" 0 Double.zero value ExtObject.mkDefault

/-- The copy constructor `ExtVariant::ExtVariant(const ExtVariant&)`: every field is
copied. -/
def copy (other : ExtVariant) : ExtVariant :=
  mk other.type other.strValue other.intValue other.doubleValue other.booleanValue
    (ExtObject.copy other.objectValue)

end ExtVariant

/-! ## Values of the scripting runtime -/

/-- Modelled from the spec: the name object that the enumeration protocol hands out
(`nextName`, declared in `asobject.h`). The source asks a name for its tag, and then
either for `toInt()` (tag `T_INTEGER`) or for `toString().raw_buf()` (any other tag);
a name is therefore carried as one of these two observations. -/
inductive ASName where
  | Integer (value : Int)
  | Other (text : String)
  deriving DecidableEq, Repr

/-- Modelled from the spec: a value of the scripting runtime (`ASObject`, declared in
`asobject.h`), one constructor per tag that the source distinguishes, with the payload
that the source reads for it: the C string of a `T_STRING`, the `int32_t` of a
`T_INTEGER`, the `double` of a `T_NUMBER`, the coerced flag of a `T_BOOLEAN`. An
aggregate (`T_ARRAY`, `T_OBJECT`) is carried by what its enumeration protocol yields:
the finite sequence of names and values, in enumeration order, an entry pairing what
`nextName(index, ...)` and `nextValue(index-1, ...)` return after one successful
`hasNext`. `Other` is any remaining tag. -/
inductive ASObject where
  | ASString (s : String)
  | Integer (i : Int)
  | Number (d : Double)
  | Boolean (b : Bool)
  | Array (entries : List (ASName × ASObject))
  | Object (entries : List (ASName × ASObject))
  | Null
  | Undefined
  | Other (tag : Nat)

namespace ASObject

/-- Modelled from the spec: the enumeration of a native array whose elements, from index
`i` on, are `slots`: each element under the `T_INTEGER` name of its index. -/
def arrayEntries : Nat → List ASObject → List (ASName × ASObject)
  | _, [] => []
  | i, v :: t => (ASName.Integer (i : Int), v) :: arrayEntries (i + 1) t

/-- Modelled from the spec: the native array obtained from `Class<Array>::getInstanceS()`
by `resize(n)` and `set(i, slots[i])` for every index below `n`. -/
def mkArray (slots : List ASObject) : ASObject := Array (arrayEntries 0 slots)

/-- Modelled from the spec: the effect of `setVariableByQName(name, "", value)` on the
variables of a native object; a variable of that name is overwritten, otherwise one is
added. -/
def setVariableByQName :
    List (ASName × ASObject) → String → ASObject → List (ASName × ASObject)
  | [], name, value => [(ASName.Other name, value)]
  | (n, w) :: t, name, value =>
    if n = ASName.Other name then (n, value) :: t
    else (n, w) :: setVariableByQName t name value

/-- A primitive runtime value: one of tag `T_STRING`, `T_INTEGER`, `T_NUMBER`,
`T_BOOLEAN`, `T_NULL` or `T_UNDEFINED`; the payload of a string is a C string, so it
holds no NUL. -/
def isPrimitive : ASObject → Bool
  | ASString s => decide (cstr s = s)
  | Integer _ => true
  | Number _ => true
  | Boolean _ => true
  | Null => true
  | Undefined => true
  | Array _ => false
  | Object _ => false
  | Other _ => false

end ASObject

/-! ## Conversion of an ExtVariant to a runtime value -/

/-- The two statements `property = objValue->getProperty(id)` and
`property->getASObject()`, read from the table that holds, under each key of the
object, the conversion of the property stored there. A `NULL` property is dereferenced
by the source: the result is then `none`. -/
def fetchConverted (table : PropertyMap (Option ASObject)) (id : ExtIdentifier) :
    Option ASObject :=
  match PropertyMap.find table id with
  | none => none
  | some it => it.2

/-- The loop `for(uint32_t i = 0; i < count; i++)` of the array branch of
`ExtVariant::getASObject`, entered at index `i` with `remaining = count - i`; the
result is the list of the values given to `set(i, ...)`. -/
def arrayLoop (table : PropertyMap (Option ASObject)) : Nat → Nat → Option (List ASObject)
  | 0, _ => some []
  | remaining + 1, i =>
    match fetchConverted table (ExtIdentifier.ofInt32 (toInt32 (i : Int))) with
    | none => none
    | some value =>
      match arrayLoop table remaining (i + 1) with
      | none => none
      | some rest => some (value :: rest)

/-- The loop `for(uint32_t i = 0; i < count; i++)` of the object branch of
`ExtVariant::getASObject` over the enumerated identifiers that remain. The state is the
variables of `asobj` and the content of the stream `conv`, which is declared before the
loop and written to by every integer key. -/
def objectLoop (table : PropertyMap (Option ASObject)) :
    List ExtIdentifier → List (ASName × ASObject) → String → Option (List (ASName × ASObject))
  | [], asobj, _ => some asobj
  | id :: ids, asobj, conv =>
    match fetchConverted table id with
    | none => none
    | some value =>
      if id.type = EI_TYPE.EI_STRING then
        objectLoop table ids (ASObject.setVariableByQName asobj id.strValue value) conv
      else
        let conv1 : String := String.mk (conv.data ++ intToText id.intValue)
        objectLoop table ids (ASObject.setVariableByQName asobj (cstr conv1) value) conv1

mutual
/-- The method `ExtVariant::getASObject`; `none` when a `NULL` property is
dereferenced on the way. -/
def ExtVariant.getASObject : ExtVariant → Option ASObject
  | .mk type strValue intValue doubleValue booleanValue objectValue =>
    match type with
    | EV_STRING => some (ASObject.ASString (cstr strValue))
    | EV_INT32 => some (ASObject.Integer intValue)
    | EV_DOUBLE => some (ASObject.Number doubleValue)
    | EV_BOOLEAN => some (ASObject.Boolean booleanValue)
    | EV_OBJECT => ExtObject.getASObject objectValue
    | EV_NULL => some ASObject.Null
    | EV_VOID => some ASObject.Undefined
/-- The case `EV_OBJECT` of `ExtVariant::getASObject`, on the copy `objValue` of the
object. The recursive conversions of the stored properties are tabulated by
`convertProperties`; the loops fetch from that table. -/
def ExtObject.getASObject : ExtObject → Option ASObject
  | .mk type properties =>
    let table := convertProperties properties
    match type with
    | EO_ARRAY =>
      match arrayLoop table (toUInt32 properties.length) 0 with
      | none => none
      | some slots => some (ASObject.mkArray slots)
    | EO_OBJECT =>
      let en := ExtObject.enumerate (.mk type properties)
      match objectLoop table (en.2.1.take en.2.2) [] "" with
      | none => none
      | some vars => some (ASObject.Object vars)
/-- The conversion `getASObject` of every stored property, key by key. -/
def convertProperties :
    List (ExtIdentifier × ExtVariant) → List (ExtIdentifier × Option ASObject)
  | [] => []
  | (k, v) :: t => (k, ExtVariant.getASObject v) :: convertProperties t
end

/-! ## Conversion of a runtime value to an ExtVariant -/

mutual
/-- The constructor `ExtVariant::ExtVariant(ASObject*)`. -/
def ExtVariant.ofASObject : ASObject → ExtVariant
  | .ASString s => .mk EV_STRING s 0 Double.zero false ExtObject.mkDefault
  | .Integer i => .mk EV_INT32 "" i Double.zero false ExtObject.mkDefault
  | .Number d => .mk EV_DOUBLE "" 0 d false ExtObject.mkDefault
  | .Boolean b => .mk EV_BOOLEAN "" 0 Double.zero b ExtObject.mkDefault
  | .Array entries =>
    .mk EV_OBJECT "" 0 Double.zero false
      (enumerationLoop entries (ExtObject.setType ExtObject.mkDefault EO_ARRAY))
  | .Object entries =>
    .mk EV_OBJECT "" 0 Double.zero false (enumerationLoop entries ExtObject.mkDefault)
  | .Null => .mk EV_NULL "" 0 Double.zero false ExtObject.mkDefault
  | .Undefined => .mk EV_VOID "" 0 Double.zero false ExtObject.mkDefault
  | .Other _ => .mk EV_VOID "" 0 Double.zero false ExtObject.mkDefault
/-- The loop `while(other->hasNext(index, hasNext) && hasNext)` of the constructor, over
the entries that the enumeration still yields, acting on `objectValue`. -/
def enumerationLoop : List (ASName × ASObject) → ExtObject → ExtObject
  | [], objectValue => objectValue
  | (nextName, nextValue) :: rest, objectValue =>
    match nextName with
    | .Integer value =>
      enumerationLoop rest
        (objectValue.setProperty (ExtIdentifier.ofInt32 value) (ExtVariant.ofASObject nextValue))
    | .Other text =>
      enumerationLoop rest
        (objectValue.setProperty (ExtIdentifier.ofCString text) (ExtVariant.ofASObject nextValue))
end

/-! ## ExtCallbackFunction -/

/-- The identifier under which the enumeration loop of `ExtVariant::ExtVariant(ASObject*)`
stores an entry of the given name. -/
def ASName.toIdentifier : ASName → ExtIdentifier
  | .Integer value => ExtIdentifier.ofInt32 value
  | .Other text => ExtIdentifier.ofCString text

/-- The native values of the object round trip: a primitive value, or a generic object
(finite and acyclic, as every value of this type) with fewer than `2^32` properties,
whose property names are pairwise distinct strings, none of them the canonical decimal
text of a 32-bit integer, and whose property values are again such values. -/
inductive ASObject.RoundTrippable : ASObject → Prop where
  | primitive (x : ASObject) (h : x.isPrimitive = true) : ASObject.RoundTrippable x
  | object (entries : List (ASName × ASObject))
      (hcount : entries.length < 4294967296)
      (hnames : ∀ e ∈ entries, ∃ text : String,
        e.1 = ASName.Other text ∧ ¬ ∃ n : Int, isCanonicalInt32 text n)
      (hdistinct : (entries.map (fun e => e.1)).Nodup)
      (hvalues : ∀ e ∈ entries, ASObject.RoundTrippable e.2) :
      ASObject.RoundTrippable (ASObject.Object entries)

/-- Equality of two native values up to the enumeration order of object properties:
two primitive values are the same value; two generic objects have exactly the same set
of property names and, under each name, values that are equal in this sense. -/
inductive ASObject.SameValue : ASObject → ASObject → Prop where
  | primitive (x : ASObject) (h : x.isPrimitive = true) : ASObject.SameValue x x
  | object (es1 es2 : List (ASName × ASObject))
      (hnames : ∀ name : ASName, (∃ v, (name, v) ∈ es1) ↔ (∃ v, (name, v) ∈ es2))
      (hvalues : ∀ (name : ASName) (v1 v2 : ASObject),
        (name, v1) ∈ es1 → (name, v2) ∈ es2 → ASObject.SameValue v1 v2) :
      ASObject.SameValue (ASObject.Object es1) (ASObject.Object es2)

/-! ## Termination of the two conversions -/

/-- A variant on which `getASObject` meets no absent property: at every level, the
property map of an object that is reached is valid, and the keys of an `EO_ARRAY`
object are exactly the integer identifiers `0 .. n-1`, with `n` within `int32_t`. -/
inductive ExtVariant.Convertible : ExtVariant → Prop where
  | leaf (type : EV_TYPE) (strValue : String) (intValue : Int) (doubleValue : Double)
      (booleanValue : Bool) (objectValue : ExtObject) (h : type ≠ EV_OBJECT) :
      ExtVariant.Convertible
        (ExtVariant.mk type strValue intValue doubleValue booleanValue objectValue)
  | object (strValue : String) (intValue : Int) (doubleValue : Double) (booleanValue : Bool)
      (type : EO_TYPE) (properties : List (ExtIdentifier × ExtVariant))
      (hvalid : PropertyMap.Sorted properties)
      (hdense : type = EO_ARRAY →
        PropertyMap.denseFrom 0 properties = true ∧ properties.length < 2147483648)
      (hvalues : ∀ e ∈ properties, ExtVariant.Convertible e.2) :
      ExtVariant.Convertible
        (ExtVariant.mk EV_OBJECT strValue intValue doubleValue booleanValue
          (ExtObject.mk type properties))

mutual
/-- The nesting depth of a native value: the longest chain of property values below
it. -/
def ASObject.depth : ASObject → Nat
  | .Array entries => entriesDepth entries
  | .Object entries => entriesDepth entries
  | .ASString _ => 0
  | .Integer _ => 0
  | .Number _ => 0
  | .Boolean _ => 0
  | .Null => 0
  | .Undefined => 0
  | .Other _ => 0
/-- The nesting depth contributed by the entries of an aggregate. -/
def entriesDepth : List (ASName × ASObject) → Nat
  | [] => 0
  | (_, value) :: rest => max (ASObject.depth value + 1) (entriesDepth rest)
end

/-- Modelled from the spec: a value of the scripting runtime as the runtime holds it,
reached through a pointer: like `ASObject`, except that the enumeration of an
aggregate yields the addresses of the property values, so that an aggregate can refer
to itself. -/
inductive ASNode where
  | ASString (s : String)
  | Integer (i : Int)
  | Number (d : Double)
  | Boolean (b : Bool)
  | Array (entries : List (ASName × Nat))
  | Object (entries : List (ASName × Nat))
  | Null
  | Undefined
  | Other (tag : Nat)

/-- The loop `while(other->hasNext(index, hasNext) && hasNext)` of the constructor on
pointers; `convert` is the constructor applied to the pointer `nextValue`, with no
result when that call does not return. -/
def enumerationLoopWith (convert : Nat → Option ExtVariant) :
    List (ASName × Nat) → ExtObject → Option ExtObject
  | [], objectValue => some objectValue
  | (nextName, nextValue) :: rest, objectValue =>
    match convert nextValue with
    | none => none
    | some value =>
      match nextName with
      | .Integer i =>
        enumerationLoopWith convert rest (objectValue.setProperty (ExtIdentifier.ofInt32 i) value)
      | .Other text =>
        enumerationLoopWith convert rest
          (objectValue.setProperty (ExtIdentifier.ofCString text) value)

/-- The constructor `ExtVariant::ExtVariant(ASObject*)` on the pointer `other` into the
memory `heap` of the runtime, with a bound on the depth of the nested constructor
calls: the result is `none` when the recursion would go deeper than the bound. -/
def ExtVariant.ofPointer (heap : Nat → ASNode) : Nat → Nat → Option ExtVariant
  | 0, _ => none
  | bound + 1, other =>
    match heap other with
    | .ASString s => some (.mk EV_STRING s 0 Double.zero false ExtObject.mkDefault)
    | .Integer i => some (.mk EV_INT32 "" i Double.zero false ExtObject.mkDefault)
    | .Number d => some (.mk EV_DOUBLE "" 0 d false ExtObject.mkDefault)
    | .Boolean b => some (.mk EV_BOOLEAN "" 0 Double.zero b ExtObject.mkDefault)
    | .Array entries =>
      match enumerationLoopWith (ExtVariant.ofPointer heap bound) entries
          (ExtObject.setType ExtObject.mkDefault EO_ARRAY) with
      | none => none
      | some objectValue => some (.mk EV_OBJECT "" 0 Double.zero false objectValue)
    | .Object entries =>
      match enumerationLoopWith (ExtVariant.ofPointer heap bound) entries
          ExtObject.mkDefault with
      | none => none
      | some objectValue => some (.mk EV_OBJECT "" 0 Double.zero false objectValue)
    | .Null => some (.mk EV_NULL "" 0 Double.zero false ExtObject.mkDefault)
    | .Undefined => some (.mk EV_VOID "" 0 Double.zero false ExtObject.mkDefault)
    | .Other _ => some (.mk EV_VOID "" 0 Double.zero false ExtObject.mkDefault)

mutual
/-- The pointer `other` into `heap` holds the finite acyclic value given as a tree. -/
def Represents (heap : Nat → ASNode) : Nat → ASObject → Prop
  | other, .ASString s => heap other = ASNode.ASString s
  | other, .Integer i => heap other = ASNode.Integer i
  | other, .Number d => heap other = ASNode.Number d
  | other, .Boolean b => heap other = ASNode.Boolean b
  | other, .Array entries =>
    ∃ pointers, heap other = ASNode.Array pointers ∧ RepresentsEntries heap pointers entries
  | other, .Object entries =>
    ∃ pointers, heap other = ASNode.Object pointers ∧ RepresentsEntries heap pointers entries
  | other, .Null => heap other = ASNode.Null
  | other, .Undefined => heap other = ASNode.Undefined
  | other, .Other tag => heap other = ASNode.Other tag
/-- The enumeration `pointers` yields, entry by entry, the names of `entries` and
pointers that hold the values of `entries`. -/
def RepresentsEntries (heap : Nat → ASNode) :
    List (ASName × Nat) → List (ASName × ASObject) → Prop
  | [], [] => True
  | [], _ :: _ => False
  | _ :: _, [] => False
  | (n, q) :: ps, (m, value) :: es =>
    n = m ∧ Represents heap q value ∧ RepresentsEntries heap ps es
end

/-- A memory of the runtime in which the address 0 holds a generic object whose single
property, `self`, is the object at address 0, so that this object refers to itself;
the other addresses hold the undefined value. -/
def selfReferentialHeap : Nat → ASNode :=
  fun address =>
    if address = 0 then ASNode.Object [(ASName.Other "self", 0)] else ASNode.Undefined

/-! ## Statement of the aggregate conversion -/

/-- The identifier reduced to its kind and its active field: two identifiers are
equivalent keys exactly when they normalise to the same identifier. -/
def ExtIdentifier.normalize (k : ExtIdentifier) : ExtIdentifier :=
  if k.type = EI_TYPE.EI_INT32 then
    { type := EI_TYPE.EI_INT32, strValue := "", intValue := k.intValue }
  else
    { type := EI_TYPE.EI_STRING, strValue := k.strValue, intValue := 0 }

/-- The value of the last enumerated entry whose name normalises to the same key as
`id`, if there is one. -/
def lastEntryFor : List (ASName × ASObject) → ExtIdentifier → Option ASObject
  | [], _ => none
  | (name, value) :: rest, id =>
    match lastEntryFor rest id with
    | some later => some later
    | none => if name.toIdentifier.normalize = id.normalize then some value else none

/-! # Properties -/

open EI_TYPE

/-! ## Decimal text -/

theorem digitVal_digitChar (d : Nat) (h : d < 10) : digitVal (digitChar d) = d := by
  have key : ∀ d : Fin 10, digitVal (digitChar d.val) = d.val := by decide
  exact key ⟨d, h⟩

theorem isDigit_digitChar (d : Nat) (h : d < 10) : isDigit (digitChar d) = true := by
  have key : ∀ d : Fin 10, isDigit (digitChar d.val) = true := by decide
  exact key ⟨d, h⟩

theorem digitChar_eq_zero (d : Nat) (h : d < 10) (h0 : digitChar d = '0') : d = 0 := by
  have key : ∀ d : Fin 10, digitChar d.val = '0' → d.val = 0 := by decide
  exact key ⟨d, h⟩ h0

theorem digitVal_lt (c : Char) (h : isDigit c = true) : digitVal c < 10 := by
  simp only [isDigit, Bool.and_eq_true, decide_eq_true_eq] at h
  unfold digitVal
  omega

theorem digitChar_digitVal (c : Char) (h : isDigit c = true) : digitChar (digitVal c) = c := by
  simp only [isDigit, Bool.and_eq_true, decide_eq_true_eq] at h
  unfold digitVal digitChar
  have : 48 + (c.toNat - 48) = c.toNat := by omega
  rw [this, Char.ofNat_toNat]

theorem natDigitsAux_eq (fuel : Nat) : ∀ (n : Nat) (acc : List Char), n < fuel →
    natDigitsAux fuel n acc =
      (if n = 0 then ['0'] else ((Nat.digits 10 n).reverse.map digitChar)) ++ acc := by
  induction fuel with
  | zero => intro n acc h; omega
  | succ fuel ih =>
    intro n acc h
    unfold natDigitsAux
    by_cases h10 : n < 10
    · rw [if_pos h10]
      by_cases h0 : n = 0
      · subst h0; rfl
      · rw [if_neg h0, Nat.digits_of_lt 10 n h0 h10]; rfl
    · rw [if_neg h10]
      have h0 : n ≠ 0 := by omega
      have hq : n / 10 ≠ 0 := by omega
      have hlt : n / 10 < fuel := by omega
      rw [ih (n / 10) _ hlt, if_neg hq, if_neg h0,
        Nat.digits_def' (by norm_num : 1 < 10) (Nat.pos_of_ne_zero h0)]
      simp

theorem natDigits_eq (n : Nat) :
    natDigits n = if n = 0 then ['0'] else ((Nat.digits 10 n).reverse.map digitChar) := by
  unfold natDigits
  rw [natDigitsAux_eq (n + 1) n [] (Nat.lt_succ_self n), List.append_nil]

theorem decimalValue_digits (L : List Nat) (hL : ∀ l ∈ L, l < 10) :
    decimalValue (L.reverse.map digitChar) = Nat.ofDigits 10 L := by
  induction L with
  | nil => rfl
  | cons d L ih =>
    have hd : d < 10 := hL d (List.mem_cons_self _ _)
    have hL1 : ∀ l ∈ L, l < 10 := fun l hl => hL l (List.mem_cons_of_mem _ hl)
    have ih1 := ih hL1
    unfold decimalValue at ih1 ⊢
    rw [List.reverse_cons, List.map_append, List.foldl_append, ih1, Nat.ofDigits_cons]
    simp only [List.map_cons, List.map_nil, List.foldl_cons, List.foldl_nil]
    rw [digitVal_digitChar d hd]
    omega

theorem decimalValue_natDigits (n : Nat) : decimalValue (natDigits n) = n := by
  rw [natDigits_eq]
  by_cases h0 : n = 0
  · subst h0; rfl
  · rw [if_neg h0, decimalValue_digits _ (fun l hl => Nat.digits_lt_base (by norm_num) hl),
      Nat.ofDigits_digits]

theorem isCanonicalDigits_natDigits (n : Nat) : isCanonicalDigits (natDigits n) = true := by
  rw [natDigits_eq]
  by_cases h0 : n = 0
  · subst h0; rfl
  · rw [if_neg h0]
    have hne : Nat.digits 10 n ≠ [] := Nat.digits_ne_nil_iff_ne_zero.mpr h0
    have hlast := Nat.getLast_digit_ne_zero 10 h0
    have hlt : ∀ l ∈ Nat.digits 10 n, l < 10 := fun l hl => Nat.digits_lt_base (by norm_num) hl
    unfold isCanonicalDigits
    simp only [Bool.and_eq_true, Bool.or_eq_true, Bool.not_eq_true', List.all_eq_true]
    refine ⟨⟨?_, ?_⟩, Or.inl ?_⟩
    · cases hd : Nat.digits 10 n with
      | nil => exact absurd hd hne
      | cons a t => simp
    · intro c hc
      simp only [List.mem_map, List.mem_reverse] at hc
      obtain ⟨d, hd, rfl⟩ := hc
      exact isDigit_digitChar d (hlt d hd)
    · rw [List.head?_map, List.head?_reverse, List.getLast?_eq_getLast _ hne]
      simp only [Option.map_some', bne_iff_ne, ne_eq, Option.some.injEq]
      intro hc
      exact hlast (digitChar_eq_zero _ (hlt _ (List.getLast_mem hne)) hc)

theorem natDigits_decimalValue (ds : List Char) (h : isCanonicalDigits ds = true) :
    natDigits (decimalValue ds) = ds := by
  unfold isCanonicalDigits at h
  simp only [Bool.and_eq_true, Bool.or_eq_true, Bool.not_eq_true', List.all_eq_true,
    bne_iff_ne, ne_eq, beq_iff_eq] at h
  obtain ⟨⟨hne, hall⟩, hhead⟩ := h
  by_cases hz : ds = ['0']
  · subst hz; rfl
  · have hh : ds.head? ≠ some '0' := by
      rcases hhead with h1 | h1
      · exact h1
      · exact absurd h1 hz
    let L : List Nat := (ds.map digitVal).reverse
    have hds : ds = L.reverse.map digitChar := by
      simp only [L, List.reverse_reverse, List.map_map]
      conv_lhs => rw [← List.map_id ds]
      apply List.map_congr_left
      intro c hc
      simp [digitChar_digitVal c (hall c hc)]
    have hL : ∀ l ∈ L, l < 10 := by
      intro l hl
      simp only [L, List.mem_reverse, List.mem_map] at hl
      obtain ⟨c, hc, rfl⟩ := hl
      exact digitVal_lt c (hall c hc)
    have hlast : ∀ hn : L ≠ [], L.getLast hn ≠ 0 := by
      intro hn h0
      cases hd : ds with
      | nil => simp [hd] at hne
      | cons c t =>
        have hL2 : L = (t.map digitVal).reverse ++ [digitVal c] := by
          simp [L, hd]
        have : L.getLast hn = digitVal c := by
          simp [hL2]
        rw [this] at h0
        have hc : isDigit c = true := hall c (by simp [hd])
        have : c = '0' := by
          rw [← digitChar_digitVal c hc, h0]; rfl
        rw [hd, this] at hh
        simp at hh
    have hval : decimalValue ds = Nat.ofDigits 10 L := by
      conv_lhs => rw [hds]
      exact decimalValue_digits L hL
    have hdig := Nat.digits_ofDigits 10 (by norm_num) L hL hlast
    have hLne : L ≠ [] := by
      intro hn
      simp only [L, List.reverse_eq_nil_iff, List.map_eq_nil_iff] at hn
      simp [hn] at hne
    have hnz : Nat.ofDigits 10 L ≠ 0 := by
      intro h0
      rw [h0] at hdig
      simp at hdig
      exact hLne hdig
    rw [hval, natDigits_eq, if_neg hnz, hdig]
    exact hds.symm

/-! ## The functions atoi and stringToInt -/

theorem toInt32_range (v : Int) : -2147483648 ≤ toInt32 v ∧ toInt32 v ≤ 2147483647 := by
  unfold toInt32
  omega

theorem toInt32_of_range (v : Int) (h1 : -2147483648 ≤ v) (h2 : v ≤ 2147483647) :
    toInt32 v = v := by
  unfold toInt32
  omega

theorem clampLong_of_range (v : Int) (h1 : -2147483648 ≤ v) (h2 : v ≤ 2147483647) :
    clampLong v = v := by
  unfold clampLong
  rw [if_neg (by omega), if_neg (by omega)]

theorem readDigits_eq (ds : List Char) (h : ∀ c ∈ ds, isDigit c = true) (acc : Nat) :
    readDigits ds acc = ds.foldl (fun a c => a * 10 + digitVal c) acc := by
  induction ds generalizing acc with
  | nil => rfl
  | cons c t ih =>
    unfold readDigits
    rw [if_pos (h c (List.mem_cons_self _ _)), List.foldl_cons]
    exact ih (fun c hc => h c (List.mem_cons_of_mem _ hc)) _

theorem isDigit_not_special (c : Char) (h : isDigit c = true) :
    isSpace c = false ∧ c ≠ '-' ∧ c ≠ '+' ∧ c.toNat ≠ 0 := by
  simp only [isDigit, Bool.and_eq_true, decide_eq_true_eq] at h
  refine ⟨?_, ?_, ?_, ?_⟩
  · simp only [isSpace, Bool.or_eq_false_iff, decide_eq_false_iff_not, Bool.and_eq_false_iff]
    omega
  · rintro rfl; revert h; decide
  · rintro rfl; revert h; decide
  · omega

theorem strtol_digits (ds : List Char) (hne : ds ≠ []) (h : ∀ c ∈ ds, isDigit c = true) :
    strtol ds = clampLong (decimalValue ds : Int) := by
  cases ds with
  | nil => exact absurd rfl hne
  | cons c t =>
    obtain ⟨hs, hm, hp, _⟩ := isDigit_not_special c (h c (List.mem_cons_self _ _))
    have hskip : skipSpace (c :: t) = c :: t := by
      unfold skipSpace; rw [hs]; rfl
    unfold strtol
    rw [hskip]
    split
    · rename_i heq; injection heq with h1 _; exact absurd h1 hm
    · rename_i heq; injection heq with h1 _; exact absurd h1 hp
    · rw [readDigits_eq _ h]; rfl

theorem strtol_minus (ds : List Char) (h : ∀ c ∈ ds, isDigit c = true) :
    strtol ('-' :: ds) = clampLong (-(decimalValue ds : Int)) := by
  have hskip : skipSpace ('-' :: ds) = '-' :: ds := by
    unfold skipSpace; rfl
  unfold strtol
  rw [hskip]
  simp only
  rw [readDigits_eq _ h]; rfl

theorem cstr_eq_self (s : String) (h : ∀ c ∈ s.data, c.toNat ≠ 0) : cstr s = s := by
  unfold cstr
  have : s.data.takeWhile (fun c => c.toNat != 0) = s.data := by
    rw [List.takeWhile_eq_self_iff]
    intro c hc
    simpa using h c hc
  rw [this]

theorem isCanonicalDigits_spec (ds : List Char) (h : isCanonicalDigits ds = true) :
    ds ≠ [] ∧ (∀ c ∈ ds, isDigit c = true) := by
  unfold isCanonicalDigits at h
  simp only [Bool.and_eq_true, Bool.or_eq_true, Bool.not_eq_true', List.all_eq_true,
    List.isEmpty_eq_false] at h
  refine ⟨?_, h.1.2⟩
  intro hn
  have := h.1.1
  simp [hn] at this

theorem intToText_canonical (n : Int) (h1 : -2147483648 ≤ n) (h2 : n ≤ 2147483647) :
    isCanonicalInt32 (String.mk (intToText n)) n := by
  refine ⟨h1, h2, ?_⟩
  unfold intToText
  by_cases hn : n < 0
  · rw [if_pos hn]
    right
    refine ⟨natDigits n.natAbs, rfl, isCanonicalDigits_natDigits _, ?_, ?_⟩
    · intro hz
      have hv := decimalValue_natDigits n.natAbs
      rw [hz] at hv
      have : decimalValue ['0'] = 0 := rfl
      omega
    · rw [decimalValue_natDigits]; omega
  · rw [if_neg hn]
    left
    refine ⟨isCanonicalDigits_natDigits _, ?_⟩
    show n = (decimalValue (natDigits n.natAbs) : Int)
    rw [decimalValue_natDigits]; omega

theorem canonical_roundtrip (s : String) (n : Int) (h : isCanonicalInt32 s n) :
    atoi (cstr s) = n ∧ String.mk (intToText n) = s := by
  obtain ⟨h1, h2, hc⟩ := h
  rcases hc with ⟨hcan, hv⟩ | ⟨ds, hs, hcan, hnz, hv⟩
  · obtain ⟨hne, hall⟩ := isCanonicalDigits_spec _ hcan
    have hcs : cstr s = s := cstr_eq_self s (fun c hc => (isDigit_not_special c (hall c hc)).2.2.2)
    constructor
    · rw [hcs]; unfold atoi
      rw [strtol_digits _ hne hall, ← hv, clampLong_of_range n h1 h2, toInt32_of_range n h1 h2]
    · have hn0 : ¬ n < 0 := by omega
      have hab : n.natAbs = decimalValue s.data := by omega
      unfold intToText
      rw [if_neg hn0, hab, natDigits_decimalValue _ hcan]
  · obtain ⟨hne, hall⟩ := isCanonicalDigits_spec _ hcan
    have hcs : cstr s = s := by
      apply cstr_eq_self
      intro c hc
      rw [hs] at hc
      rcases List.mem_cons.mp hc with rfl | hc
      · decide
      · exact (isDigit_not_special c (hall c hc)).2.2.2
    have hpos : decimalValue ds ≠ 0 := by
      intro h0
      have := natDigits_decimalValue ds hcan
      rw [h0] at this
      exact hnz this.symm
    constructor
    · rw [hcs]; unfold atoi
      rw [hs, strtol_minus _ hall, ← hv, clampLong_of_range n h1 h2, toInt32_of_range n h1 h2]
    · have hn0 : n < 0 := by omega
      have hab : n.natAbs = decimalValue ds := by omega
      unfold intToText
      rw [if_pos hn0, hab, natDigits_decimalValue _ hcan, ← hs]

theorem ExtIdentifier.ofString_int32_iff (s : String) (n : Int) :
    ((ExtIdentifier.ofString s).type = EI_INT32 ∧ (ExtIdentifier.ofString s).intValue = n) ↔
      isCanonicalInt32 s n := by
  unfold ExtIdentifier.ofString ExtIdentifier.stringToInt
  simp only
  constructor
  · rintro ⟨ht, hv⟩
    by_cases hc : String.mk (intToText (atoi (cstr s))) = s
    · rw [if_pos hc] at hv
      simp only at hv
      have hr := toInt32_range (strtol (cstr s).data)
      have := intToText_canonical (atoi (cstr s)) hr.1 hr.2
      rw [hc, hv] at this
      exact this
    · rw [if_neg hc] at ht
      simp at ht
  · intro h
    obtain ⟨ha, ht⟩ := canonical_roundtrip s n h
    rw [ha, if_pos ht]
    exact ⟨rfl, rfl⟩

theorem ExtIdentifier.ofString_strValue (s : String) : (ExtIdentifier.ofString s).strValue = s := by
  unfold ExtIdentifier.ofString ExtIdentifier.stringToInt
  simp only
  split <;> rfl

theorem ExtIdentifier.ofString_type_string (s : String) (h : ¬ ∃ n : Int, isCanonicalInt32 s n) :
    (ExtIdentifier.ofString s).type = EI_STRING := by
  cases ht : (ExtIdentifier.ofString s).type with
  | EI_STRING => rfl
  | EI_INT32 => exact absurd ⟨_, (ExtIdentifier.ofString_int32_iff s _).mp ⟨ht, rfl⟩⟩ h

/-- C1. Constructing an identifier from a string `s` (either string constructor) gives
kind `EI_INT32` with `intValue = n` exactly when `s` is the canonical decimal text of the
32-bit signed integer `n`; for every other string the kind stays `EI_STRING`; the field
`strValue` is `s` in both cases. The strings listed by the claim stay `EI_STRING`. -/
theorem C1_string_constructor_promotes_canonical_decimal (s : String) :
    (∀ n : Int, ((ExtIdentifier.ofString s).type = EI_INT32 ∧
        (ExtIdentifier.ofString s).intValue = n) ↔ isCanonicalInt32 s n) ∧
    ((¬ ∃ n : Int, isCanonicalInt32 s n) →
        (ExtIdentifier.ofString s).type = EI_STRING) ∧
    (ExtIdentifier.ofString s).strValue = s ∧
    ExtIdentifier.ofCString s = ExtIdentifier.ofString s ∧
    (∀ t ∈ ["", "-0", "007", "+5", "12abc", "2147483648"],
        (ExtIdentifier.ofString t).type = EI_STRING ∧ (ExtIdentifier.ofString t).strValue = t) :=
  ⟨ExtIdentifier.ofString_int32_iff s, ExtIdentifier.ofString_type_string s,
    ExtIdentifier.ofString_strValue s, rfl, by decide⟩

/-! ## The comparator -/

theorem char_toNat_inj (a b : Char) (h : a.toNat = b.toNat) : a = b := by
  rw [← Char.ofNat_toNat a, ← Char.ofNat_toNat b, h]

theorem stringLess_iff_lex (a b : List Char) :
    stringLess a b = true ↔ List.Lex (fun x y : Char => x.toNat < y.toNat) a b := by
  induction a generalizing b with
  | nil =>
    cases b with
    | nil => simp [stringLess]
    | cons y bs => simp [stringLess, List.Lex.nil]
  | cons x as ih =>
    cases b with
    | nil => simp [stringLess]
    | cons y bs =>
      unfold stringLess
      by_cases h1 : x.toNat < y.toNat
      · simp only [h1, if_true, true_iff]
        exact List.Lex.rel h1
      · by_cases h2 : y.toNat < x.toNat
        · simp only [h1, h2, if_true, if_false, Bool.false_eq_true, false_iff]
          intro hl
          cases hl with
          | cons h => omega
          | rel h => omega
        · have hxy : x = y := char_toNat_inj x y (by omega)
          subst hxy
          simp only [h1, if_false, ih]
          constructor
          · exact fun h => List.Lex.cons h
          · intro hl
            cases hl with
            | cons h => exact h
            | rel h => omega

theorem stringLess_irrefl (a : List Char) : stringLess a a = false := by
  induction a with
  | nil => rfl
  | cons x as ih => unfold stringLess; simp [ih]

theorem stringLess_trans (a b c : List Char) (h1 : stringLess a b = true)
    (h2 : stringLess b c = true) : stringLess a c = true := by
  induction a generalizing b c with
  | nil =>
    cases c with
    | nil => cases b <;> simp [stringLess] at h2
    | cons z cs => rfl
  | cons x as ih =>
    cases b with
    | nil => simp [stringLess] at h1
    | cons y bs =>
      cases c with
      | nil => simp [stringLess] at h2
      | cons z cs =>
        unfold stringLess at h1 h2 ⊢
        by_cases hxy : x.toNat < y.toNat
        · by_cases hyz : y.toNat < z.toNat
          · rw [if_pos (by omega)]
          · by_cases hzy : z.toNat < y.toNat
            · simp [hyz, hzy] at h2
            · rw [if_pos (by omega)]
        · by_cases hyx : y.toNat < x.toNat
          · simp [hxy, hyx] at h1
          · simp only [hxy, hyx, if_false] at h1
            by_cases hyz : y.toNat < z.toNat
            · rw [if_pos (by omega)]
            · by_cases hzy : z.toNat < y.toNat
              · simp [hyz, hzy] at h2
              · simp only [hyz, hzy, if_false] at h2
                rw [if_neg (by omega), if_neg (by omega)]
                exact ih bs cs h1 h2

theorem stringLess_asymm (a b : List Char) (h : stringLess a b = true) :
    stringLess b a = false := by
  cases hba : stringLess b a with
  | false => rfl
  | true =>
    have := stringLess_trans a b a h hba
    rw [stringLess_irrefl] at this
    exact absurd this (by simp)

theorem stringLess_total (a b : List Char) (h1 : stringLess a b = false)
    (h2 : stringLess b a = false) : a = b := by
  induction a generalizing b with
  | nil =>
    cases b with
    | nil => rfl
    | cons y bs => simp [stringLess] at h1
  | cons x as ih =>
    cases b with
    | nil => simp [stringLess] at h2
    | cons y bs =>
      unfold stringLess at h1 h2
      by_cases hxy : x.toNat < y.toNat
      · simp [hxy] at h1
      · by_cases hyx : y.toNat < x.toNat
        · simp [hyx] at h2
        · simp only [hxy, hyx, if_false] at h1 h2
          rw [char_toNat_inj x y (by omega), ih bs h1 h2]

theorem string_eq_of_data (s t : String) (h : s.data = t.data) : s = t := by
  cases s; cases t; simp only at h; rw [h]

namespace ExtIdentifier

theorem lt_irrefl (a : ExtIdentifier) : a.lt a = false := by
  obtain ⟨t, s, i⟩ := a
  cases t <;> simp [lt, stringLess_irrefl]

theorem lt_trans (a b c : ExtIdentifier) (h1 : a.lt b = true) (h2 : b.lt c = true) :
    a.lt c = true := by
  obtain ⟨ta, sa, ia⟩ := a
  obtain ⟨tb, sb, ib⟩ := b
  obtain ⟨tc, sc, ic⟩ := c
  cases ta <;> cases tb <;> cases tc <;> simp [lt] at h1 h2 ⊢
  · exact stringLess_trans _ _ _ h1 h2
  · omega

theorem lt_asymm (a b : ExtIdentifier) (h : a.lt b = true) : b.lt a = false := by
  cases hba : b.lt a with
  | false => rfl
  | true =>
    have := lt_trans a b a h hba
    rw [lt_irrefl] at this
    exact absurd this (by simp)

theorem equiv_iff (a b : ExtIdentifier) :
    a.equiv b = true ↔
      ((a.type = EI_INT32 ∧ b.type = EI_INT32 ∧ a.intValue = b.intValue) ∨
       (a.type = EI_STRING ∧ b.type = EI_STRING ∧ a.strValue = b.strValue)) := by
  obtain ⟨ta, sa, ia⟩ := a
  obtain ⟨tb, sb, ib⟩ := b
  cases ta <;> cases tb <;> simp [equiv, lt]
  · constructor
    · rintro ⟨h1, h2⟩
      exact string_eq_of_data _ _ (stringLess_total _ _ h1 h2)
    · rintro rfl
      exact ⟨stringLess_irrefl _, stringLess_irrefl _⟩
  · omega

theorem equiv_refl (a : ExtIdentifier) : a.equiv a = true := by
  simp [equiv, lt_irrefl]

theorem equiv_symm (a b : ExtIdentifier) (h : a.equiv b = true) : b.equiv a = true := by
  simp only [equiv, Bool.and_eq_true] at h ⊢
  exact ⟨h.2, h.1⟩

theorem equiv_trans (a b c : ExtIdentifier) (h1 : a.equiv b = true) (h2 : b.equiv c = true) :
    a.equiv c = true := by
  rw [equiv_iff] at h1 h2 ⊢
  rcases h1 with ⟨p1, p2, p3⟩ | ⟨p1, p2, p3⟩ <;> rcases h2 with ⟨q1, q2, q3⟩ | ⟨q1, q2, q3⟩
  · exact Or.inl ⟨p1, q2, p3.trans q3⟩
  · rw [p2] at q1; cases q1
  · rw [p2] at q1; cases q1
  · exact Or.inr ⟨p1, q2, p3.trans q3⟩

/-- Equivalent keys compare alike on the right of the comparator. -/
theorem lt_congr_right (k a b : ExtIdentifier) (h : a.equiv b = true) : k.lt a = k.lt b := by
  rw [equiv_iff] at h
  obtain ⟨tk, sk, ik⟩ := k
  obtain ⟨ta, sa, ia⟩ := a
  obtain ⟨tb, sb, ib⟩ := b
  rcases h with ⟨p1, p2, p3⟩ | ⟨p1, p2, p3⟩ <;> simp only at p1 p2 p3 <;> subst p1 p2 p3 <;>
    cases tk <;> simp [lt]

/-- Equivalent keys compare alike on the left of the comparator. -/
theorem lt_congr_left (k a b : ExtIdentifier) (h : a.equiv b = true) : a.lt k = b.lt k := by
  rw [equiv_iff] at h
  obtain ⟨tk, sk, ik⟩ := k
  obtain ⟨ta, sa, ia⟩ := a
  obtain ⟨tb, sb, ib⟩ := b
  rcases h with ⟨p1, p2, p3⟩ | ⟨p1, p2, p3⟩ <;> simp only at p1 p2 p3 <;> subst p1 p2 p3 <;>
    cases tk <;> simp [lt]

end ExtIdentifier

/-- C2. The comparator on two identifiers is: the lexicographic comparison of the two
strings (characters as unsigned values, a proper prefix first) when both are
`EI_STRING`; the numeric comparison of the two integers when both are `EI_INT32`; true
for `EI_INT32` against `EI_STRING`; false for `EI_STRING` against `EI_INT32`; whatever
the inactive fields hold. -/
theorem C2_operator_lt_by_kind (s1 s2 : String) (i1 i2 : Int) :
    (ExtIdentifier.lt ⟨EI_STRING, s1, i1⟩ ⟨EI_STRING, s2, i2⟩ = true ↔
        List.Lex (fun x y : Char => x.toNat < y.toNat) s1.data s2.data) ∧
    (ExtIdentifier.lt ⟨EI_INT32, s1, i1⟩ ⟨EI_INT32, s2, i2⟩ = true ↔ i1 < i2) ∧
    ExtIdentifier.lt ⟨EI_INT32, s1, i1⟩ ⟨EI_STRING, s2, i2⟩ = true ∧
    ExtIdentifier.lt ⟨EI_STRING, s1, i1⟩ ⟨EI_INT32, s2, i2⟩ = false := by
  refine ⟨?_, ?_, ?_, ?_⟩
  · simp [ExtIdentifier.lt, stringLess_iff_lex]
  · simp [ExtIdentifier.lt]
  · simp [ExtIdentifier.lt]
  · simp [ExtIdentifier.lt]

/-- C3. The comparator is a strict weak ordering on all identifiers, mixed kinds
included: it is irreflexive, asymmetric and transitive; incomparability (neither is
less than the other) is transitive, and holds exactly for two identifiers of the same
kind with the same active value. -/
theorem C3_operator_lt_strict_weak_order :
    (∀ a : ExtIdentifier, a.lt a = false) ∧
    (∀ a b : ExtIdentifier, a.lt b = true → b.lt a = false) ∧
    (∀ a b c : ExtIdentifier, a.lt b = true → b.lt c = true → a.lt c = true) ∧
    (∀ a b c : ExtIdentifier, (a.lt b = false ∧ b.lt a = false) →
        (b.lt c = false ∧ c.lt b = false) → (a.lt c = false ∧ c.lt a = false)) ∧
    (∀ a b : ExtIdentifier, (a.lt b = false ∧ b.lt a = false) ↔
        (a.type = b.type ∧
          ((a.type = EI_INT32 ∧ a.intValue = b.intValue) ∨
           (a.type = EI_STRING ∧ a.strValue = b.strValue)))) := by
  have hequiv : ∀ a b : ExtIdentifier,
      (a.lt b = false ∧ b.lt a = false) ↔ a.equiv b = true := by
    intro a b
    simp [ExtIdentifier.equiv]
  refine ⟨ExtIdentifier.lt_irrefl, ExtIdentifier.lt_asymm, ExtIdentifier.lt_trans, ?_, ?_⟩
  · intro a b c h1 h2
    rw [hequiv] at h1 h2 ⊢
    exact ExtIdentifier.equiv_trans a b c h1 h2
  · intro a b
    rw [hequiv, ExtIdentifier.equiv_iff]
    constructor
    · rintro (⟨p1, p2, p3⟩ | ⟨p1, p2, p3⟩)
      · exact ⟨p1.trans p2.symm, Or.inl ⟨p1, p3⟩⟩
      · exact ⟨p1.trans p2.symm, Or.inr ⟨p1, p3⟩⟩
    · rintro ⟨ht, (⟨p1, p3⟩ | ⟨p1, p3⟩)⟩
      · exact Or.inl ⟨p1, ht ▸ p1, p3⟩
      · exact Or.inr ⟨p1, ht ▸ p1, p3⟩

/-! ## The property map -/

namespace PropertyMap

theorem find_congr {V : Type} (m : PropertyMap V) (a b : ExtIdentifier)
    (h : a.equiv b = true) : find m a = find m b := by
  induction m with
  | nil => rfl
  | cons e t ih =>
    obtain ⟨k, w⟩ := e
    unfold find
    rw [ExtIdentifier.lt_congr_right k a b h, ExtIdentifier.lt_congr_left k a b h, ih]

theorem erase_congr {V : Type} (m : PropertyMap V) (a b : ExtIdentifier)
    (h : a.equiv b = true) : erase m a = erase m b := by
  induction m with
  | nil => rfl
  | cons e t ih =>
    obtain ⟨k, w⟩ := e
    unfold erase
    rw [ExtIdentifier.lt_congr_right k a b h, ExtIdentifier.lt_congr_left k a b h, ih]

theorem find_assign {V : Type} (m : PropertyMap V) (a b : ExtIdentifier) (v : V)
    (h : a.equiv b = true) : ∃ k, find (assign m a v) b = some (k, v) := by
  have hab : a.lt b = false := by
    simp only [ExtIdentifier.equiv, Bool.and_eq_true, Bool.not_eq_true'] at h; exact h.1
  have hba : b.lt a = false := by
    simp only [ExtIdentifier.equiv, Bool.and_eq_true, Bool.not_eq_true'] at h; exact h.2
  induction m with
  | nil => exact ⟨a, by simp [assign, find, hab, hba]⟩
  | cons e t ih =>
    obtain ⟨k, w⟩ := e
    unfold assign
    by_cases h1 : k.lt a = true
    · rw [if_pos h1]
      obtain ⟨k1, hk1⟩ := ih
      refine ⟨k1, ?_⟩
      unfold find
      rw [← ExtIdentifier.lt_congr_right k a b h, if_pos h1, hk1]
    · rw [if_neg h1]
      by_cases h2 : a.lt k = true
      · rw [if_pos h2]
        exact ⟨a, by simp [find, hab, hba]⟩
      · rw [if_neg h2]
        refine ⟨k, ?_⟩
        unfold find
        rw [← ExtIdentifier.lt_congr_right k a b h, ← ExtIdentifier.lt_congr_left k a b h,
          if_neg h1, if_neg h2]

theorem find_none_of_lt {V : Type} (m : PropertyMap V) (b : ExtIdentifier)
    (h : ∀ e ∈ m, b.lt e.1 = true) : find m b = none := by
  cases m with
  | nil => rfl
  | cons e t =>
    obtain ⟨k, w⟩ := e
    have hk : b.lt k = true := h (k, w) (List.mem_cons_self _ _)
    unfold find
    rw [ExtIdentifier.lt_asymm b k hk]
    simp [hk]

theorem find_erase {V : Type} (m : PropertyMap V) (a b : ExtIdentifier) (hm : Sorted m)
    (h : a.equiv b = true) : find (erase m a) b = none := by
  induction m with
  | nil => rfl
  | cons e t ih =>
    obtain ⟨k, w⟩ := e
    have hs := List.pairwise_cons.mp hm
    unfold erase
    by_cases h1 : k.lt a = true
    · rw [if_pos h1]
      unfold find
      rw [← ExtIdentifier.lt_congr_right k a b h, if_pos h1]
      exact ih hs.2
    · rw [if_neg h1]
      by_cases h2 : a.lt k = true
      · rw [if_pos h2]
        unfold find
        rw [← ExtIdentifier.lt_congr_right k a b h, ← ExtIdentifier.lt_congr_left k a b h,
          if_neg h1, if_pos h2]
      · rw [if_neg h2]
        apply find_none_of_lt
        intro e he
        have hke : k.lt e.1 = true := hs.1 e he
        have hkb : k.equiv b = true := by
          apply ExtIdentifier.equiv_trans k a b _ h
          simp only [ExtIdentifier.equiv, Bool.and_eq_true, Bool.not_eq_true']
          exact ⟨by simpa using h1, by simpa using h2⟩
        rw [← ExtIdentifier.lt_congr_left e.1 k b hkb]
        exact hke

end PropertyMap

/-- C4. For the canonical decimal text `s` of a 32-bit integer `n` (the text that
`operator<<` prints for `n`), the identifier built from `s` (by either string
constructor) and the identifier built from `n` are both
`EI_INT32` with `intValue = n`, neither is less than the other, their `strValue` fields
differ, and on every object with a valid property map they name the same property:
`hasProperty` and `getProperty` agree, a value set through one is read through the
other, `removeProperty` acts alike through both, and a property removed through one is
absent through the other. -/
theorem C4_text_and_integer_identifier_same_key (s : String) (n : Int)
    (hs : isCanonicalInt32 s n) (o : ExtObject) (ho : o.WellFormed) (v : ExtVariant) :
    String.mk (intToText n) = s ∧
    ExtIdentifier.ofCString s = ExtIdentifier.ofString s ∧
    (ExtIdentifier.ofString s).type = EI_INT32 ∧ (ExtIdentifier.ofString s).intValue = n ∧
    (ExtIdentifier.ofInt32 n).type = EI_INT32 ∧ (ExtIdentifier.ofInt32 n).intValue = n ∧
    (ExtIdentifier.ofString s).lt (ExtIdentifier.ofInt32 n) = false ∧
    (ExtIdentifier.ofInt32 n).lt (ExtIdentifier.ofString s) = false ∧
    (ExtIdentifier.ofString s).strValue ≠ (ExtIdentifier.ofInt32 n).strValue ∧
    o.hasProperty (ExtIdentifier.ofString s) = o.hasProperty (ExtIdentifier.ofInt32 n) ∧
    o.getProperty (ExtIdentifier.ofString s) = o.getProperty (ExtIdentifier.ofInt32 n) ∧
    (o.setProperty (ExtIdentifier.ofString s) v).getProperty (ExtIdentifier.ofInt32 n) = some v ∧
    (o.setProperty (ExtIdentifier.ofInt32 n) v).getProperty (ExtIdentifier.ofString s) = some v ∧
    o.removeProperty (ExtIdentifier.ofString s) = o.removeProperty (ExtIdentifier.ofInt32 n) ∧
    (o.removeProperty (ExtIdentifier.ofString s)).2.hasProperty (ExtIdentifier.ofInt32 n) = false ∧
    (o.removeProperty (ExtIdentifier.ofInt32 n)).2.hasProperty (ExtIdentifier.ofString s) = false := by
  have hstr := ExtIdentifier.ofString_strValue s
  obtain ⟨ht, hv⟩ := (ExtIdentifier.ofString_int32_iff s n).mpr hs
  have heq : (ExtIdentifier.ofString s).equiv (ExtIdentifier.ofInt32 n) = true := by
    rw [ExtIdentifier.equiv_iff]
    exact Or.inl ⟨ht, rfl, hv⟩
  have heq2 := ExtIdentifier.equiv_symm _ _ heq
  have hlt : (ExtIdentifier.ofString s).lt (ExtIdentifier.ofInt32 n) = false ∧
      (ExtIdentifier.ofInt32 n).lt (ExtIdentifier.ofString s) = false := by
    simpa [ExtIdentifier.equiv] using heq
  have hne : (ExtIdentifier.ofString s).strValue ≠ (ExtIdentifier.ofInt32 n).strValue := by
    rw [hstr]
    intro he
    have hd : s.data = [] := by rw [he]; rfl
    obtain ⟨_, _, hc⟩ := hs
    rcases hc with ⟨hcan, _⟩ | ⟨ds, hds, _⟩
    · exact (isCanonicalDigits_spec _ hcan).1 hd
    · rw [hd] at hds; cases hds
  obtain ⟨t, p⟩ := o
  have hfind := PropertyMap.find_congr p _ _ heq
  have herase := PropertyMap.erase_congr p _ _ heq
  have hrem : (ExtObject.mk t p).removeProperty (ExtIdentifier.ofString s) =
      (ExtObject.mk t p).removeProperty (ExtIdentifier.ofInt32 n) := by
    simp only [ExtObject.removeProperty, ExtObject.properties, ExtObject.type, hfind, herase]
  have hgone : ∀ a b : ExtIdentifier, a.equiv b = true →
      ((ExtObject.mk t p).removeProperty a).2.hasProperty b = false := by
    intro a b hab
    simp only [ExtObject.removeProperty, ExtObject.properties, ExtObject.type]
    cases hf : PropertyMap.find p a with
    | none =>
      simp only [ExtObject.hasProperty, ExtObject.properties]
      rw [← PropertyMap.find_congr p a b hab, hf]; rfl
    | some e =>
      simp only [ExtObject.hasProperty, ExtObject.properties]
      rw [PropertyMap.find_erase p a b ho hab]; rfl
  have hset : ∀ a b : ExtIdentifier, a.equiv b = true →
      ((ExtObject.mk t p).setProperty a v).getProperty b = some v := by
    intro a b hab
    obtain ⟨k, hk⟩ := PropertyMap.find_assign p a b v hab
    simp only [ExtObject.setProperty, ExtObject.getProperty, ExtObject.properties, hk]
  refine ⟨(canonical_roundtrip s n hs).2, rfl, ht, hv, rfl, rfl, hlt.1, hlt.2, hne, ?_, ?_,
    hset _ _ heq, hset _ _ heq2, hrem, hgone _ _ heq, hgone _ _ heq2⟩
  · simp only [ExtObject.hasProperty, ExtObject.properties, hfind]
  · simp only [ExtObject.getProperty, ExtObject.properties, hfind]

/-- Witness for C4: the text "7" and the integer 7 on an object holding the keys 3 and 7. -/
theorem C4_text_and_integer_identifier_same_key_witness :
    isCanonicalInt32 "7" 7 ∧
    (ExtObject.mk EO_TYPE.EO_OBJECT
      [(ExtIdentifier.ofInt32 3, ExtVariant.ofBool true),
       (ExtIdentifier.ofInt32 7, ExtVariant.ofInt32 1)]).WellFormed ∧
    ((ExtObject.mk EO_TYPE.EO_OBJECT
      [(ExtIdentifier.ofInt32 3, ExtVariant.ofBool true),
       (ExtIdentifier.ofInt32 7, ExtVariant.ofInt32 1)]).removeProperty
        (ExtIdentifier.ofString "7")).2.hasProperty (ExtIdentifier.ofInt32 7) = false :=
  ⟨⟨by decide, by decide, Or.inl ⟨by decide, by decide⟩⟩,
   by unfold ExtObject.WellFormed PropertyMap.Sorted; decide,
   (C4_text_and_integer_identifier_same_key "7" 7
      ⟨by decide, by decide, Or.inl ⟨by decide, by decide⟩⟩
      (ExtObject.mk EO_TYPE.EO_OBJECT
        [(ExtIdentifier.ofInt32 3, ExtVariant.ofBool true),
         (ExtIdentifier.ofInt32 7, ExtVariant.ofInt32 1)])
      (by unfold ExtObject.WellFormed PropertyMap.Sorted; decide)
      (ExtVariant.ofBool false)).2.2.2.2.2.2.2.2.2.2.2.2.2.2.1⟩

/-! ## Lookup in a valid map -/

namespace PropertyMap

theorem find_some {V : Type} (m : PropertyMap V) (id : ExtIdentifier) (e : ExtIdentifier × V)
    (h : find m id = some e) : e ∈ m ∧ e.1.equiv id = true := by
  induction m with
  | nil => simp [find] at h
  | cons x t ih =>
    obtain ⟨k, w⟩ := x
    unfold find at h
    by_cases h1 : k.lt id = true
    · rw [if_pos h1] at h
      exact ⟨List.mem_cons_of_mem _ (ih h).1, (ih h).2⟩
    · rw [if_neg h1] at h
      by_cases h2 : id.lt k = true
      · rw [if_pos h2] at h; cases h
      · rw [if_neg h2] at h
        cases h
        refine ⟨List.mem_cons_self _ _, ?_⟩
        simp only [ExtIdentifier.equiv, Bool.and_eq_true, Bool.not_eq_true']
        exact ⟨by simpa using h1, by simpa using h2⟩

theorem find_of_mem {V : Type} (m : PropertyMap V) (id : ExtIdentifier) (e : ExtIdentifier × V)
    (hm : Sorted m) (he : e ∈ m) (heq : e.1.equiv id = true) : find m id = some e := by
  induction m with
  | nil => cases he
  | cons x t ih =>
    obtain ⟨k, w⟩ := x
    have hs := List.pairwise_cons.mp hm
    rcases List.mem_cons.mp he with hx | ht
    · subst hx
      simp only [ExtIdentifier.equiv, Bool.and_eq_true, Bool.not_eq_true'] at heq
      unfold find
      simp [heq.1, heq.2]
    · have hke : k.lt e.1 = true := hs.1 e ht
      have hkid : k.lt id = true := by
        rw [← ExtIdentifier.lt_congr_right k e.1 id heq]; exact hke
      unfold find
      rw [if_pos hkid]
      exact ih hs.2 ht

theorem denseFrom_cons {V : Type} (a : Int) (k : ExtIdentifier) (w : V) (t : PropertyMap V) :
    denseFrom a ((k, w) :: t) = true ↔
      k.type = EI_INT32 ∧ k.intValue = a ∧ denseFrom (a + 1) t = true := by
  simp [denseFrom, and_assoc]

theorem denseFrom_bound {V : Type} (m : PropertyMap V) : ∀ (a : Int), denseFrom a m = true →
    ∀ e ∈ m, e.1.type = EI_INT32 ∧ a ≤ e.1.intValue ∧ e.1.intValue < a + m.length := by
  induction m with
  | nil => intro a _ e he; cases he
  | cons x t ih =>
    obtain ⟨k, w⟩ := x
    intro a h e he
    rw [denseFrom_cons] at h
    obtain ⟨h1, h2, h3⟩ := h
    simp only [List.length_cons, Nat.cast_add, Nat.cast_one]
    rcases List.mem_cons.mp he with hx | ht
    · subst hx
      exact ⟨h1, by simp only; omega, by simp only; omega⟩
    · obtain ⟨q1, q2, q3⟩ := ih (a + 1) h3 e ht
      exact ⟨q1, by omega, by omega⟩

theorem denseFrom_find {V : Type} (m : PropertyMap V) : ∀ (a : Int), denseFrom a m = true →
    ∀ (i : Nat) (e : ExtIdentifier × V), m[i]? = some e →
      find m (ExtIdentifier.ofInt32 (a + i)) = some e := by
  induction m with
  | nil => intro a _ i e he; simp at he
  | cons x t ih =>
    obtain ⟨k, w⟩ := x
    intro a h i e he
    rw [denseFrom_cons] at h
    obtain ⟨h1, h2, h3⟩ := h
    obtain ⟨tk, sk, ik⟩ := k
    simp only at h1 h2
    subst h1 h2
    cases i with
    | zero =>
      simp only [List.getElem?_cons_zero, Option.some.injEq] at he
      subst he
      simp [find, ExtIdentifier.lt, ExtIdentifier.ofInt32]
    | succ j =>
      simp only [List.getElem?_cons_succ] at he
      have := ih (ik + 1) h3 j e he
      unfold find
      have hlt : ExtIdentifier.lt ⟨EI_INT32, sk, ik⟩ (ExtIdentifier.ofInt32 (ik + ((j + 1 : Nat) : Int)))
          = true := by
        simp [ExtIdentifier.lt, ExtIdentifier.ofInt32]
      rw [if_pos hlt]
      have harith : ik + ((j + 1 : Nat) : Int) = ik + 1 + (j : Int) := by push_cast; ring
      rw [harith]
      exact this

theorem dense_of_present {V : Type} (m : PropertyMap V) : ∀ (a : Int), Sorted m →
    (∀ i : Nat, i < m.length → ∃ e ∈ m, e.1.type = EI_INT32 ∧ e.1.intValue = a + i) →
    denseFrom a m = true := by
  induction m with
  | nil => intro a _ _; rfl
  | cons x t ih =>
    obtain ⟨k, w⟩ := x
    intro a hm hall
    have hs := List.pairwise_cons.mp hm
    simp only [List.length_cons] at hall
    have hk : k.type = EI_INT32 ∧ k.intValue = a := by
      obtain ⟨e0, he0, ht0, hv0⟩ := hall 0 (Nat.succ_pos _)
      simp only [Nat.cast_zero, add_zero] at hv0
      rcases List.mem_cons.mp he0 with hx | ht
      · subst hx; exact ⟨ht0, hv0⟩
      · exfalso
        have hke : k.lt e0.1 = true := hs.1 e0 ht
        have hklt : k.type = EI_INT32 ∧ k.intValue < a := by
          obtain ⟨tk, sk, ik⟩ := k
          obtain ⟨⟨t0, s0, i0⟩, w0⟩ := e0
          simp only at ht0 hv0
          subst ht0 hv0
          cases tk <;> simp [ExtIdentifier.lt] at hke ⊢
          exact hke
        have hall2 : ∀ i : Nat, i < t.length + 1 →
            ∃ e ∈ t, e.1.type = EI_INT32 ∧ e.1.intValue = a + i := by
          intro i hi
          obtain ⟨e, he, hte, hve⟩ := hall i hi
          rcases List.mem_cons.mp he with hx | ht2
          · subst hx; simp only at hve; omega
          · exact ⟨e, ht2, hte, hve⟩
        have hd := ih a hs.2 (fun i hi => hall2 i (Nat.lt_succ_of_lt hi))
        obtain ⟨e, he, _, hve⟩ := hall2 t.length (Nat.lt_succ_self _)
        have := (denseFrom_bound t a hd e he).2.2
        omega
    rw [denseFrom_cons]
    refine ⟨hk.1, hk.2, ih (a + 1) hs.2 ?_⟩
    intro i hi
    obtain ⟨e, he, hte, hve⟩ := hall (i + 1) (Nat.succ_lt_succ hi)
    rcases List.mem_cons.mp he with hx | ht2
    · subst hx; simp only at hve; push_cast at hve; omega
    · exact ⟨e, ht2, hte, by rw [hve]; push_cast; ring⟩

theorem denseFrom_map {V W : Type} (f : ExtIdentifier × V → W) (m : PropertyMap V) :
    ∀ a : Int, denseFrom a (m.map (fun e => (e.1, f e))) = denseFrom a m := by
  induction m with
  | nil => intro a; rfl
  | cons x t ih => intro a; obtain ⟨k, w⟩ := x; simp [denseFrom, ih]

theorem find_map {V W : Type} (f : V → W) (m : PropertyMap V) (id : ExtIdentifier) :
    find (m.map (fun e => (e.1, f e.2))) id = (find m id).map (fun e => (e.1, f e.2)) := by
  induction m with
  | nil => rfl
  | cons x t ih =>
    obtain ⟨k, w⟩ := x
    simp only [List.map_cons, find]
    split
    · exact ih
    · split <;> rfl

end PropertyMap

/-! ## Conversion of an ExtVariant to a runtime value -/

open EV_TYPE EO_TYPE

theorem convertProperties_eq_map (props : List (ExtIdentifier × ExtVariant)) :
    convertProperties props = props.map (fun e => (e.1, ExtVariant.getASObject e.2)) := by
  induction props with
  | nil => simp [convertProperties]
  | cons x t ih => obtain ⟨k, v⟩ := x; simp [convertProperties, ih]

theorem fetchConverted_eq (t : EO_TYPE) (props : List (ExtIdentifier × ExtVariant))
    (id : ExtIdentifier) :
    fetchConverted (convertProperties props) id =
      ((ExtObject.mk t props).getProperty id).bind ExtVariant.getASObject := by
  unfold fetchConverted ExtObject.getProperty
  rw [convertProperties_eq_map, PropertyMap.find_map]
  simp only [ExtObject.properties]
  cases PropertyMap.find props id <;> rfl

theorem arrayLoop_none (table : PropertyMap (Option ASObject)) (remaining : Nat) :
    ∀ (i j : Nat), j < remaining →
      fetchConverted table (ExtIdentifier.ofInt32 (toInt32 ((i + j : Nat) : Int))) = none →
      arrayLoop table remaining i = none := by
  induction remaining with
  | zero => intro i j hj; omega
  | succ r ih =>
    intro i j hj hf
    unfold arrayLoop
    cases j with
    | zero => simp only [Nat.add_zero] at hf; rw [hf]
    | succ j1 =>
      have h2 := ih (i + 1) j1 (by omega) (by
        have : i + 1 + j1 = i + (j1 + 1) := by omega
        rw [this]; exact hf)
      rw [h2]
      split <;> rfl

theorem arrayLoop_some (table : PropertyMap (Option ASObject)) (remaining : Nat) :
    ∀ (i : Nat), (∀ j : Nat, j < remaining →
        ∃ r, fetchConverted table (ExtIdentifier.ofInt32 (toInt32 ((i + j : Nat) : Int))) = some r) →
      ∃ slots, arrayLoop table remaining i = some slots ∧ slots.length = remaining ∧
        ∀ j : Nat, j < remaining →
          fetchConverted table (ExtIdentifier.ofInt32 (toInt32 ((i + j : Nat) : Int))) = slots[j]? := by
  induction remaining with
  | zero => intro i _; exact ⟨[], rfl, rfl, fun j hj => by omega⟩
  | succ r ih =>
    intro i hall
    obtain ⟨r0, hr0⟩ := hall 0 (Nat.succ_pos _)
    have hall2 : ∀ j : Nat, j < r →
        ∃ q, fetchConverted table (ExtIdentifier.ofInt32 (toInt32 ((i + 1 + j : Nat) : Int))) = some q := by
      intro j hj
      have : i + 1 + j = i + (j + 1) := by omega
      rw [this]; exact hall (j + 1) (by omega)
    obtain ⟨rest, hrest, hlen, hget⟩ := ih (i + 1) hall2
    refine ⟨r0 :: rest, ?_, by simp [hlen], ?_⟩
    · unfold arrayLoop
      simp only [Nat.add_zero] at hr0
      rw [hr0, hrest]
    · intro j hj
      cases j with
      | zero => simpa using hr0
      | succ j1 =>
        have := hget j1 (by omega)
        have e : i + 1 + j1 = i + (j1 + 1) := by omega
        rw [e] at this
        simpa using this

theorem array_fetch_of_dense (props : List (ExtIdentifier × ExtVariant))
    (hd : PropertyMap.denseFrom 0 props = true) (i : Nat) (hi : i < props.length) :
    ∃ e, props[i]? = some e ∧
      (ExtObject.mk EO_ARRAY props).getProperty (ExtIdentifier.ofInt32 (i : Int)) = some e.2 := by
  refine ⟨props[i], List.getElem?_eq_getElem hi, ?_⟩
  have := PropertyMap.denseFrom_find props 0 hd i props[i] (List.getElem?_eq_getElem hi)
  rw [zero_add] at this
  simp only [ExtObject.getProperty, ExtObject.properties, this]

theorem toInt32_index (n i : Nat) (hn : n < 2147483648) (hi : i < n) :
    toInt32 ((0 + i : Nat) : Int) = (i : Int) := by
  rw [Nat.zero_add]
  exact toInt32_of_range _ (by omega) (by omega)

theorem getASObject_array_of_dense
    (strValue : String) (intValue : Int) (doubleValue : Double) (booleanValue : Bool)
    (props : List (ExtIdentifier × ExtVariant)) (hn : props.length < 2147483648)
    (hd : PropertyMap.denseFrom 0 props = true)
    (hconv : ∀ e ∈ props, ∃ r, ExtVariant.getASObject e.2 = some r) :
    ∃ slots : List ASObject,
      ExtVariant.getASObject (ExtVariant.mk EV_OBJECT strValue intValue doubleValue booleanValue
        (ExtObject.mk EO_ARRAY props)) = some (ASObject.mkArray slots) ∧
      slots.length = props.length ∧
      ∀ i : Nat, i < props.length →
        ((ExtObject.mk EO_ARRAY props).getProperty (ExtIdentifier.ofInt32 (i : Int))).bind
          ExtVariant.getASObject = slots[i]? := by
  have hcount : toUInt32 props.length = props.length := by
    unfold toUInt32; omega
  have hall : ∀ j : Nat, j < props.length →
      ∃ r, fetchConverted (convertProperties props)
        (ExtIdentifier.ofInt32 (toInt32 ((0 + j : Nat) : Int))) = some r := by
    intro j hj
    obtain ⟨e, hej, he⟩ := array_fetch_of_dense props hd j hj
    obtain ⟨r, hr⟩ := hconv e (List.getElem?_mem hej)
    refine ⟨r, ?_⟩
    rw [toInt32_index _ j hn hj, fetchConverted_eq EO_ARRAY, he]
    exact hr
  obtain ⟨slots, hloop, hlen, hget⟩ := arrayLoop_some (convertProperties props) props.length 0 hall
  refine ⟨slots, ?_, hlen, ?_⟩
  · simp only [ExtVariant.getASObject, ExtObject.getASObject, hcount, hloop]
  · intro i hi
    have := hget i hi
    rw [toInt32_index _ i hn hi, fetchConverted_eq EO_ARRAY] at this
    exact this

/-- C5 (code evaluated at the failing input). On a generic object holding the integer
keys 1 and 2, `getASObject` names the two variables "1" and "12": the stream `conv` is
not emptied between two integer keys, so the second name is not the decimal text "2"
of its key. -/
theorem C5_integer_key_names_accumulate :
    ExtVariant.getASObject
      (ExtVariant.mk EV_OBJECT "" 0 Double.zero false
        (ExtObject.mk EO_OBJECT
          [(ExtIdentifier.ofInt32 1, ExtVariant.ofInt32 7),
           (ExtIdentifier.ofInt32 2, ExtVariant.ofBool true)])) =
      some (ASObject.Object
        [(ASName.Other "1", ASObject.Integer 7), (ASName.Other "12", ASObject.Boolean true)]) := by
  rfl

/-- C6 (the claim fails as stated). An `EO_ARRAY` object with the single key 0, hence
with exactly the integer keys `0 .. n-1` for `n = 1`, whose property at key 0 is itself
an `EO_ARRAY` object with the single key 5: the map is valid and the fetch at key 0
finds a property, but the conversion of that property dereferences the `NULL` result
of its own fetch at key 0, so `getASObject` returns no native array. -/
theorem C6_dense_array_with_sparse_element_has_no_result :
    (ExtObject.mk EO_ARRAY
      [(ExtIdentifier.ofInt32 0,
        ExtVariant.mk EV_OBJECT "" 0 Double.zero false
          (ExtObject.mk EO_ARRAY [(ExtIdentifier.ofInt32 5, ExtVariant.ofBool true)]))]).WellFormed ∧
    PropertyMap.denseFrom 0
      [(ExtIdentifier.ofInt32 0,
        ExtVariant.mk EV_OBJECT "" 0 Double.zero false
          (ExtObject.mk EO_ARRAY [(ExtIdentifier.ofInt32 5, ExtVariant.ofBool true)]))] = true ∧
    ((ExtObject.mk EO_ARRAY
      [(ExtIdentifier.ofInt32 0,
        ExtVariant.mk EV_OBJECT "" 0 Double.zero false
          (ExtObject.mk EO_ARRAY [(ExtIdentifier.ofInt32 5, ExtVariant.ofBool true)]))]).getProperty
        (ExtIdentifier.ofInt32 0)).isSome = true ∧
    ExtVariant.getASObject
      (ExtVariant.mk EV_OBJECT "" 0 Double.zero false
        (ExtObject.mk EO_ARRAY
          [(ExtIdentifier.ofInt32 0,
            ExtVariant.mk EV_OBJECT "" 0 Double.zero false
              (ExtObject.mk EO_ARRAY [(ExtIdentifier.ofInt32 5, ExtVariant.ofBool true)]))])) =
      none ∧
    ¬ ∃ slots : List ASObject,
      ExtVariant.getASObject
        (ExtVariant.mk EV_OBJECT "" 0 Double.zero false
          (ExtObject.mk EO_ARRAY
            [(ExtIdentifier.ofInt32 0,
              ExtVariant.mk EV_OBJECT "" 0 Double.zero false
                (ExtObject.mk EO_ARRAY [(ExtIdentifier.ofInt32 5, ExtVariant.ofBool true)]))])) =
        some (ASObject.mkArray slots) := by
  refine ⟨?_, by decide, rfl, rfl, ?_⟩
  · simp [ExtObject.WellFormed, ExtObject.properties, PropertyMap.Sorted]
  · rintro ⟨slots, h⟩
    have hnone : ExtVariant.getASObject
        (ExtVariant.mk EV_OBJECT "" 0 Double.zero false
          (ExtObject.mk EO_ARRAY
            [(ExtIdentifier.ofInt32 0,
              ExtVariant.mk EV_OBJECT "" 0 Double.zero false
                (ExtObject.mk EO_ARRAY [(ExtIdentifier.ofInt32 5, ExtVariant.ofBool true)]))])) =
        none := rfl
    rw [hnone] at h
    cases h

/-- C6 (amended). For an `EV_OBJECT` variant whose object is an `EO_ARRAY` with a valid
map of `n` properties (`n` within `int32_t`): the fetches at the integer keys
`0 .. n-1` all find a property exactly when the keys of the map are the `EI_INT32`
identifiers `0 .. n-1`; a fetch that finds nothing is dereferenced, so `getASObject`
has no result. When the keys are `0 .. n-1`: if the conversion of each property has a
result, `getASObject` returns a native array of `n` slots whose slot `i` is the
conversion of the property at key `i`; if the conversion of some property has no
result, `getASObject` has no result either. -/
theorem C6_array_conversion_needs_dense_keys
    (strValue : String) (intValue : Int) (doubleValue : Double) (booleanValue : Bool)
    (props : List (ExtIdentifier × ExtVariant))
    (hwf : (ExtObject.mk EO_ARRAY props).WellFormed)
    (hn : props.length < 2147483648) :
    ((∀ i : Nat, i < props.length →
        ((ExtObject.mk EO_ARRAY props).getProperty (ExtIdentifier.ofInt32 (i : Int))).isSome = true)
      ↔ PropertyMap.denseFrom 0 props = true) ∧
    ((∃ i : Nat, i < props.length ∧
        (ExtObject.mk EO_ARRAY props).getProperty (ExtIdentifier.ofInt32 (i : Int)) = none) →
      ExtVariant.getASObject (ExtVariant.mk EV_OBJECT strValue intValue doubleValue booleanValue
        (ExtObject.mk EO_ARRAY props)) = none) ∧
    (PropertyMap.denseFrom 0 props = true →
      (∀ e ∈ props, ∃ r, ExtVariant.getASObject e.2 = some r) →
      ∃ slots : List ASObject,
        ExtVariant.getASObject (ExtVariant.mk EV_OBJECT strValue intValue doubleValue booleanValue
          (ExtObject.mk EO_ARRAY props)) = some (ASObject.mkArray slots) ∧
        slots.length = props.length ∧
        ∀ i : Nat, i < props.length →
          ((ExtObject.mk EO_ARRAY props).getProperty (ExtIdentifier.ofInt32 (i : Int))).bind
            ExtVariant.getASObject = slots[i]?) ∧
    (PropertyMap.denseFrom 0 props = true →
      (∃ e ∈ props, ExtVariant.getASObject e.2 = none) →
      ExtVariant.getASObject (ExtVariant.mk EV_OBJECT strValue intValue doubleValue booleanValue
        (ExtObject.mk EO_ARRAY props)) = none) := by
  have hcount : toUInt32 props.length = props.length := by
    unfold toUInt32; omega
  refine ⟨⟨?_, ?_⟩, ?_, ?_, ?_⟩
  · intro hall
    apply PropertyMap.dense_of_present props 0 hwf
    intro i hi
    have h1 := hall i hi
    simp only [ExtObject.getProperty, ExtObject.properties] at h1
    cases hf : PropertyMap.find props (ExtIdentifier.ofInt32 (i : Int)) with
    | none => rw [hf] at h1; simp at h1
    | some e =>
      obtain ⟨hmem, heq⟩ := PropertyMap.find_some props _ e hf
      rw [ExtIdentifier.equiv_iff] at heq
      rcases heq with ⟨p1, _, p3⟩ | ⟨_, p2, _⟩
      · exact ⟨e, hmem, p1, by rw [p3, zero_add]; rfl⟩
      · cases p2
  · intro hd i hi
    obtain ⟨e, _, he⟩ := array_fetch_of_dense props hd i hi
    rw [he]; rfl
  · rintro ⟨i, hi, hnone⟩
    have hf : fetchConverted (convertProperties props)
        (ExtIdentifier.ofInt32 (toInt32 ((0 + i : Nat) : Int))) = none := by
      rw [toInt32_index _ i hn hi, fetchConverted_eq EO_ARRAY, hnone]; rfl
    have := arrayLoop_none (convertProperties props) props.length 0 i hi hf
    simp only [ExtVariant.getASObject, ExtObject.getASObject, hcount, this]
  · intro hd hconv
    exact getASObject_array_of_dense strValue intValue doubleValue booleanValue props hn hd hconv
  · rintro hd ⟨e, he, hnone⟩
    obtain ⟨i, hi, hie⟩ := List.getElem_of_mem he
    obtain ⟨e1, he1, hget⟩ := array_fetch_of_dense props hd i hi
    have hee : e1 = e := by
      rw [List.getElem?_eq_getElem hi, hie] at he1
      exact (Option.some.inj he1).symm
    subst hee
    have hf : fetchConverted (convertProperties props)
        (ExtIdentifier.ofInt32 (toInt32 ((0 + i : Nat) : Int))) = none := by
      rw [toInt32_index _ i hn hi, fetchConverted_eq EO_ARRAY, hget]
      exact hnone
    have := arrayLoop_none (convertProperties props) props.length 0 i hi hf
    simp only [ExtVariant.getASObject, ExtObject.getASObject, hcount, this]

/-- Witness for C6 (amended): the array object with the keys 0 and 1. -/
theorem C6_array_conversion_needs_dense_keys_witness :
    (ExtObject.mk EO_ARRAY
      [(ExtIdentifier.ofInt32 0, ExtVariant.ofBool true),
       (ExtIdentifier.ofInt32 1, ExtVariant.ofInt32 5)]).WellFormed ∧
    ((∀ i : Nat, i < 2 →
        ((ExtObject.mk EO_ARRAY
          [(ExtIdentifier.ofInt32 0, ExtVariant.ofBool true),
           (ExtIdentifier.ofInt32 1, ExtVariant.ofInt32 5)]).getProperty
            (ExtIdentifier.ofInt32 (i : Int))).isSome = true)
      ↔ PropertyMap.denseFrom 0
          [(ExtIdentifier.ofInt32 0, ExtVariant.ofBool true),
           (ExtIdentifier.ofInt32 1, ExtVariant.ofInt32 5)] = true) :=
  ⟨by unfold ExtObject.WellFormed PropertyMap.Sorted; decide,
   (C6_array_conversion_needs_dense_keys "" 0 Double.zero false
      [(ExtIdentifier.ofInt32 0, ExtVariant.ofBool true),
       (ExtIdentifier.ofInt32 1, ExtVariant.ofInt32 5)]
      (by unfold ExtObject.WellFormed PropertyMap.Sorted; decide) (by decide)).1⟩

/-! ## Conversion of a runtime value to an ExtVariant -/

theorem enumerationLoop_nil (o : ExtObject) : enumerationLoop [] o = o := by
  simp [enumerationLoop]

theorem enumerationLoop_cons_integer (value : Int) (nextValue : ASObject)
    (rest : List (ASName × ASObject)) (o : ExtObject) :
    enumerationLoop ((ASName.Integer value, nextValue) :: rest) o =
      enumerationLoop rest
        (o.setProperty (ExtIdentifier.ofInt32 value) (ExtVariant.ofASObject nextValue)) := by
  simp [enumerationLoop]

theorem enumerationLoop_cons_other (text : String) (nextValue : ASObject)
    (rest : List (ASName × ASObject)) (o : ExtObject) :
    enumerationLoop ((ASName.Other text, nextValue) :: rest) o =
      enumerationLoop rest
        (o.setProperty (ExtIdentifier.ofCString text) (ExtVariant.ofASObject nextValue)) := by
  simp [enumerationLoop]

theorem enumerationLoop_type (entries : List (ASName × ASObject)) :
    ∀ o : ExtObject, (enumerationLoop entries o).type = o.type := by
  induction entries with
  | nil => intro o; rw [enumerationLoop_nil]
  | cons x rest ih =>
    intro o
    obtain ⟨name, value⟩ := x
    cases name with
    | Integer i => rw [enumerationLoop_cons_integer, ih]; rfl
    | Other text => rw [enumerationLoop_cons_other, ih]; rfl

/-- C7. The variant constructed from a runtime value follows the mapping table on the
tag of the value: `T_STRING` gives `EV_STRING` with the string, `T_INTEGER` gives
`EV_INT32` with the integer, `T_NUMBER` gives `EV_DOUBLE` with the number, `T_BOOLEAN`
gives `EV_BOOLEAN` with the flag, `T_ARRAY` gives `EV_OBJECT` with an `EO_ARRAY` object,
`T_OBJECT` gives `EV_OBJECT` with an `EO_OBJECT` object, `T_NULL` gives `EV_NULL`,
`T_UNDEFINED` and every other tag give `EV_VOID`; every payload field other than the
selected one has its default value. -/
theorem C7_variant_of_native_follows_mapping_table :
    (∀ s : String, ExtVariant.ofASObject (ASObject.ASString s) =
        ExtVariant.mk EV_STRING s 0 Double.zero false (ExtObject.mk EO_OBJECT [])) ∧
    (∀ i : Int, ExtVariant.ofASObject (ASObject.Integer i) =
        ExtVariant.mk EV_INT32 "" i Double.zero false (ExtObject.mk EO_OBJECT [])) ∧
    (∀ d : Double, ExtVariant.ofASObject (ASObject.Number d) =
        ExtVariant.mk EV_DOUBLE "" 0 d false (ExtObject.mk EO_OBJECT [])) ∧
    (∀ b : Bool, ExtVariant.ofASObject (ASObject.Boolean b) =
        ExtVariant.mk EV_BOOLEAN "" 0 Double.zero b (ExtObject.mk EO_OBJECT [])) ∧
    (∀ entries : List (ASName × ASObject), ∃ props : List (ExtIdentifier × ExtVariant),
        ExtVariant.ofASObject (ASObject.Array entries) =
          ExtVariant.mk EV_OBJECT "" 0 Double.zero false (ExtObject.mk EO_ARRAY props)) ∧
    (∀ entries : List (ASName × ASObject), ∃ props : List (ExtIdentifier × ExtVariant),
        ExtVariant.ofASObject (ASObject.Object entries) =
          ExtVariant.mk EV_OBJECT "" 0 Double.zero false (ExtObject.mk EO_OBJECT props)) ∧
    ExtVariant.ofASObject ASObject.Null =
        ExtVariant.mk EV_NULL "" 0 Double.zero false (ExtObject.mk EO_OBJECT []) ∧
    ExtVariant.ofASObject ASObject.Undefined =
        ExtVariant.mk EV_VOID "" 0 Double.zero false (ExtObject.mk EO_OBJECT []) ∧
    (∀ tag : Nat, ExtVariant.ofASObject (ASObject.Other tag) =
        ExtVariant.mk EV_VOID "" 0 Double.zero false (ExtObject.mk EO_OBJECT [])) := by
  have hobj : ∀ (entries : List (ASName × ASObject)) (o : ExtObject),
      enumerationLoop entries o = ExtObject.mk o.type (enumerationLoop entries o).properties := by
    intro entries o
    have h := enumerationLoop_type entries o
    cases hres : enumerationLoop entries o with
    | mk t p => rw [hres] at h; simp only [ExtObject.type] at h; rw [h]; rfl
  refine ⟨?_, ?_, ?_, ?_, ?_, ?_, ?_, ?_, ?_⟩
  · intro s; simp [ExtVariant.ofASObject, ExtObject.mkDefault]
  · intro i; simp [ExtVariant.ofASObject, ExtObject.mkDefault]
  · intro d; simp [ExtVariant.ofASObject, ExtObject.mkDefault]
  · intro b; simp [ExtVariant.ofASObject, ExtObject.mkDefault]
  · intro entries
    refine ⟨(enumerationLoop entries (ExtObject.setType ExtObject.mkDefault EO_ARRAY)).properties, ?_⟩
    rw [ExtVariant.ofASObject]
    rw [hobj entries (ExtObject.setType ExtObject.mkDefault EO_ARRAY)]
    rfl
  · intro entries
    refine ⟨(enumerationLoop entries ExtObject.mkDefault).properties, ?_⟩
    rw [ExtVariant.ofASObject]
    rw [hobj entries ExtObject.mkDefault]
    rfl
  · simp [ExtVariant.ofASObject, ExtObject.mkDefault]
  · simp [ExtVariant.ofASObject, ExtObject.mkDefault]
  · intro tag; simp [ExtVariant.ofASObject, ExtObject.mkDefault]

/-! ## Keys stored by the enumeration loop -/

namespace PropertyMap

theorem mem_assign {V : Type} (m : PropertyMap V) (id : ExtIdentifier) (v : V)
    (e : ExtIdentifier × V) (h : e ∈ assign m id v) :
    e = (id, v) ∨ e ∈ m ∨ (e.2 = v ∧ e.1.equiv id = true ∧ ∃ w, (e.1, w) ∈ m) := by
  induction m with
  | nil =>
    simp only [assign, List.mem_singleton] at h
    exact Or.inl h
  | cons x t ih =>
    obtain ⟨k, w⟩ := x
    unfold assign at h
    by_cases h1 : k.lt id = true
    · rw [if_pos h1] at h
      rcases List.mem_cons.mp h with hx | ht
      · exact Or.inr (Or.inl (hx ▸ List.mem_cons_self _ _))
      · rcases ih ht with r1 | r2 | ⟨r3, r4, w1, r5⟩
        · exact Or.inl r1
        · exact Or.inr (Or.inl (List.mem_cons_of_mem _ r2))
        · exact Or.inr (Or.inr ⟨r3, r4, w1, List.mem_cons_of_mem _ r5⟩)
    · rw [if_neg h1] at h
      by_cases h2 : id.lt k = true
      · rw [if_pos h2] at h
        rcases List.mem_cons.mp h with hx | ht
        · exact Or.inl hx
        · exact Or.inr (Or.inl ht)
      · rw [if_neg h2] at h
        rcases List.mem_cons.mp h with hx | ht
        · subst hx
          refine Or.inr (Or.inr ⟨rfl, ?_, w, List.mem_cons_self _ _⟩)
          simp only [ExtIdentifier.equiv, Bool.and_eq_true, Bool.not_eq_true']
          exact ⟨by simpa using h1, by simpa using h2⟩
        · exact Or.inr (Or.inl (List.mem_cons_of_mem _ ht))

theorem assign_keeps_key {V : Type} (m : PropertyMap V) (id : ExtIdentifier) (v : V)
    (k : ExtIdentifier) (w : V) (h : (k, w) ∈ m) : ∃ w1, (k, w1) ∈ assign m id v := by
  induction m with
  | nil => cases h
  | cons x t ih =>
    obtain ⟨k0, w0⟩ := x
    unfold assign
    by_cases h1 : k0.lt id = true
    · rw [if_pos h1]
      rcases List.mem_cons.mp h with hx | ht
      · exact ⟨w, hx ▸ List.mem_cons_self _ _⟩
      · obtain ⟨w1, hw1⟩ := ih ht
        exact ⟨w1, List.mem_cons_of_mem _ hw1⟩
    · rw [if_neg h1]
      by_cases h2 : id.lt k0 = true
      · rw [if_pos h2]
        exact ⟨w, List.mem_cons_of_mem _ h⟩
      · rw [if_neg h2]
        rcases List.mem_cons.mp h with hx | ht
        · cases hx
          exact ⟨v, List.mem_cons_self _ _⟩
        · exact ⟨w, List.mem_cons_of_mem _ ht⟩

theorem assign_has_key {V : Type} (m : PropertyMap V) (id : ExtIdentifier) (v : V) :
    ∃ k, (k, v) ∈ assign m id v ∧ k.equiv id = true := by
  obtain ⟨k, hk⟩ := find_assign m id id v (ExtIdentifier.equiv_refl id)
  exact ⟨k, find_some _ _ _ hk⟩

end PropertyMap

theorem enumerationLoop_keeps_key (entries : List (ASName × ASObject)) :
    ∀ (o : ExtObject) (k : ExtIdentifier) (w : ExtVariant), (k, w) ∈ o.properties →
      ∃ w1, (k, w1) ∈ (enumerationLoop entries o).properties := by
  induction entries with
  | nil => intro o k w h; rw [enumerationLoop_nil]; exact ⟨w, h⟩
  | cons x rest ih =>
    intro o k w h
    obtain ⟨name, value⟩ := x
    cases name with
    | Integer i =>
      rw [enumerationLoop_cons_integer]
      obtain ⟨w1, hw1⟩ := PropertyMap.assign_keeps_key o.properties (ExtIdentifier.ofInt32 i)
        (ExtVariant.ofASObject value) k w h
      exact ih _ k w1 hw1
    | Other text =>
      rw [enumerationLoop_cons_other]
      obtain ⟨w1, hw1⟩ := PropertyMap.assign_keeps_key o.properties (ExtIdentifier.ofCString text)
        (ExtVariant.ofASObject value) k w h
      exact ih _ k w1 hw1

theorem enumerationLoop_has_key (entries : List (ASName × ASObject)) :
    ∀ (o : ExtObject) (name : ASName) (value : ASObject), (name, value) ∈ entries →
      ∃ e ∈ (enumerationLoop entries o).properties,
        (∀ i : Int, name = ASName.Integer i → e.1.equiv (ExtIdentifier.ofInt32 i) = true) ∧
        (∀ text : String, name = ASName.Other text →
          e.1.equiv (ExtIdentifier.ofCString text) = true) := by
  induction entries with
  | nil => intro o name value h; cases h
  | cons x rest ih =>
    intro o name value h
    rcases List.mem_cons.mp h with hx | ht
    · subst hx
      cases name with
      | Integer i =>
        rw [enumerationLoop_cons_integer]
        obtain ⟨k, hk, hke⟩ := PropertyMap.assign_has_key o.properties (ExtIdentifier.ofInt32 i)
          (ExtVariant.ofASObject value)
        obtain ⟨w1, hw1⟩ := enumerationLoop_keeps_key rest
          (o.setProperty (ExtIdentifier.ofInt32 i) (ExtVariant.ofASObject value)) k _ hk
        refine ⟨(k, w1), hw1, ?_, ?_⟩
        · intro j hj; cases hj; exact hke
        · intro text ht; cases ht
      | Other text =>
        rw [enumerationLoop_cons_other]
        obtain ⟨k, hk, hke⟩ := PropertyMap.assign_has_key o.properties
          (ExtIdentifier.ofCString text) (ExtVariant.ofASObject value)
        obtain ⟨w1, hw1⟩ := enumerationLoop_keeps_key rest
          (o.setProperty (ExtIdentifier.ofCString text) (ExtVariant.ofASObject value)) k _ hk
        refine ⟨(k, w1), hw1, ?_, ?_⟩
        · intro j hj; cases hj
        · intro t2 ht; cases ht; exact hke
    · obtain ⟨n0, v0⟩ := x
      cases n0 with
      | Integer i => rw [enumerationLoop_cons_integer]; exact ih _ name value ht
      | Other text => rw [enumerationLoop_cons_other]; exact ih _ name value ht

theorem objectValue_ofASObject_array (entries : List (ASName × ASObject)) :
    (ExtVariant.ofASObject (ASObject.Array entries)).objectValue =
      enumerationLoop entries (ExtObject.setType ExtObject.mkDefault EO_ARRAY) := by
  rw [ExtVariant.ofASObject]; rfl

theorem objectValue_ofASObject_object (entries : List (ASName × ASObject)) :
    (ExtVariant.ofASObject (ASObject.Object entries)).objectValue =
      enumerationLoop entries ExtObject.mkDefault := by
  rw [ExtVariant.ofASObject]; rfl

/-- C8 (the claim fails as stated). A native object whose enumeration yields the single
text name "42" is converted to an object whose only key is the `EI_INT32` identifier 42:
no `EI_STRING` key holding "42" is stored. -/
theorem C8_text_name_42_is_stored_as_integer_key :
    (ExtVariant.ofASObject
        (ASObject.Object [(ASName.Other "42", ASObject.Null)])).objectValue.properties.map
      (fun e => e.1) = [{ type := EI_INT32, strValue := "42", intValue := 42 }] ∧
    ¬ ∃ e ∈ (ExtVariant.ofASObject
        (ASObject.Object [(ASName.Other "42", ASObject.Null)])).objectValue.properties,
      e.1.type = EI_STRING := by
  decide

/-- C8 (amended). During the conversion of a native array or object, every enumerated
entry has a key stored in the resulting object: for a name of tag `T_INTEGER` an
`EI_INT32` key holding that integer; for a name of another tag the key is the one the
C-string constructor makes of the text of the name, that is an `EI_INT32` key holding
`n` when the text is the canonical decimal text of the 32-bit integer `n`, and an
`EI_STRING` key holding the text in every other case. -/
theorem C8_enumerated_name_to_stored_key (entries : List (ASName × ASObject))
    (name : ASName) (value : ASObject) (hmem : (name, value) ∈ entries)
    (agg : ASObject) (hagg : agg = ASObject.Array entries ∨ agg = ASObject.Object entries) :
    (∀ i : Int, name = ASName.Integer i →
      ∃ e ∈ (ExtVariant.ofASObject agg).objectValue.properties,
        e.1.type = EI_INT32 ∧ e.1.intValue = i) ∧
    (∀ (text : String) (n : Int), name = ASName.Other text → isCanonicalInt32 text n →
      ∃ e ∈ (ExtVariant.ofASObject agg).objectValue.properties,
        e.1.type = EI_INT32 ∧ e.1.intValue = n) ∧
    (∀ text : String, name = ASName.Other text → (¬ ∃ n : Int, isCanonicalInt32 text n) →
      ∃ e ∈ (ExtVariant.ofASObject agg).objectValue.properties,
        e.1.type = EI_STRING ∧ e.1.strValue = text) := by
  have hloop : ∃ o : ExtObject,
      (ExtVariant.ofASObject agg).objectValue = enumerationLoop entries o := by
    rcases hagg with rfl | rfl
    · exact ⟨_, objectValue_ofASObject_array entries⟩
    · exact ⟨_, objectValue_ofASObject_object entries⟩
  obtain ⟨o, ho⟩ := hloop
  rw [ho]
  obtain ⟨e, he, hint, htext⟩ := enumerationLoop_has_key entries o name value hmem
  refine ⟨?_, ?_, ?_⟩
  · intro i hi
    have := hint i hi
    rw [ExtIdentifier.equiv_iff] at this
    rcases this with ⟨p1, _, p3⟩ | ⟨_, p2, _⟩
    · exact ⟨e, he, p1, p3⟩
    · cases p2
  · intro text n ht hcan
    have := htext text ht
    obtain ⟨q1, q2⟩ := (ExtIdentifier.ofString_int32_iff text n).mpr hcan
    rw [ExtIdentifier.equiv_iff] at this
    rcases this with ⟨p1, _, p3⟩ | ⟨_, p2, _⟩
    · exact ⟨e, he, p1, p3.trans q2⟩
    · have : (ExtIdentifier.ofString text).type = EI_STRING := p2
      rw [q1] at this; cases this
  · intro text ht hno
    have := htext text ht
    have q1 := ExtIdentifier.ofString_type_string text hno
    rw [ExtIdentifier.equiv_iff] at this
    rcases this with ⟨_, p2, _⟩ | ⟨p1, _, p3⟩
    · have : (ExtIdentifier.ofString text).type = EI_INT32 := p2
      rw [q1] at this; cases this
    · exact ⟨e, he, p1, p3.trans (ExtIdentifier.ofString_strValue text)⟩

/-- Witness for C8 (amended): the text name "42" among three enumerated entries. -/
theorem C8_enumerated_name_to_stored_key_witness :
    ∃ e ∈ (ExtVariant.ofASObject (ASObject.Object
        [(ASName.Other "a", ASObject.Integer 1), (ASName.Other "42", ASObject.Null),
         (ASName.Integer 3, ASObject.Null)])).objectValue.properties,
      e.1.type = EI_INT32 ∧ e.1.intValue = 42 :=
  (C8_enumerated_name_to_stored_key
    [(ASName.Other "a", ASObject.Integer 1), (ASName.Other "42", ASObject.Null),
     (ASName.Integer 3, ASObject.Null)]
    (ASName.Other "42") ASObject.Null (by simp) _ (Or.inr rfl)).2.1 "42" 42 rfl
    ⟨by decide, by decide, Or.inl ⟨by decide, by decide⟩⟩

/-! ## Round trip of arrays -/

theorem roundtrip_primitive (x : ASObject) (h : x.isPrimitive = true) :
    ExtVariant.getASObject (ExtVariant.ofASObject x) = some x := by
  cases x with
  | ASString s =>
    have hs : cstr s = s := by simpa [ASObject.isPrimitive] using h
    simp [ExtVariant.ofASObject, ExtVariant.getASObject, hs]
  | Integer i => simp [ExtVariant.ofASObject, ExtVariant.getASObject]
  | Number d => simp [ExtVariant.ofASObject, ExtVariant.getASObject]
  | Boolean b => simp [ExtVariant.ofASObject, ExtVariant.getASObject]
  | Null => simp [ExtVariant.ofASObject, ExtVariant.getASObject]
  | Undefined => simp [ExtVariant.ofASObject, ExtVariant.getASObject]
  | Array es => simp [ASObject.isPrimitive] at h
  | Object es => simp [ASObject.isPrimitive] at h
  | Other t => simp [ASObject.isPrimitive] at h

namespace PropertyMap

theorem assign_dense_append {V : Type} (m : PropertyMap V) (id : ExtIdentifier) (v : V)
    (ht : id.type = EI_INT32) : ∀ b : Int, denseFrom b m = true →
      id.intValue = b + m.length →
      assign m id v = m ++ [(id, v)] ∧ denseFrom b (m ++ [(id, v)]) = true := by
  induction m with
  | nil =>
    intro b _ hv
    simp only [List.length_nil, Nat.cast_zero, add_zero] at hv
    exact ⟨rfl, by simp [denseFrom, ht, hv]⟩
  | cons x t ih =>
    obtain ⟨k, w⟩ := x
    intro b hd hv
    rw [denseFrom_cons] at hd
    obtain ⟨h1, h2, h3⟩ := hd
    simp only [List.length_cons, Nat.cast_add, Nat.cast_one] at hv
    obtain ⟨q1, q2⟩ := ih (b + 1) h3 (by rw [hv]; ring)
    have hlt : k.lt id = true := by
      obtain ⟨tk, sk, ik⟩ := k
      obtain ⟨ti, si, ii⟩ := id
      simp only at h1 h2 ht hv
      subst h1 ht
      simp [ExtIdentifier.lt]
      omega
    constructor
    · unfold assign
      rw [if_pos hlt, q1]; rfl
    · rw [List.cons_append, denseFrom_cons]
      exact ⟨h1, h2, q2⟩

end PropertyMap

theorem enumerationLoop_array (names : List ASName) :
    ∀ (elems : List ASObject) (o : ExtObject), names.length = elems.length →
      PropertyMap.denseFrom 0 o.properties = true →
      (∀ (j : Nat) (name : ASName), names[j]? = some name →
        name = ASName.Integer ((o.properties.length + j : Nat) : Int) ∨
        ∃ s : String, name = ASName.Other s ∧
          isCanonicalInt32 s ((o.properties.length + j : Nat) : Int)) →
      PropertyMap.denseFrom 0 (enumerationLoop (names.zip elems) o).properties = true ∧
      (enumerationLoop (names.zip elems) o).properties.map (fun e => e.2) =
        o.properties.map (fun e => e.2) ++ elems.map ExtVariant.ofASObject := by
  induction names with
  | nil =>
    intro elems o hlen hd _
    cases elems with
    | nil => simp [enumerationLoop_nil, hd]
    | cons _ _ => simp at hlen
  | cons name rest ih =>
    intro elems o hlen hd hnames
    cases elems with
    | nil => simp at hlen
    | cons x xs =>
      simp only [List.length_cons, add_left_inj] at hlen
      simp only [List.zip_cons_cons]
      have h0 := hnames 0 name (by simp)
      simp only [Nat.add_zero] at h0
      have hstep : ∀ id : ExtIdentifier, id.type = EI_INT32 →
          id.intValue = ((o.properties.length : Nat) : Int) →
          PropertyMap.denseFrom 0
            (enumerationLoop (rest.zip xs) (o.setProperty id (ExtVariant.ofASObject x))).properties
              = true ∧
          (enumerationLoop (rest.zip xs) (o.setProperty id (ExtVariant.ofASObject x))).properties.map
              (fun e => e.2) =
            o.properties.map (fun e => e.2) ++ (x :: xs).map ExtVariant.ofASObject := by
        intro id ht hv
        obtain ⟨q1, q2⟩ := PropertyMap.assign_dense_append o.properties id
          (ExtVariant.ofASObject x) ht 0 hd (by rw [hv, zero_add])
        have hp : (o.setProperty id (ExtVariant.ofASObject x)).properties =
            o.properties ++ [(id, ExtVariant.ofASObject x)] := by
          cases o; exact q1
        have hnames2 : ∀ (j : Nat) (nm : ASName), rest[j]? = some nm →
            nm = ASName.Integer
              (((o.setProperty id (ExtVariant.ofASObject x)).properties.length + j : Nat) : Int) ∨
            ∃ s : String, nm = ASName.Other s ∧ isCanonicalInt32 s
              (((o.setProperty id (ExtVariant.ofASObject x)).properties.length + j : Nat) : Int) := by
          intro j nm hj
          have := hnames (j + 1) nm (by simpa using hj)
          have e : (o.setProperty id (ExtVariant.ofASObject x)).properties.length + j =
              o.properties.length + (j + 1) := by
            rw [hp, List.length_append, List.length_singleton]; omega
          rw [e]; exact this
        obtain ⟨r1, r2⟩ := ih xs (o.setProperty id (ExtVariant.ofASObject x)) hlen
          (by rw [hp]; exact q2) hnames2
        refine ⟨r1, ?_⟩
        rw [r2, hp]
        simp
      rcases h0 with h0 | ⟨s, h0, hcan⟩
      · subst h0
        rw [enumerationLoop_cons_integer]
        exact hstep _ rfl rfl
      · subst h0
        rw [enumerationLoop_cons_other]
        obtain ⟨p1, p2⟩ := (ExtIdentifier.ofString_int32_iff s _).mpr hcan
        exact hstep _ p1 p2

/-- C10. A native array of `n` primitive elements (`n` within `int32_t`) whose
enumeration yields, in order, the names `0 .. n-1` (each as a `T_INTEGER` name or as
its canonical decimal text) with the elements, is converted to an `EV_OBJECT` variant
holding an `EO_ARRAY` object of length `n` whose keys are exactly the `EI_INT32`
identifiers `0 .. n-1`; and `getASObject` on that variant returns the native array of
the same `n` elements, in the same slots. -/
theorem C10_array_round_trip (names : List ASName) (elems : List ASObject)
    (hlen : names.length = elems.length) (hn : elems.length < 2147483648)
    (hnames : ∀ (i : Nat) (name : ASName), names[i]? = some name →
      name = ASName.Integer (i : Int) ∨
      ∃ s : String, name = ASName.Other s ∧ isCanonicalInt32 s (i : Int))
    (hprim : ∀ x ∈ elems, x.isPrimitive = true) :
    (ExtVariant.ofASObject (ASObject.Array (names.zip elems))).type = EV_OBJECT ∧
    (ExtVariant.ofASObject (ASObject.Array (names.zip elems))).objectValue.getType = EO_ARRAY ∧
    (ExtVariant.ofASObject (ASObject.Array (names.zip elems))).objectValue.getLength
      = elems.length ∧
    PropertyMap.denseFrom 0
      (ExtVariant.ofASObject (ASObject.Array (names.zip elems))).objectValue.properties = true ∧
    ExtVariant.getASObject (ExtVariant.ofASObject (ASObject.Array (names.zip elems))) =
      some (ASObject.mkArray elems) := by
  have hobj := objectValue_ofASObject_array (names.zip elems)
  have htype : (enumerationLoop (names.zip elems)
      (ExtObject.setType ExtObject.mkDefault EO_ARRAY)).type = EO_ARRAY := by
    rw [enumerationLoop_type]; rfl
  obtain ⟨hd, hvals⟩ := enumerationLoop_array names elems
    (ExtObject.setType ExtObject.mkDefault EO_ARRAY) hlen rfl
    (by
      intro j name hj
      have : (ExtObject.setType ExtObject.mkDefault EO_ARRAY).properties.length + j = j := by
        simp [ExtObject.setType, ExtObject.mkDefault, ExtObject.properties]
      rw [this]
      exact hnames j name hj)
  have hform : ExtVariant.ofASObject (ASObject.Array (names.zip elems)) =
      ExtVariant.mk EV_OBJECT "" 0 Double.zero false
        (enumerationLoop (names.zip elems) (ExtObject.setType ExtObject.mkDefault EO_ARRAY)) := by
    rw [ExtVariant.ofASObject]
  generalize hres : enumerationLoop (names.zip elems)
    (ExtObject.setType ExtObject.mkDefault EO_ARRAY) = res at hobj htype hd hvals hform
  obtain ⟨t, props⟩ := res
  simp only [ExtObject.type] at htype
  subst htype
  simp only [ExtObject.properties] at hd hvals
  have hvals2 : props.map (fun e => e.2) = elems.map ExtVariant.ofASObject := by
    rw [hvals]; simp [ExtObject.setType, ExtObject.mkDefault, ExtObject.properties]
  have hplen : props.length = elems.length := by
    have := congrArg List.length hvals2
    simpa using this
  have hval_at : ∀ (i : Nat) (e : ExtIdentifier × ExtVariant), props[i]? = some e →
      ∃ x, elems[i]? = some x ∧ e.2 = ExtVariant.ofASObject x := by
    intro i e he
    have h1 : (props.map (fun e => e.2))[i]? = some e.2 := by
      rw [List.getElem?_map, he]; rfl
    rw [hvals2, List.getElem?_map] at h1
    cases hx : elems[i]? with
    | none => rw [hx] at h1; simp at h1
    | some x =>
      rw [hx] at h1
      simp only [Option.map_some', Option.some.injEq] at h1
      exact ⟨x, rfl, h1.symm⟩
  have hconv : ∀ e ∈ props, ∃ r, ExtVariant.getASObject e.2 = some r := by
    intro e he
    obtain ⟨i, hi, hie⟩ := List.getElem_of_mem he
    obtain ⟨x, hx, hex⟩ := hval_at i e (by rw [List.getElem?_eq_getElem hi, hie])
    exact ⟨x, by rw [hex]; exact roundtrip_primitive x (hprim x (List.getElem?_mem hx))⟩
  obtain ⟨slots, hres2, hslen, hslots⟩ :=
    getASObject_array_of_dense "" 0 Double.zero false props (by omega) hd hconv
  have hsl : slots = elems := by
    apply List.ext_getElem?
    intro i
    by_cases hi : i < props.length
    · rw [← hslots i hi]
      obtain ⟨e, hei, hget⟩ := array_fetch_of_dense props hd i hi
      obtain ⟨x, hx, hex⟩ := hval_at i e hei
      rw [hget, hx, Option.some_bind, hex]
      exact roundtrip_primitive x (hprim x (List.getElem?_mem hx))
    · rw [List.getElem?_eq_none (by omega), List.getElem?_eq_none (by omega)]
  rw [hform]
  refine ⟨rfl, rfl, hplen, hd, ?_⟩
  rw [hres2, hsl]

/-- Witness for C10: the array of length 3 of the specification, with the names 0, "1"
and 2. -/
theorem C10_array_round_trip_witness :
    ExtVariant.getASObject (ExtVariant.ofASObject (ASObject.Array
      ([ASName.Integer 0, ASName.Other "1", ASName.Integer 2].zip
        [ASObject.Integer 10, ASObject.ASString "x", ASObject.Null]))) =
      some (ASObject.mkArray [ASObject.Integer 10, ASObject.ASString "x", ASObject.Null]) :=
  (C10_array_round_trip [ASName.Integer 0, ASName.Other "1", ASName.Integer 2]
    [ASObject.Integer 10, ASObject.ASString "x", ASObject.Null] rfl (by decide)
    (by
      intro i name h
      match i, h with
      | 0, h => left; simpa using h.symm
      | 1, h =>
        right
        exact ⟨"1", by simpa using h.symm, by decide, by decide, Or.inl ⟨by decide, by decide⟩⟩
      | 2, h => left; simpa using h.symm
      | i + 3, h => simp at h)
    (by decide)).2.2.2.2

/-! ## Round trip of objects -/

namespace PropertyMap

theorem assign_sorted {V : Type} (m : PropertyMap V) (id : ExtIdentifier) (v : V)
    (hm : Sorted m) : Sorted (assign m id v) := by
  induction m with
  | nil => simp [assign, Sorted]
  | cons x t ih =>
    obtain ⟨k, w⟩ := x
    have hs := List.pairwise_cons.mp hm
    unfold assign
    by_cases h1 : k.lt id = true
    · rw [if_pos h1]
      refine List.pairwise_cons.mpr ⟨?_, ih hs.2⟩
      intro e he
      rcases mem_assign t id v e he with r1 | r2 | ⟨_, _, w1, r5⟩
      · rw [r1]; exact h1
      · exact hs.1 e r2
      · exact hs.1 (e.1, w1) r5
    · rw [if_neg h1]
      by_cases h2 : id.lt k = true
      · rw [if_pos h2]
        refine List.pairwise_cons.mpr ⟨?_, hm⟩
        intro e he
        rcases List.mem_cons.mp he with hx | ht
        · rw [hx]; exact h2
        · exact ExtIdentifier.lt_trans _ _ _ h2 (hs.1 e ht)
      · rw [if_neg h2]
        exact List.pairwise_cons.mpr ⟨fun e he => hs.1 e he, hs.2⟩

theorem assign_fresh_perm {V : Type} (m : PropertyMap V) (id : ExtIdentifier) (v : V)
    (hfresh : ∀ e ∈ m, e.1.equiv id = false) : List.Perm (assign m id v) ((id, v) :: m) := by
  induction m with
  | nil => exact List.Perm.refl _
  | cons x t ih =>
    obtain ⟨k, w⟩ := x
    unfold assign
    by_cases h1 : k.lt id = true
    · rw [if_pos h1]
      have := ih (fun e he => hfresh e (List.mem_cons_of_mem _ he))
      exact (List.Perm.cons _ this).trans (List.Perm.swap _ _ _)
    · rw [if_neg h1]
      by_cases h2 : id.lt k = true
      · rw [if_pos h2]
      · exfalso
        have := hfresh (k, w) (List.mem_cons_self _ _)
        simp only [ExtIdentifier.equiv] at this
        simp only [Bool.not_eq_true] at h1 h2
        rw [h1, h2] at this
        simp at this

end PropertyMap

theorem toIdentifier_other (text : String) (h : ¬ ∃ n : Int, isCanonicalInt32 text n) :
    (ASName.Other text).toIdentifier.type = EI_STRING ∧
    (ASName.Other text).toIdentifier.strValue = text :=
  ⟨ExtIdentifier.ofString_type_string text h, ExtIdentifier.ofString_strValue text⟩

theorem enumerationLoop_cons (x : ASName × ASObject) (rest : List (ASName × ASObject))
    (o : ExtObject) :
    enumerationLoop (x :: rest) o =
      enumerationLoop rest (o.setProperty x.1.toIdentifier (ExtVariant.ofASObject x.2)) := by
  obtain ⟨name, value⟩ := x
  cases name with
  | Integer i => rw [enumerationLoop_cons_integer]; rfl
  | Other text => rw [enumerationLoop_cons_other]; rfl

theorem enumerationLoop_fresh (entries : List (ASName × ASObject)) :
    ∀ o : ExtObject, PropertyMap.Sorted o.properties →
      (entries.map (fun e => e.1.toIdentifier)).Pairwise (fun a b => a.equiv b = false) →
      (∀ e ∈ o.properties, ∀ x ∈ entries, e.1.equiv x.1.toIdentifier = false) →
      PropertyMap.Sorted (enumerationLoop entries o).properties ∧
      List.Perm (enumerationLoop entries o).properties
        (entries.map (fun x => (x.1.toIdentifier, ExtVariant.ofASObject x.2)) ++ o.properties) := by
  induction entries with
  | nil =>
    intro o hs _ _
    rw [enumerationLoop_nil]
    exact ⟨hs, List.Perm.refl _⟩
  | cons x rest ih =>
    intro o hs hpw hfresh
    rw [enumerationLoop_cons]
    simp only [List.map_cons, List.pairwise_cons] at hpw
    have hperm := PropertyMap.assign_fresh_perm o.properties x.1.toIdentifier
      (ExtVariant.ofASObject x.2) (fun e he => hfresh e he x (List.mem_cons_self _ _))
    have hprops : (o.setProperty x.1.toIdentifier (ExtVariant.ofASObject x.2)).properties =
        PropertyMap.assign o.properties x.1.toIdentifier (ExtVariant.ofASObject x.2) := by
      cases o; rfl
    have hsorted2 : PropertyMap.Sorted
        (o.setProperty x.1.toIdentifier (ExtVariant.ofASObject x.2)).properties := by
      rw [hprops]; exact PropertyMap.assign_sorted _ _ _ hs
    have hfresh2 : ∀ e ∈ (o.setProperty x.1.toIdentifier (ExtVariant.ofASObject x.2)).properties,
        ∀ y ∈ rest, e.1.equiv y.1.toIdentifier = false := by
      intro e he y hy
      rw [hprops] at he
      rcases List.mem_cons.mp (hperm.subset he) with hx | ho
      · rw [hx]
        exact hpw.1 _ (List.mem_map_of_mem (fun e => e.1.toIdentifier) hy)
      · exact hfresh e ho y (List.mem_cons_of_mem _ hy)
    obtain ⟨r1, r2⟩ := ih _ hsorted2 hpw.2 hfresh2
    refine ⟨r1, r2.trans ?_⟩
    rw [hprops]
    simp only [List.map_cons, List.cons_append]
    exact (List.Perm.append_left _ hperm).trans List.perm_middle

theorem setVariableByQName_fresh (asobj : List (ASName × ASObject)) (name : String)
    (value : ASObject) (h : ∀ x ∈ asobj, x.1 ≠ ASName.Other name) :
    ASObject.setVariableByQName asobj name value = asobj ++ [(ASName.Other name, value)] := by
  induction asobj with
  | nil => rfl
  | cons x t ih =>
    obtain ⟨n, w⟩ := x
    unfold ASObject.setVariableByQName
    rw [if_neg (h (n, w) (List.mem_cons_self _ _)),
      ih (fun y hy => h y (List.mem_cons_of_mem _ hy))]
    rfl

theorem fetchConverted_of_mem (props : List (ExtIdentifier × ExtVariant))
    (hs : PropertyMap.Sorted props) (e : ExtIdentifier × ExtVariant) (he : e ∈ props) :
    fetchConverted (convertProperties props) e.1 = ExtVariant.getASObject e.2 := by
  rw [fetchConverted_eq EO_OBJECT]
  unfold ExtObject.getProperty
  simp only [ExtObject.properties]
  rw [PropertyMap.find_of_mem props e.1 e hs he (ExtIdentifier.equiv_refl _)]
  rfl

theorem objectLoop_strings (props : List (ExtIdentifier × ExtVariant))
    (hs : PropertyMap.Sorted props) (conv : String) (S : List (ExtIdentifier × ExtVariant)) :
    ∀ asobj : List (ASName × ASObject),
      (∀ e ∈ S, e ∈ props) → (∀ e ∈ S, e.1.type = EI_STRING) →
      S.Pairwise (fun a b => a.1.strValue ≠ b.1.strValue) →
      (∀ x ∈ asobj, ∀ e ∈ S, x.1 ≠ ASName.Other e.1.strValue) →
      (∀ e ∈ S, ∃ r, ExtVariant.getASObject e.2 = some r) →
      ∃ vars : List (ASName × ASObject),
        objectLoop (convertProperties props) (S.map (fun e => e.1)) asobj conv =
          some (asobj ++ vars) ∧
        List.Forall₂ (fun e x => x.1 = ASName.Other e.1.strValue ∧
          ExtVariant.getASObject e.2 = some x.2) S vars := by
  induction S with
  | nil =>
    intro asobj _ _ _ _ _
    exact ⟨[], by simp [objectLoop], List.Forall₂.nil⟩
  | cons e rest ih =>
    intro asobj hmem htype hpw hfresh hconv
    obtain ⟨r, hr⟩ := hconv e (List.mem_cons_self _ _)
    have hpw2 := List.pairwise_cons.mp hpw
    have hfetch := fetchConverted_of_mem props hs e (hmem e (List.mem_cons_self _ _))
    rw [hr] at hfetch
    have hset := setVariableByQName_fresh asobj e.1.strValue r
      (fun x hx => hfresh x hx e (List.mem_cons_self _ _))
    obtain ⟨vars, hv1, hv2⟩ := ih (asobj ++ [(ASName.Other e.1.strValue, r)])
      (fun y hy => hmem y (List.mem_cons_of_mem _ hy))
      (fun y hy => htype y (List.mem_cons_of_mem _ hy))
      hpw2.2
      (by
        intro x hx y hy
        rcases List.mem_append.mp hx with h1 | h1
        · exact hfresh x h1 y (List.mem_cons_of_mem _ hy)
        · simp only [List.mem_singleton] at h1
          rw [h1]
          intro hc
          exact hpw2.1 y hy (by injection hc))
      (fun y hy => hconv y (List.mem_cons_of_mem _ hy))
    refine ⟨(ASName.Other e.1.strValue, r) :: vars, ?_, List.Forall₂.cons ⟨rfl, hr⟩ hv2⟩
    simp only [List.map_cons]
    unfold objectLoop
    rw [hfetch]
    simp only
    rw [if_pos (htype e (List.mem_cons_self _ _)), hset, hv1]
    simp

theorem forall₂_of_mem_left {α β : Type} {R : α → β → Prop} {l1 : List α} {l2 : List β}
    (h : List.Forall₂ R l1 l2) : ∀ a ∈ l1, ∃ b ∈ l2, R a b := by
  induction h with
  | nil => intro a ha; cases ha
  | cons hab _ ih =>
    intro a ha
    rcases List.mem_cons.mp ha with hx | ht
    · subst hx; exact ⟨_, List.mem_cons_self _ _, hab⟩
    · obtain ⟨b, hb, hr⟩ := ih a ht
      exact ⟨b, List.mem_cons_of_mem _ hb, hr⟩

theorem forall₂_of_mem_right {α β : Type} {R : α → β → Prop} {l1 : List α} {l2 : List β}
    (h : List.Forall₂ R l1 l2) : ∀ b ∈ l2, ∃ a ∈ l1, R a b := by
  induction h with
  | nil => intro b hb; cases hb
  | cons hab _ ih =>
    intro b hb
    rcases List.mem_cons.mp hb with hx | ht
    · subst hx; exact ⟨_, List.mem_cons_self _ _, hab⟩
    · obtain ⟨a, ha, hr⟩ := ih b ht
      exact ⟨a, List.mem_cons_of_mem _ ha, hr⟩

theorem getASObject_object_strings
    (strValue : String) (intValue : Int) (doubleValue : Double) (booleanValue : Bool)
    (props : List (ExtIdentifier × ExtVariant)) (hs : PropertyMap.Sorted props)
    (hcount : props.length < 4294967296)
    (htype : ∀ e ∈ props, e.1.type = EI_STRING)
    (hconv : ∀ e ∈ props, ∃ r, ExtVariant.getASObject e.2 = some r) :
    ∃ vars : List (ASName × ASObject),
      ExtVariant.getASObject (ExtVariant.mk EV_OBJECT strValue intValue doubleValue booleanValue
        (ExtObject.mk EO_OBJECT props)) = some (ASObject.Object vars) ∧
      List.Forall₂ (fun e x => x.1 = ASName.Other e.1.strValue ∧
        ExtVariant.getASObject e.2 = some x.2) props vars := by
  have hpw : props.Pairwise (fun a b => a.1.strValue ≠ b.1.strValue) := by
    refine List.Pairwise.imp_of_mem ?_ hs
    intro a b ha hb hlt heq
    obtain ⟨⟨ta, sa, ia⟩, wa⟩ := a
    obtain ⟨⟨tb, sb, ib⟩, wb⟩ := b
    have h1 := htype _ ha
    have h2 := htype _ hb
    simp only at h1 h2 heq hlt
    subst h1 h2 heq
    simp [ExtIdentifier.lt, stringLess_irrefl] at hlt
  obtain ⟨vars, hv1, hv2⟩ := objectLoop_strings props hs "" props []
    (fun e he => he) htype hpw (fun x hx => by cases hx) hconv
  refine ⟨vars, ?_, hv2⟩
  have hids : (List.map (fun e => ExtIdentifier.copy e.1) props).take (toUInt32 props.length) =
      props.map (fun e => e.1) := by
    have h1 : toUInt32 props.length = props.length := by unfold toUInt32; omega
    have h2 : (fun e : ExtIdentifier × ExtVariant => ExtIdentifier.copy e.1) = (fun e => e.1) := by
      funext e; rfl
    rw [h1, h2]
    exact List.take_of_length_le (by simp)
  simp only [ExtVariant.getASObject, ExtObject.getASObject, ExtObject.enumerate,
    ExtObject.properties, hids, hv1, List.nil_append]

theorem roundtrip_sameValue (o : ASObject) (h : o.RoundTrippable) :
    ∃ r, ExtVariant.getASObject (ExtVariant.ofASObject o) = some r ∧ ASObject.SameValue o r ∧
      (∀ entries, o = ASObject.Object entries →
        ∃ vars, r = ASObject.Object vars ∧ vars.length = entries.length) := by
  induction h with
  | primitive x hx =>
    refine ⟨x, roundtrip_primitive x hx, ASObject.SameValue.primitive x hx, ?_⟩
    intro entries he
    subst he
    simp [ASObject.isPrimitive] at hx
  | object entries hcount hnames hdistinct hvalues ih =>
    -- the keys made of the names
    have hkey : ∀ x ∈ entries, x.1.toIdentifier.type = EI_STRING ∧
        ASName.Other x.1.toIdentifier.strValue = x.1 := by
      intro x hx
      obtain ⟨text, ht, hno⟩ := hnames x hx
      rw [ht]
      obtain ⟨q1, q2⟩ := toIdentifier_other text hno
      exact ⟨q1, by rw [q2]⟩
    have hpw : (entries.map (fun e => e.1.toIdentifier)).Pairwise
        (fun a b => a.equiv b = false) := by
      rw [List.pairwise_map]
      have hd : entries.Pairwise (fun a b => a.1 ≠ b.1) := List.pairwise_map.mp hdistinct
      refine List.Pairwise.imp_of_mem ?_ hd
      intro a b ha hb hne
      cases heq : a.1.toIdentifier.equiv b.1.toIdentifier with
      | false => rfl
      | true =>
        exfalso
        rw [ExtIdentifier.equiv_iff] at heq
        obtain ⟨a1, a2⟩ := hkey a ha
        obtain ⟨b1, b2⟩ := hkey b hb
        rcases heq with ⟨p1, _, _⟩ | ⟨_, _, p3⟩
        · rw [a1] at p1; cases p1
        · apply hne
          rw [← a2, ← b2, p3]
    obtain ⟨hsorted, hperm⟩ := enumerationLoop_fresh entries ExtObject.mkDefault
      (by simp [ExtObject.mkDefault, ExtObject.properties, PropertyMap.Sorted]) hpw
      (by intro e he; simp [ExtObject.mkDefault, ExtObject.properties] at he)
    have htype0 : (enumerationLoop entries ExtObject.mkDefault).type = EO_OBJECT := by
      rw [enumerationLoop_type]; rfl
    have hform : ExtVariant.ofASObject (ASObject.Object entries) =
        ExtVariant.mk EV_OBJECT "" 0 Double.zero false
          (enumerationLoop entries ExtObject.mkDefault) := by
      rw [ExtVariant.ofASObject]
    generalize enumerationLoop entries ExtObject.mkDefault = res at hsorted hperm htype0 hform
    obtain ⟨t, props⟩ := res
    simp only [ExtObject.type] at htype0
    subst htype0
    simp only [ExtObject.properties, ExtObject.mkDefault, List.append_nil] at hsorted hperm
    have hfrom : ∀ e ∈ props, ∃ x ∈ entries,
        e = (x.1.toIdentifier, ExtVariant.ofASObject x.2) := by
      intro e he
      have := hperm.subset he
      simp only [List.mem_map] at this
      obtain ⟨x, hx, hxe⟩ := this
      exact ⟨x, hx, hxe.symm⟩
    have hto : ∀ x ∈ entries, (x.1.toIdentifier, ExtVariant.ofASObject x.2) ∈ props := by
      intro x hx
      apply hperm.symm.subset
      exact List.mem_map.mpr ⟨x, hx, rfl⟩
    have hplen : props.length = entries.length := by
      rw [hperm.length_eq, List.length_map]
    have htype : ∀ e ∈ props, e.1.type = EI_STRING := by
      intro e he
      obtain ⟨x, hx, hxe⟩ := hfrom e he
      rw [hxe]
      exact (hkey x hx).1
    have hconv : ∀ e ∈ props, ∃ r, ExtVariant.getASObject e.2 = some r := by
      intro e he
      obtain ⟨x, hx, hxe⟩ := hfrom e he
      obtain ⟨r, hr, _⟩ := ih x hx
      exact ⟨r, by rw [hxe]; exact hr⟩
    obtain ⟨vars, hres, hrel⟩ := getASObject_object_strings "" 0 Double.zero false props
      hsorted (by omega) htype hconv
    refine ⟨ASObject.Object vars, by rw [hform]; exact hres, ?_, ?_⟩
    · refine ASObject.SameValue.object entries vars ?_ ?_
      · intro name
        constructor
        · rintro ⟨v, hv⟩
          obtain ⟨y, hy, hy1, _⟩ := forall₂_of_mem_left hrel _ (hto (name, v) hv)
          refine ⟨y.2, ?_⟩
          have hn : y.1 = name := by rw [hy1]; exact (hkey (name, v) hv).2
          rw [← hn]
          exact hy
        · rintro ⟨v, hv⟩
          obtain ⟨e, he, he1, _⟩ := forall₂_of_mem_right hrel _ hv
          obtain ⟨x, hx, hxe⟩ := hfrom e he
          refine ⟨x.2, ?_⟩
          have hn : name = x.1 := by
            rw [← (hkey x hx).2]
            simp only at he1
            rw [he1, hxe]
          rw [hn]
          exact hx
      · intro name v1 v2 h1 h2
        obtain ⟨e, he, he1, he2⟩ := forall₂_of_mem_right hrel _ h2
        obtain ⟨x, hx, hxe⟩ := hfrom e he
        have hn : x.1 = name := by
          rw [← (hkey x hx).2]
          simp only at he1
          rw [he1, hxe]
        have hx1 : x = (name, v1) :=
          List.inj_on_of_nodup_map hdistinct hx h1 hn
        obtain ⟨r, hr, hsame, _⟩ := ih (name, v1) h1
        simp only at he2 hr
        rw [hxe, hx1] at he2
        simp only at he2
        rw [hr] at he2
        cases he2
        exact hsame
    · intro entries2 he2
      cases he2
      exact ⟨vars, rfl, by rw [← hplen]; exact hrel.length_eq.symm⟩

theorem not_canonical_of_type_string (s : String)
    (h : (ExtIdentifier.ofString s).type = EI_STRING) : ¬ ∃ n : Int, isCanonicalInt32 s n := by
  rintro ⟨n, hn⟩
  have := ((ExtIdentifier.ofString_int32_iff s n).mpr hn).1
  rw [h] at this
  cases this

/-- C9. For a generic native object (finite, acyclic, fewer than `2^32` properties at
each level) whose property names are pairwise distinct strings, none a canonical
decimal integer, and whose property values are primitives (strings being C strings) or,
recursively, such objects: converting it to a variant and back with `getASObject`
returns a generic native object with as many properties, exactly the same set of
property names and, under each name, a value equal to the original one, enumeration
order apart. -/
theorem C9_object_round_trip (entries : List (ASName × ASObject))
    (h : (ASObject.Object entries).RoundTrippable) :
    ∃ vars : List (ASName × ASObject),
      ExtVariant.getASObject (ExtVariant.ofASObject (ASObject.Object entries)) =
        some (ASObject.Object vars) ∧
      vars.length = entries.length ∧
      (∀ name : ASName, (∃ v, (name, v) ∈ entries) ↔ (∃ v, (name, v) ∈ vars)) ∧
      ASObject.SameValue (ASObject.Object entries) (ASObject.Object vars) := by
  obtain ⟨r, hr, hsame, hobj⟩ := roundtrip_sameValue _ h
  obtain ⟨vars, hvars, hlen⟩ := hobj entries rfl
  subst hvars
  refine ⟨vars, hr, hlen, ?_, hsame⟩
  cases hsame with
  | primitive _ hp => simp [ASObject.isPrimitive] at hp
  | object _ _ hnames _ => exact hnames

/-- Witness for C9: the object of the specification, with the properties `b: "x"` and
`a: 1` enumerated in that order. -/
theorem C9_object_round_trip_witness :
    ∃ vars : List (ASName × ASObject),
      ExtVariant.getASObject (ExtVariant.ofASObject (ASObject.Object
        [(ASName.Other "b", ASObject.ASString "x"), (ASName.Other "a", ASObject.Integer 1)])) =
        some (ASObject.Object vars) ∧
      vars.length = 2 ∧
      (∀ name : ASName,
        (∃ v, (name, v) ∈
          [(ASName.Other "b", ASObject.ASString "x"), (ASName.Other "a", ASObject.Integer 1)]) ↔
        (∃ v, (name, v) ∈ vars)) ∧
      ASObject.SameValue
        (ASObject.Object
          [(ASName.Other "b", ASObject.ASString "x"), (ASName.Other "a", ASObject.Integer 1)])
        (ASObject.Object vars) :=
  C9_object_round_trip
    [(ASName.Other "b", ASObject.ASString "x"), (ASName.Other "a", ASObject.Integer 1)]
    (ASObject.RoundTrippable.object _ (by decide)
      (by
        intro e he
        simp only [List.mem_cons, List.mem_singleton, List.not_mem_nil, or_false] at he
        rcases he with rfl | rfl
        · exact ⟨"b", rfl, not_canonical_of_type_string "b" (by decide)⟩
        · exact ⟨"a", rfl, not_canonical_of_type_string "a" (by decide)⟩)
      (by decide)
      (by
        intro e he
        simp only [List.mem_cons, List.mem_singleton, List.not_mem_nil, or_false] at he
        rcases he with rfl | rfl
        · exact ASObject.RoundTrippable.primitive _ (by decide)
        · exact ASObject.RoundTrippable.primitive _ (by decide)))

/-! ## Validity of the property map is kept by every operation -/

namespace PropertyMap

theorem erase_sublist {V : Type} (m : PropertyMap V) (id : ExtIdentifier) :
    List.Sublist (erase m id) m := by
  induction m with
  | nil => exact List.Sublist.refl _
  | cons x t ih =>
    obtain ⟨k, w⟩ := x
    unfold erase
    split
    · exact List.Sublist.cons₂ _ ih
    · split
      · exact List.Sublist.refl _
      · exact List.sublist_cons_self _ _

theorem erase_sorted {V : Type} (m : PropertyMap V) (id : ExtIdentifier) (hm : Sorted m) :
    Sorted (erase m id) :=
  List.Pairwise.sublist (erase_sublist m id) hm

end PropertyMap

theorem ExtObject.wellFormed_mkDefault : ExtObject.mkDefault.WellFormed := by
  simp [ExtObject.WellFormed, ExtObject.mkDefault, ExtObject.properties, PropertyMap.Sorted]

theorem ExtObject.wellFormed_setProperty (o : ExtObject) (id : ExtIdentifier) (v : ExtVariant)
    (ho : o.WellFormed) : (o.setProperty id v).WellFormed := by
  cases o
  exact PropertyMap.assign_sorted _ id v ho

theorem ExtObject.wellFormed_removeProperty (o : ExtObject) (id : ExtIdentifier)
    (ho : o.WellFormed) : (o.removeProperty id).2.WellFormed := by
  cases o with
  | mk t p =>
    simp only [ExtObject.removeProperty, ExtObject.properties, ExtObject.type]
    cases PropertyMap.find p id with
    | none => exact ho
    | some e => exact PropertyMap.erase_sorted p id ho

theorem ExtObject.wellFormed_setType (o : ExtObject) (t : EO_TYPE) (ho : o.WellFormed) :
    (o.setType t).WellFormed := by
  cases o; exact ho

theorem enumerationLoop_wellFormed (entries : List (ASName × ASObject)) :
    ∀ o : ExtObject, o.WellFormed → (enumerationLoop entries o).WellFormed := by
  induction entries with
  | nil => intro o ho; rw [enumerationLoop_nil]; exact ho
  | cons x rest ih =>
    intro o ho
    rw [enumerationLoop_cons]
    exact ih _ (ExtObject.wellFormed_setProperty o _ _ ho)

theorem ExtVariant.wellFormed_ofASObject (x : ASObject) :
    (ExtVariant.ofASObject x).objectValue.WellFormed := by
  cases x with
  | Array entries =>
    rw [objectValue_ofASObject_array]
    exact enumerationLoop_wellFormed entries _
      (ExtObject.wellFormed_setType _ _ ExtObject.wellFormed_mkDefault)
  | Object entries =>
    rw [objectValue_ofASObject_object]
    exact enumerationLoop_wellFormed entries _ ExtObject.wellFormed_mkDefault
  | ASString s => rw [ExtVariant.ofASObject]; exact ExtObject.wellFormed_mkDefault
  | Integer i => rw [ExtVariant.ofASObject]; exact ExtObject.wellFormed_mkDefault
  | Number d => rw [ExtVariant.ofASObject]; exact ExtObject.wellFormed_mkDefault
  | Boolean b => rw [ExtVariant.ofASObject]; exact ExtObject.wellFormed_mkDefault
  | Null => rw [ExtVariant.ofASObject]; exact ExtObject.wellFormed_mkDefault
  | Undefined => rw [ExtVariant.ofASObject]; exact ExtObject.wellFormed_mkDefault
  | Other t => rw [ExtVariant.ofASObject]; exact ExtObject.wellFormed_mkDefault

/-! ## Primitive variants -/

theorem extObject_copy_eq (o : ExtObject) : ExtObject.copy o = o := by
  cases o; rfl

theorem extVariant_copy_eq (v : ExtVariant) : ExtVariant.copy v = v := by
  cases v with
  | mk t s i d b o => simp [ExtVariant.copy, ExtVariant.type, ExtVariant.strValue,
      ExtVariant.intValue, ExtVariant.doubleValue, ExtVariant.booleanValue,
      ExtVariant.objectValue, extObject_copy_eq]

/-- C11 (the claim fails as stated). The variant built by the `std::string` constructor
from the three characters `a`, NUL, `b` is converted to the native string "a": the
native value does not carry the payload of the variant, and the variant constructed
back holds "a". -/
theorem C11_string_with_nul_is_truncated :
    ExtVariant.getASObject (ExtVariant.ofString (String.mk ['a', Char.ofNat 0, 'b'])) =
      some (ASObject.ASString "a") ∧
    ExtVariant.getASObject (ExtVariant.ofString (String.mk ['a', Char.ofNat 0, 'b'])) ≠
      some (ASObject.ASString (String.mk ['a', Char.ofNat 0, 'b'])) ∧
    (ExtVariant.ofASObject (ASObject.ASString "a")).strValue ≠
      (ExtVariant.ofString (String.mk ['a', Char.ofNat 0, 'b'])).strValue := by
  refine ⟨rfl, ?_, by decide⟩
  intro h
  have h1 : ExtVariant.getASObject (ExtVariant.ofString (String.mk ['a', Char.ofNat 0, 'b'])) =
      some (ASObject.ASString "a") := rfl
  rw [h1] at h
  injection h with h2
  injection h2 with h3
  revert h3
  decide

/-- C11 (amended). A variant built by a literal constructor, or of kind `EV_NULL`, is
converted by `getASObject` to the native value of the corresponding tag: a string
variant to the native string holding the characters of its payload before the first
NUL (its whole payload when it holds none), an integer, double or boolean variant to
the native integer, number or boolean with the same payload, `EV_NULL` to the native
null and the default variant to the native undefined. The variant constructed from
that native value has the same kind; it is the variant started from for the integer,
double, boolean and default constructors and for a string without NUL, and the default
variant is also what the native undefined gives. -/
theorem C11_primitive_variant_round_trip :
    (ExtVariant.getASObject ExtVariant.mkDefault = some ASObject.Undefined ∧
      ExtVariant.ofASObject ASObject.Undefined = ExtVariant.mkDefault) ∧
    (∀ s : String,
      ExtVariant.getASObject (ExtVariant.ofString s) = some (ASObject.ASString (cstr s)) ∧
      ExtVariant.getASObject (ExtVariant.ofCString s) = some (ASObject.ASString (cstr s)) ∧
      (ExtVariant.ofASObject (ASObject.ASString (cstr s))).type = EV_STRING ∧
      (ExtVariant.ofASObject (ASObject.ASString (cstr s))).strValue = cstr s ∧
      (cstr s = s → ExtVariant.ofASObject (ASObject.ASString (cstr s)) = ExtVariant.ofString s)) ∧
    (∀ i : Int,
      ExtVariant.getASObject (ExtVariant.ofInt32 i) = some (ASObject.Integer i) ∧
      ExtVariant.ofASObject (ASObject.Integer i) = ExtVariant.ofInt32 i) ∧
    (∀ d : Double,
      ExtVariant.getASObject (ExtVariant.ofDouble d) = some (ASObject.Number d) ∧
      ExtVariant.ofASObject (ASObject.Number d) = ExtVariant.ofDouble d) ∧
    (∀ b : Bool,
      ExtVariant.getASObject (ExtVariant.ofBool b) = some (ASObject.Boolean b) ∧
      ExtVariant.ofASObject (ASObject.Boolean b) = ExtVariant.ofBool b) ∧
    (∀ (s : String) (i : Int) (d : Double) (b : Bool) (o : ExtObject),
      ExtVariant.getASObject (ExtVariant.mk EV_NULL s i d b o) = some ASObject.Null ∧
      (ExtVariant.ofASObject ASObject.Null).type = EV_NULL) ∧
    (ExtVariant.ofBool true).type = EV_BOOLEAN ∧
    (ExtVariant.ofBool true).booleanValue = true ∧
    ExtVariant.getASObject (ExtVariant.ofBool true) = some (ASObject.Boolean true) ∧
    (∀ tag : Nat, (ExtVariant.ofASObject (ASObject.Other tag)).type = EV_VOID ∧
      ExtVariant.getASObject (ExtVariant.ofASObject (ASObject.Other tag)) =
        some ASObject.Undefined) := by
  refine ⟨⟨?_, ?_⟩, ?_, ?_, ?_, ?_, ?_, rfl, rfl, ?_, ?_⟩
  · simp [ExtVariant.mkDefault, ExtVariant.getASObject]
  · simp [ExtVariant.mkDefault, ExtVariant.ofASObject]
  · intro s
    refine ⟨?_, ?_, ?_, ?_, ?_⟩
    · simp [ExtVariant.ofString, ExtVariant.getASObject]
    · simp [ExtVariant.ofCString, ExtVariant.getASObject]
    · simp [ExtVariant.ofASObject, ExtVariant.type]
    · simp [ExtVariant.ofASObject, ExtVariant.strValue]
    · intro h
      rw [h]
      simp [ExtVariant.ofASObject, ExtVariant.ofString]
  · intro i
    exact ⟨by simp [ExtVariant.ofInt32, ExtVariant.getASObject],
      by simp [ExtVariant.ofASObject, ExtVariant.ofInt32]⟩
  · intro d
    exact ⟨by simp [ExtVariant.ofDouble, ExtVariant.getASObject],
      by simp [ExtVariant.ofASObject, ExtVariant.ofDouble]⟩
  · intro b
    exact ⟨by simp [ExtVariant.ofBool, ExtVariant.getASObject],
      by simp [ExtVariant.ofASObject, ExtVariant.ofBool]⟩
  · intro s i d b o
    exact ⟨by simp [ExtVariant.getASObject], by simp [ExtVariant.ofASObject, ExtVariant.type]⟩
  · simp [ExtVariant.ofBool, ExtVariant.getASObject]
  · intro tag
    exact ⟨by simp [ExtVariant.ofASObject, ExtVariant.type],
      by simp [ExtVariant.ofASObject, ExtVariant.getASObject]⟩

/-! ## The operations of ExtObject -/

namespace PropertyMap

theorem length_assign {V : Type} (m : PropertyMap V) (id : ExtIdentifier) (v : V) :
    (assign m id v).length = if (find m id).isSome then m.length else m.length + 1 := by
  induction m with
  | nil => rfl
  | cons x t ih =>
    obtain ⟨k, w⟩ := x
    unfold assign find
    by_cases h1 : k.lt id = true
    · rw [if_pos h1, if_pos h1, List.length_cons, ih]
      split <;> rfl
    · rw [if_neg h1, if_neg h1]
      by_cases h2 : id.lt k = true
      · rw [if_pos h2, if_pos h2]; rfl
      · rw [if_neg h2, if_neg h2]; rfl

theorem length_erase {V : Type} (m : PropertyMap V) (id : ExtIdentifier)
    (h : (find m id).isSome = true) : (erase m id).length + 1 = m.length := by
  induction m with
  | nil => simp [find] at h
  | cons x t ih =>
    obtain ⟨k, w⟩ := x
    unfold find at h
    unfold erase
    by_cases h1 : k.lt id = true
    · rw [if_pos h1] at h
      rw [if_pos h1, List.length_cons, ih h]; rfl
    · rw [if_neg h1] at h
      rw [if_neg h1]
      by_cases h2 : id.lt k = true
      · rw [if_pos h2] at h; simp at h
      · rw [if_neg h2]; rfl

theorem not_equiv_cases (a b : ExtIdentifier) (h : a.equiv b = false) :
    a.lt b = true ∨ b.lt a = true := by
  simp only [ExtIdentifier.equiv, Bool.and_eq_false_iff, Bool.not_eq_false'] at h
  exact h

theorem equiv_of_not_lt (a b : ExtIdentifier) (h1 : ¬ a.lt b = true) (h2 : ¬ b.lt a = true) :
    a.equiv b = true := by
  simp only [ExtIdentifier.equiv, Bool.and_eq_true, Bool.not_eq_true']
  exact ⟨by simpa using h1, by simpa using h2⟩

theorem find_assign_of_not_equiv {V : Type} (m : PropertyMap V) (a b : ExtIdentifier) (v : V)
    (h : a.equiv b = false) : find (assign m a v) b = find m b := by
  induction m with
  | nil =>
    unfold assign find
    rcases not_equiv_cases a b h with h1 | h1
    · rw [if_pos h1]; rfl
    · rw [if_neg (by rw [ExtIdentifier.lt_asymm b a h1]; simp), if_pos h1]
  | cons x t ih =>
    obtain ⟨k, w⟩ := x
    unfold assign
    by_cases h1 : k.lt a = true
    · rw [if_pos h1]
      unfold find
      rw [ih]
    · rw [if_neg h1]
      by_cases h2 : a.lt k = true
      · rw [if_pos h2]
        rcases not_equiv_cases a b h with h3 | h3
        · conv_lhs => unfold find
          rw [if_pos h3]
        · have hbk : b.lt k = true := ExtIdentifier.lt_trans b a k h3 h2
          conv_lhs => unfold find
          rw [if_neg (by rw [ExtIdentifier.lt_asymm b a h3]; simp), if_pos h3]
          unfold find
          rw [if_neg (by rw [ExtIdentifier.lt_asymm b k hbk]; simp), if_pos hbk]
      · rw [if_neg h2]
        have hka : k.equiv a = true := equiv_of_not_lt k a h1 h2
        unfold find
        by_cases h3 : k.lt b = true
        · rw [if_pos h3, if_pos h3]
        · rw [if_neg h3, if_neg h3]
          by_cases h4 : b.lt k = true
          · rw [if_pos h4, if_pos h4]
          · exfalso
            have hkb : k.equiv b = true := equiv_of_not_lt k b h3 h4
            have := ExtIdentifier.equiv_trans a k b (ExtIdentifier.equiv_symm k a hka) hkb
            rw [h] at this
            cases this

theorem find_erase_of_not_equiv {V : Type} (m : PropertyMap V) (a b : ExtIdentifier)
    (hm : Sorted m) (h : a.equiv b = false) : find (erase m a) b = find m b := by
  induction m with
  | nil => rfl
  | cons x t ih =>
    obtain ⟨k, w⟩ := x
    have hs := List.pairwise_cons.mp hm
    unfold erase
    by_cases h1 : k.lt a = true
    · rw [if_pos h1]
      unfold find
      rw [ih hs.2]
    · rw [if_neg h1]
      by_cases h2 : a.lt k = true
      · rw [if_pos h2]
      · rw [if_neg h2]
        have hka : k.equiv a = true := equiv_of_not_lt k a h1 h2
        conv_rhs => unfold find
        by_cases h3 : k.lt b = true
        · rw [if_pos h3]
        · rw [if_neg h3]
          have hbk : b.lt k = true := by
            by_cases h4 : b.lt k = true
            · exact h4
            · exfalso
              have hkb : k.equiv b = true := equiv_of_not_lt k b h3 h4
              have := ExtIdentifier.equiv_trans a k b (ExtIdentifier.equiv_symm k a hka) hkb
              rw [h] at this
              cases this
          rw [if_pos hbk]
          apply find_none_of_lt
          intro e he
          exact ExtIdentifier.lt_trans b k e.1 hbk (hs.1 e he)

end PropertyMap

/-- C12. The method `setProperty` inserts or overwrites: after `setProperty(id, v)`,
`hasProperty(id)` is true and `getProperty(id)` returns a copy equal to `v`, whether or
not a property equivalent to `id` was there before; the number of properties grows by
exactly one when none was there, and is unchanged when one was; the kind of the object
is unchanged. -/
theorem C12_setProperty_inserts_or_overwrites (o : ExtObject) (id : ExtIdentifier)
    (v : ExtVariant) :
    (o.setProperty id v).hasProperty id = true ∧
    (o.setProperty id v).getProperty id = some v ∧
    ExtVariant.copy v = v ∧
    (o.hasProperty id = false → (o.setProperty id v).getLength = o.getLength + 1) ∧
    (o.hasProperty id = true → (o.setProperty id v).getLength = o.getLength) ∧
    (o.setProperty id v).getType = o.getType := by
  obtain ⟨t, p⟩ := o
  obtain ⟨k, hk⟩ := PropertyMap.find_assign p id id v (ExtIdentifier.equiv_refl id)
  have hlen := PropertyMap.length_assign p id v
  refine ⟨?_, ?_, extVariant_copy_eq v, ?_, ?_, rfl⟩
  · simp only [ExtObject.setProperty, ExtObject.hasProperty, ExtObject.properties, hk]; rfl
  · simp only [ExtObject.setProperty, ExtObject.getProperty, ExtObject.properties, hk]
  · intro h
    simp only [ExtObject.hasProperty, ExtObject.properties] at h
    simp only [ExtObject.setProperty, ExtObject.getLength, ExtObject.properties, hlen, h]
    rfl
  · intro h
    simp only [ExtObject.hasProperty, ExtObject.properties] at h
    simp only [ExtObject.setProperty, ExtObject.getLength, ExtObject.properties, hlen, h]
    rfl

/-- C13. On an object with a valid property map, `removeProperty(id)` returns true
exactly when `hasProperty(id)` was true before; when it returns true, `hasProperty(id)`
is false afterwards and the number of properties has dropped by exactly one; when it
returns false, the object is unchanged. -/
theorem C13_removeProperty_reports_presence (o : ExtObject) (id : ExtIdentifier)
    (ho : o.WellFormed) :
    ((o.removeProperty id).1 = true ↔ o.hasProperty id = true) ∧
    ((o.removeProperty id).1 = true →
      (o.removeProperty id).2.hasProperty id = false ∧
      (o.removeProperty id).2.getLength + 1 = o.getLength ∧
      (o.removeProperty id).2.getType = o.getType) ∧
    ((o.removeProperty id).1 = false → (o.removeProperty id).2 = o) := by
  obtain ⟨t, p⟩ := o
  simp only [ExtObject.removeProperty, ExtObject.hasProperty, ExtObject.properties,
    ExtObject.type, ExtObject.getLength, ExtObject.getType]
  cases hf : PropertyMap.find p id with
  | none => simp
  | some e =>
    simp only [Option.isSome_some, true_and, forall_true_left, iff_true, true_implies]
    refine ⟨?_, ?_⟩
    · refine ⟨?_, ?_⟩
      · rw [PropertyMap.find_erase p id id ho (ExtIdentifier.equiv_refl id)]; rfl
      · exact ⟨PropertyMap.length_erase p id (by rw [hf]; rfl), trivial⟩
    · intro h; cases h

/-- Witness for C13: removing the key 7 from an object holding the keys 3 and 7. -/
theorem C13_removeProperty_reports_presence_witness :
    ((ExtObject.mk EO_OBJECT
        [(ExtIdentifier.ofInt32 3, ExtVariant.ofBool true),
         (ExtIdentifier.ofInt32 7, ExtVariant.ofInt32 1)]).removeProperty
      (ExtIdentifier.ofInt32 7)).1 = true ↔
    (ExtObject.mk EO_OBJECT
        [(ExtIdentifier.ofInt32 3, ExtVariant.ofBool true),
         (ExtIdentifier.ofInt32 7, ExtVariant.ofInt32 1)]).hasProperty
      (ExtIdentifier.ofInt32 7) = true :=
  (C13_removeProperty_reports_presence
    (ExtObject.mk EO_OBJECT
      [(ExtIdentifier.ofInt32 3, ExtVariant.ofBool true),
       (ExtIdentifier.ofInt32 7, ExtVariant.ofInt32 1)])
    (ExtIdentifier.ofInt32 7)
    (by unfold ExtObject.WellFormed PropertyMap.Sorted; decide)).1

/-- C14. On an object with a valid property map, `getProperty(id)` returns the `NULL`
result exactly when `hasProperty(id)` is false; otherwise it returns a copy of the
variant stored under the key equivalent to `id`, and a copy is equal to its original.
The method is `const`: the object is not changed by the call. -/
theorem C14_getProperty_absent_or_copy (o : ExtObject) (id : ExtIdentifier)
    (ho : o.WellFormed) :
    (o.getProperty id = none ↔ o.hasProperty id = false) ∧
    (∀ v : ExtVariant, o.getProperty id = some (ExtVariant.copy v) ↔
      ∃ k : ExtIdentifier, (k, v) ∈ o.properties ∧ k.equiv id = true) ∧
    (∀ v : ExtVariant, o.getProperty id = some v → ExtVariant.copy v = v) := by
  obtain ⟨t, p⟩ := o
  simp only [ExtObject.getProperty, ExtObject.hasProperty, ExtObject.properties]
  refine ⟨?_, ?_, fun v _ => extVariant_copy_eq v⟩
  · cases PropertyMap.find p id <;> simp
  · intro v
    rw [extVariant_copy_eq]
    constructor
    · intro h
      cases hf : PropertyMap.find p id with
      | none => rw [hf] at h; cases h
      | some e =>
        rw [hf] at h
        simp only [Option.some.injEq] at h
        obtain ⟨hmem, heq⟩ := PropertyMap.find_some p id e hf
        refine ⟨e.1, ?_, heq⟩
        rw [← h]
        exact hmem
    · rintro ⟨k, hmem, heq⟩
      rw [PropertyMap.find_of_mem p id (k, v) ho hmem heq]

/-- Witness for C14: fetching the key 7 from an object holding the keys 3 and 7. -/
theorem C14_getProperty_absent_or_copy_witness :
    (ExtObject.mk EO_OBJECT
        [(ExtIdentifier.ofInt32 3, ExtVariant.ofBool true),
         (ExtIdentifier.ofInt32 7, ExtVariant.ofInt32 1)]).getProperty
      (ExtIdentifier.ofInt32 5) = none ↔
    (ExtObject.mk EO_OBJECT
        [(ExtIdentifier.ofInt32 3, ExtVariant.ofBool true),
         (ExtIdentifier.ofInt32 7, ExtVariant.ofInt32 1)]).hasProperty
      (ExtIdentifier.ofInt32 5) = false :=
  (C14_getProperty_absent_or_copy
    (ExtObject.mk EO_OBJECT
      [(ExtIdentifier.ofInt32 3, ExtVariant.ofBool true),
       (ExtIdentifier.ofInt32 7, ExtVariant.ofInt32 1)])
    (ExtIdentifier.ofInt32 5)
    (by unfold ExtObject.WellFormed PropertyMap.Sorted; decide)).1

theorem ExtObject.hasProperty_of_enumerated (o : ExtObject) (ho : o.WellFormed)
    (id k : ExtIdentifier) (hk : k ∈ o.enumerate.2.1) (heq : k.equiv id = true) :
    o.hasProperty id = true := by
  obtain ⟨t, p⟩ := o
  simp only [ExtObject.enumerate, ExtObject.properties, List.mem_map] at hk
  obtain ⟨e, he, hke⟩ := hk
  have hke2 : e.1 = k := hke
  simp only [ExtObject.hasProperty, ExtObject.properties]
  rw [PropertyMap.find_of_mem p id e ho he (by rw [hke2]; exact heq)]
  rfl

/-- C16. On an object with a valid property map, whatever it holds, after
`setProperty(id, v)` followed by `removeProperty(id)`: `removeProperty` returned true,
`hasProperty(id)` is false, and the sequence produced by `enumerate` holds no
identifier equivalent to `id`. -/
theorem C16_set_then_remove_excludes_key (o : ExtObject) (id : ExtIdentifier)
    (v : ExtVariant) (ho : o.WellFormed) :
    ((o.setProperty id v).removeProperty id).1 = true ∧
    ((o.setProperty id v).removeProperty id).2.hasProperty id = false ∧
    (∀ k ∈ ((o.setProperty id v).removeProperty id).2.enumerate.2.1, k.equiv id = false) := by
  have hwf1 := ExtObject.wellFormed_setProperty o id v ho
  have hwf2 := ExtObject.wellFormed_removeProperty (o.setProperty id v) id hwf1
  have hret : ((o.setProperty id v).removeProperty id).1 = true ∧
      ((o.setProperty id v).removeProperty id).2.hasProperty id = false := by
    obtain ⟨t, p⟩ := o
    obtain ⟨k, hk⟩ := PropertyMap.find_assign p id id v (ExtIdentifier.equiv_refl id)
    simp only [ExtObject.setProperty, ExtObject.removeProperty, ExtObject.properties,
      ExtObject.type, hk, ExtObject.hasProperty, true_and]
    rw [PropertyMap.find_erase _ id id (PropertyMap.assign_sorted p id v ho)
      (ExtIdentifier.equiv_refl id)]
    rfl
  refine ⟨hret.1, hret.2, ?_⟩
  intro k hk
  cases heq : k.equiv id with
  | false => rfl
  | true =>
    have := ExtObject.hasProperty_of_enumerated _ hwf2 id k hk heq
    rw [hret.2] at this
    cases this

/-- Witness for C16: setting and removing the key 7 on an object that already holds
the keys 3 and 7. -/
theorem C16_set_then_remove_excludes_key_witness :
    (((ExtObject.mk EO_OBJECT
        [(ExtIdentifier.ofInt32 3, ExtVariant.ofBool true),
         (ExtIdentifier.ofInt32 7, ExtVariant.ofInt32 1)]).setProperty
      (ExtIdentifier.ofString "7") (ExtVariant.ofBool false)).removeProperty
      (ExtIdentifier.ofString "7")).2.hasProperty (ExtIdentifier.ofString "7") = false :=
  (C16_set_then_remove_excludes_key
    (ExtObject.mk EO_OBJECT
      [(ExtIdentifier.ofInt32 3, ExtVariant.ofBool true),
       (ExtIdentifier.ofInt32 7, ExtVariant.ofInt32 1)])
    (ExtIdentifier.ofString "7") (ExtVariant.ofBool false)
    (by unfold ExtObject.WellFormed PropertyMap.Sorted; decide)).2.1

/-- C19. On an object with a valid property map, for two identifiers `id` and `id1`
that are not equivalent, `setProperty(id, v)` and `removeProperty(id)` leave
`hasProperty(id1)` and the result of `getProperty(id1)` unchanged, and both leave the
kind of the object unchanged. -/
theorem C19_mutators_frame (o : ExtObject) (id id1 : ExtIdentifier) (v : ExtVariant)
    (ho : o.WellFormed) (hne : id.equiv id1 = false) :
    (o.setProperty id v).hasProperty id1 = o.hasProperty id1 ∧
    (o.setProperty id v).getProperty id1 = o.getProperty id1 ∧
    (o.setProperty id v).getType = o.getType ∧
    (o.removeProperty id).2.hasProperty id1 = o.hasProperty id1 ∧
    (o.removeProperty id).2.getProperty id1 = o.getProperty id1 ∧
    (o.removeProperty id).2.getType = o.getType := by
  obtain ⟨t, p⟩ := o
  have h1 := PropertyMap.find_assign_of_not_equiv p id id1 v hne
  have h2 := PropertyMap.find_erase_of_not_equiv p id id1 ho hne
  refine ⟨?_, ?_, rfl, ?_, ?_, ?_⟩
  · simp only [ExtObject.setProperty, ExtObject.hasProperty, ExtObject.properties, h1]
  · simp only [ExtObject.setProperty, ExtObject.getProperty, ExtObject.properties, h1]
  · simp only [ExtObject.removeProperty, ExtObject.properties, ExtObject.type]
    cases PropertyMap.find p id with
    | none => rfl
    | some e => simp only [ExtObject.hasProperty, ExtObject.properties, h2]
  · simp only [ExtObject.removeProperty, ExtObject.properties, ExtObject.type]
    cases PropertyMap.find p id with
    | none => rfl
    | some e => simp only [ExtObject.getProperty, ExtObject.properties, h2]
  · simp only [ExtObject.removeProperty, ExtObject.properties, ExtObject.type]
    cases PropertyMap.find p id <;> rfl

/-- Witness for C19: setting the key 5 leaves the key 7 as it was. -/
theorem C19_mutators_frame_witness :
    ((ExtObject.mk EO_ARRAY
        [(ExtIdentifier.ofInt32 3, ExtVariant.ofBool true),
         (ExtIdentifier.ofInt32 7, ExtVariant.ofInt32 1)]).setProperty
      (ExtIdentifier.ofInt32 5) (ExtVariant.ofBool false)).getProperty
        (ExtIdentifier.ofInt32 7) =
    (ExtObject.mk EO_ARRAY
        [(ExtIdentifier.ofInt32 3, ExtVariant.ofBool true),
         (ExtIdentifier.ofInt32 7, ExtVariant.ofInt32 1)]).getProperty
        (ExtIdentifier.ofInt32 7) :=
  (C19_mutators_frame
    (ExtObject.mk EO_ARRAY
      [(ExtIdentifier.ofInt32 3, ExtVariant.ofBool true),
       (ExtIdentifier.ofInt32 7, ExtVariant.ofInt32 1)])
    (ExtIdentifier.ofInt32 5) (ExtIdentifier.ofInt32 7) (ExtVariant.ofBool false)
    (by unfold ExtObject.WellFormed PropertyMap.Sorted; decide) (by decide)).2.1

/-! ## Enumeration of the keys -/

theorem ExtIdentifier.not_equiv_of_lt (a b : ExtIdentifier) (h : a.lt b = true) :
    a.equiv b = false := by
  simp [ExtIdentifier.equiv, h]

theorem extIdentifier_copy_eq (k : ExtIdentifier) : ExtIdentifier.copy k = k := rfl

theorem setProperty_foldl_fresh (l : List (ExtIdentifier × ExtVariant)) :
    ∀ o : ExtObject, o.WellFormed →
      l.Pairwise (fun a b => a.1.equiv b.1 = false) →
      (∀ e ∈ o.properties, ∀ x ∈ l, e.1.equiv x.1 = false) →
      (l.foldl (fun acc e => acc.setProperty e.1 e.2) o).WellFormed ∧
      List.Perm (l.foldl (fun acc e => acc.setProperty e.1 e.2) o).properties
        (l ++ o.properties) := by
  induction l with
  | nil => intro o ho _ _; exact ⟨ho, List.Perm.refl _⟩
  | cons x rest ih =>
    intro o ho hpw hfresh
    simp only [List.foldl_cons]
    have hpw2 := List.pairwise_cons.mp hpw
    have hprops : (o.setProperty x.1 x.2).properties =
        PropertyMap.assign o.properties x.1 x.2 := by
      cases o; rfl
    have hperm := PropertyMap.assign_fresh_perm o.properties x.1 x.2
      (fun e he => hfresh e he x (List.mem_cons_self _ _))
    have hfresh2 : ∀ e ∈ (o.setProperty x.1 x.2).properties, ∀ y ∈ rest,
        e.1.equiv y.1 = false := by
      intro e he y hy
      rw [hprops] at he
      rcases List.mem_cons.mp (hperm.subset he) with hx | ho2
      · rw [hx]; exact hpw2.1 y hy
      · exact hfresh e ho2 y (List.mem_cons_of_mem _ hy)
    obtain ⟨r1, r2⟩ := ih _ (ExtObject.wellFormed_setProperty o x.1 x.2 ho) hpw2.2 hfresh2
    refine ⟨r1, r2.trans ?_⟩
    rw [hprops]
    simp only [List.cons_append]
    exact (List.Perm.append_left _ hperm).trans List.perm_middle

theorem PropertyMap.eq_of_perm_of_sorted {V : Type} (m1 m2 : PropertyMap V)
    (hp : List.Perm m1 m2) (h1 : PropertyMap.Sorted m1) (h2 : PropertyMap.Sorted m2) :
    m1 = m2 :=
  @List.eq_of_perm_of_sorted _ (fun a b : ExtIdentifier × V => a.1.lt b.1 = true)
    ⟨fun a b hab hba => by
      have := ExtIdentifier.lt_asymm a.1 b.1 hab
      rw [hba] at this
      cases this⟩ _ _ hp h1 h2

/-- C15. On an object with a valid property map of fewer than `2^32` properties,
`enumerate` returns true with a sequence of identifiers and a count such that: the
count is the number of properties and the length of the sequence; an identifier is
equivalent to an entry of the sequence exactly when `hasProperty` of it is true; no
two entries are equivalent; the entries are strictly increasing for the comparator, so
that no `EI_STRING` entry comes before an `EI_INT32` entry, the integer entries
increase numerically and the string entries lexicographically. The sequence does not
depend on the order of insertion: inserting pairwise inequivalent keys into an empty
object in two different orders gives the same enumeration. -/
theorem C15_enumerate_snapshot_in_key_order (o : ExtObject) (ho : o.WellFormed)
    (hlen : o.getLength < 4294967296) :
    o.enumerate.1 = true ∧
    o.enumerate.2.2 = o.getLength ∧
    o.enumerate.2.1.length = o.enumerate.2.2 ∧
    (∀ id : ExtIdentifier,
      (∃ k ∈ o.enumerate.2.1, k.equiv id = true) ↔ o.hasProperty id = true) ∧
    o.enumerate.2.1.Pairwise (fun a b => a.equiv b = false) ∧
    o.enumerate.2.1.Pairwise (fun a b => a.lt b = true) ∧
    o.enumerate.2.1.Pairwise (fun a b =>
      (a.type = EI_INT32 ∧ b.type = EI_INT32 ∧ a.intValue < b.intValue) ∨
      (a.type = EI_INT32 ∧ b.type = EI_STRING) ∨
      (a.type = EI_STRING ∧ b.type = EI_STRING ∧
        List.Lex (fun x y : Char => x.toNat < y.toNat) a.strValue.data b.strValue.data)) ∧
    (∀ (t : EO_TYPE) (l1 l2 : List (ExtIdentifier × ExtVariant)), List.Perm l1 l2 →
      l1.Pairwise (fun a b => a.1.equiv b.1 = false) →
      (l1.foldl (fun acc e => acc.setProperty e.1 e.2) (ExtObject.mk t [])).enumerate =
      (l2.foldl (fun acc e => acc.setProperty e.1 e.2) (ExtObject.mk t [])).enumerate) := by
  have hempty : ∀ t : EO_TYPE, (ExtObject.mk t []).WellFormed := by
    intro t
    simp [ExtObject.WellFormed, ExtObject.properties, PropertyMap.Sorted]
  have horder : ∀ (t : EO_TYPE) (l1 l2 : List (ExtIdentifier × ExtVariant)), List.Perm l1 l2 →
      l1.Pairwise (fun a b => a.1.equiv b.1 = false) →
      (l1.foldl (fun acc e => acc.setProperty e.1 e.2) (ExtObject.mk t [])).enumerate =
      (l2.foldl (fun acc e => acc.setProperty e.1 e.2) (ExtObject.mk t [])).enumerate := by
    intro t l1 l2 hperm hpw1
    have hpw2 : l2.Pairwise (fun a b => a.1.equiv b.1 = false) :=
      hperm.pairwise hpw1 (fun {x y} h => by
        cases hyx : y.1.equiv x.1 with
        | false => rfl
        | true =>
          have := ExtIdentifier.equiv_symm _ _ hyx
          rw [h] at this
          cases this)
    obtain ⟨w1, p1⟩ := setProperty_foldl_fresh l1 (ExtObject.mk t []) (hempty t) hpw1
      (by intro e he; simp [ExtObject.properties] at he)
    obtain ⟨w2, p2⟩ := setProperty_foldl_fresh l2 (ExtObject.mk t []) (hempty t) hpw2
      (by intro e he; simp [ExtObject.properties] at he)
    have hnil : (ExtObject.mk t []).properties = [] := rfl
    rw [hnil, List.append_nil] at p1 p2
    have heq := PropertyMap.eq_of_perm_of_sorted _ _
      (p1.trans (hperm.trans p2.symm)) w1 w2
    unfold ExtObject.enumerate
    rw [heq]
  obtain ⟨t, p⟩ := o
  have hcopy : p.map (fun e => ExtIdentifier.copy e.1) = p.map (fun e => e.1) := rfl
  have hsorted : (p.map (fun e => e.1)).Pairwise (fun a b => a.lt b = true) :=
    List.pairwise_map.mpr ho
  simp only [ExtObject.getLength, ExtObject.properties] at hlen
  simp only [ExtObject.enumerate, ExtObject.properties, ExtObject.getLength, hcopy]
  have hcount : toUInt32 p.length = p.length := by unfold toUInt32; omega
  refine ⟨trivial, hcount, by rw [hcount, List.length_map], ?_, ?_, hsorted, ?_, horder⟩
  · intro id
    constructor
    · rintro ⟨k, hk, heq⟩
      exact ExtObject.hasProperty_of_enumerated (ExtObject.mk t p) ho id k
        (show k ∈ (ExtObject.mk t p).enumerate.2.1 from hk) heq
    · intro h
      simp only [ExtObject.hasProperty, ExtObject.properties] at h
      cases hf : PropertyMap.find p id with
      | none => rw [hf] at h; cases h
      | some e =>
        obtain ⟨hmem, heq⟩ := PropertyMap.find_some p id e hf
        exact ⟨e.1, List.mem_map_of_mem (fun e => e.1) hmem, heq⟩
  · exact hsorted.imp (fun {a b} h => ExtIdentifier.not_equiv_of_lt a b h)
  · refine hsorted.imp ?_
    intro a b h
    obtain ⟨ta, sa, ia⟩ := a
    obtain ⟨tb, sb, ib⟩ := b
    cases ta <;> cases tb <;> simp [ExtIdentifier.lt] at h ⊢
    · exact (stringLess_iff_lex _ _).mp h
    · exact h

/-- Witness for C15: an object holding the keys 3, 7 and "a". -/
theorem C15_enumerate_snapshot_in_key_order_witness :
    (ExtObject.mk EO_OBJECT
        [(ExtIdentifier.ofInt32 3, ExtVariant.ofBool true),
         (ExtIdentifier.ofInt32 7, ExtVariant.ofInt32 1),
         (ExtIdentifier.ofString "a", ExtVariant.ofInt32 2)]).enumerate.2.2 = 3 :=
  (C15_enumerate_snapshot_in_key_order
    (ExtObject.mk EO_OBJECT
      [(ExtIdentifier.ofInt32 3, ExtVariant.ofBool true),
       (ExtIdentifier.ofInt32 7, ExtVariant.ofInt32 1),
       (ExtIdentifier.ofString "a", ExtVariant.ofInt32 2)])
    (by unfold ExtObject.WellFormed PropertyMap.Sorted; decide) (by decide)).2.1

/-! ## What the enumeration loop stores -/

theorem ExtIdentifier.equiv_iff_normalize (a b : ExtIdentifier) :
    a.equiv b = true ↔ a.normalize = b.normalize := by
  rw [ExtIdentifier.equiv_iff]
  obtain ⟨ta, sa, ia⟩ := a
  obtain ⟨tb, sb, ib⟩ := b
  cases ta <;> cases tb <;> simp [ExtIdentifier.normalize]

theorem ExtObject.getProperty_setProperty (o : ExtObject) (key id : ExtIdentifier)
    (v : ExtVariant) :
    (o.setProperty key v).getProperty id =
      if key.normalize = id.normalize then some v else o.getProperty id := by
  obtain ⟨t, p⟩ := o
  by_cases h : key.normalize = id.normalize
  · rw [if_pos h]
    obtain ⟨k, hk⟩ := PropertyMap.find_assign p key id v
      ((ExtIdentifier.equiv_iff_normalize key id).mpr h)
    simp only [ExtObject.setProperty, ExtObject.getProperty, ExtObject.properties, hk]
  · rw [if_neg h]
    have hne : key.equiv id = false := by
      cases he : key.equiv id with
      | false => rfl
      | true => exact absurd ((ExtIdentifier.equiv_iff_normalize key id).mp he) h
    simp only [ExtObject.setProperty, ExtObject.getProperty, ExtObject.properties,
      PropertyMap.find_assign_of_not_equiv p key id v hne]

theorem enumerationLoop_getProperty (entries : List (ASName × ASObject)) :
    ∀ (o : ExtObject) (id : ExtIdentifier),
      (enumerationLoop entries o).getProperty id =
        match lastEntryFor entries id with
        | some value => some (ExtVariant.ofASObject value)
        | none => o.getProperty id := by
  induction entries with
  | nil => intro o id; rw [enumerationLoop_nil]; rfl
  | cons x rest ih =>
    intro o id
    obtain ⟨name, value⟩ := x
    rw [enumerationLoop_cons, ih]
    simp only [lastEntryFor]
    cases lastEntryFor rest id with
    | some later => rfl
    | none =>
      simp only
      rw [ExtObject.getProperty_setProperty]
      split <;> rfl

theorem enumerationLoop_key_origin (entries : List (ASName × ASObject)) :
    ∀ (o : ExtObject) (e : ExtIdentifier × ExtVariant),
      e ∈ (enumerationLoop entries o).properties →
      (∃ w, (e.1, w) ∈ o.properties) ∨ ∃ x ∈ entries, e.1 = x.1.toIdentifier := by
  induction entries with
  | nil => intro o e he; rw [enumerationLoop_nil] at he; exact Or.inl ⟨e.2, he⟩
  | cons x rest ih =>
    intro o e he
    rw [enumerationLoop_cons] at he
    rcases ih _ e he with ⟨w, hw⟩ | ⟨y, hy, hye⟩
    · have hprops : (o.setProperty x.1.toIdentifier (ExtVariant.ofASObject x.2)).properties =
          PropertyMap.assign o.properties x.1.toIdentifier (ExtVariant.ofASObject x.2) := by
        cases o; rfl
      rw [hprops] at hw
      rcases PropertyMap.mem_assign _ _ _ _ hw with r1 | r2 | ⟨_, _, w1, r5⟩
      · right
        refine ⟨x, List.mem_cons_self _ _, ?_⟩
        have := congrArg Prod.fst r1
        exact this
      · exact Or.inl ⟨w, r2⟩
      · exact Or.inl ⟨w1, r5⟩
    · exact Or.inr ⟨y, List.mem_cons_of_mem _ hy, hye⟩

theorem enumerationLoop_count (entries : List (ASName × ASObject)) (t : EO_TYPE) :
    (enumerationLoop entries (ExtObject.mk t [])).properties.length =
      ((entries.map (fun e => e.1.toIdentifier.normalize)).dedup).length := by
  have hwf : (enumerationLoop entries (ExtObject.mk t [])).WellFormed :=
    enumerationLoop_wellFormed entries _
      (by simp [ExtObject.WellFormed, ExtObject.properties, PropertyMap.Sorted])
  have hnodup : ((enumerationLoop entries (ExtObject.mk t [])).properties.map
      (fun e => e.1.normalize)).Nodup := by
    rw [List.Nodup, List.pairwise_map]
    refine List.Pairwise.imp ?_ hwf
    intro a b hlt heq
    have := (ExtIdentifier.equiv_iff_normalize a.1 b.1).mpr heq
    rw [ExtIdentifier.not_equiv_of_lt a.1 b.1 hlt] at this
    cases this
  have hperm : List.Perm
      ((enumerationLoop entries (ExtObject.mk t [])).properties.map (fun e => e.1.normalize))
      ((entries.map (fun e => e.1.toIdentifier.normalize)).dedup) := by
    rw [List.perm_ext_iff_of_nodup hnodup (List.nodup_dedup _)]
    intro n
    rw [List.mem_dedup]
    simp only [List.mem_map]
    constructor
    · rintro ⟨e, he, hen⟩
      rcases enumerationLoop_key_origin entries _ e he with ⟨w, hw⟩ | ⟨x, hx, hxe⟩
      · simp [ExtObject.properties] at hw
      · exact ⟨x, hx, by rw [← hxe]; exact hen⟩
    · rintro ⟨x, hx, hxn⟩
      obtain ⟨e, he, hint, htext⟩ := enumerationLoop_has_key entries (ExtObject.mk t [])
        x.1 x.2 hx
      refine ⟨e, he, ?_⟩
      rw [← hxn]
      apply (ExtIdentifier.equiv_iff_normalize _ _).mp
      cases hname : x.1 with
      | Integer i => exact hint i hname
      | Other text => exact htext text hname
  have := hperm.length_eq
  rw [List.length_map] at this
  exact this

/-- C18. During the conversion of a native array or object, the property of the
resulting object at a key is the conversion of the last enumerated entry whose name
normalises to that key, and there is no property at a key that no name normalises to;
a `T_INTEGER` name `n` and a text name that is the canonical decimal text of `n`
normalise to the same key; the number of properties is the number of distinct
normalised names, so it is the number of enumerated entries exactly when no two names
normalise to the same key. -/
theorem C18_aggregate_conversion_last_entry_wins (entries : List (ASName × ASObject))
    (agg : ASObject) (hagg : agg = ASObject.Array entries ∨ agg = ASObject.Object entries) :
    (∀ id : ExtIdentifier,
      (ExtVariant.ofASObject agg).objectValue.getProperty id =
        (lastEntryFor entries id).map ExtVariant.ofASObject) ∧
    (∀ (n : Int) (s : String), isCanonicalInt32 s n →
      (ASName.Other s).toIdentifier.normalize = (ASName.Integer n).toIdentifier.normalize) ∧
    (ExtVariant.ofASObject agg).objectValue.getLength =
      ((entries.map (fun e => e.1.toIdentifier.normalize)).dedup).length ∧
    ((ExtVariant.ofASObject agg).objectValue.getLength = entries.length ↔
      (entries.map (fun e => e.1.toIdentifier.normalize)).Nodup) := by
  have hloop : ∃ t : EO_TYPE,
      (ExtVariant.ofASObject agg).objectValue = enumerationLoop entries (ExtObject.mk t []) := by
    rcases hagg with rfl | rfl
    · exact ⟨EO_ARRAY, objectValue_ofASObject_array entries⟩
    · exact ⟨EO_OBJECT, objectValue_ofASObject_object entries⟩
  obtain ⟨t, ht⟩ := hloop
  rw [ht]
  have hcount := enumerationLoop_count entries t
  refine ⟨?_, ?_, hcount, ?_⟩
  · intro id
    rw [enumerationLoop_getProperty]
    cases lastEntryFor entries id <;> rfl
  · intro n s hs
    obtain ⟨h1, h2⟩ := (ExtIdentifier.ofString_int32_iff s n).mpr hs
    apply (ExtIdentifier.equiv_iff_normalize _ _).mp
    rw [ExtIdentifier.equiv_iff]
    exact Or.inl ⟨h1, rfl, h2⟩
  · unfold ExtObject.getLength
    rw [hcount]
    constructor
    · intro h
      have hsub := List.dedup_sublist (entries.map (fun e => e.1.toIdentifier.normalize))
      have := hsub.eq_of_length (by rw [h, List.length_map])
      exact List.dedup_eq_self.mp this
    · intro h
      rw [List.dedup_eq_self.mpr h, List.length_map]

/-- Witness for C18: an object enumerated as `1: "first"`, `a: true`, `"1": "last"`. -/
theorem C18_aggregate_conversion_last_entry_wins_witness :
    (ExtVariant.ofASObject (ASObject.Object
        [(ASName.Integer 1, ASObject.ASString "first"), (ASName.Other "a", ASObject.Boolean true),
         (ASName.Other "1", ASObject.ASString "last")])).objectValue.getProperty
        (ExtIdentifier.ofInt32 1) =
      (lastEntryFor
        [(ASName.Integer 1, ASObject.ASString "first"), (ASName.Other "a", ASObject.Boolean true),
         (ASName.Other "1", ASObject.ASString "last")]
        (ExtIdentifier.ofInt32 1)).map ExtVariant.ofASObject :=
  (C18_aggregate_conversion_last_entry_wins
    [(ASName.Integer 1, ASObject.ASString "first"), (ASName.Other "a", ASObject.Boolean true),
     (ASName.Other "1", ASObject.ASString "last")] _ (Or.inr rfl)).1 (ExtIdentifier.ofInt32 1)

/-! ## ExtCallbackFunction -/

theorem objectLoop_some (table : PropertyMap (Option ASObject)) (ids : List ExtIdentifier) :
    ∀ (asobj : List (ASName × ASObject)) (conv : String),
      (∀ id ∈ ids, ∃ r, fetchConverted table id = some r) →
      ∃ vars, objectLoop table ids asobj conv = some vars := by
  induction ids with
  | nil => intro asobj conv _; exact ⟨asobj, rfl⟩
  | cons id rest ih =>
    intro asobj conv h
    obtain ⟨r, hr⟩ := h id (List.mem_cons_self _ _)
    have hrest : ∀ k ∈ rest, ∃ r, fetchConverted table k = some r :=
      fun k hk => h k (List.mem_cons_of_mem _ hk)
    unfold objectLoop
    rw [hr]
    simp only
    split
    · exact ih _ _ hrest
    · exact ih _ _ hrest

theorem getASObject_of_convertible (v : ExtVariant) (h : v.Convertible) :
    ∃ r, ExtVariant.getASObject v = some r := by
  induction h with
  | leaf type strValue intValue doubleValue booleanValue objectValue hne =>
    cases type <;> simp [ExtVariant.getASObject] at hne ⊢
  | object strValue intValue doubleValue booleanValue type properties hvalid hdense hvalues ih =>
    cases type with
    | EO_ARRAY =>
      obtain ⟨hd, hn⟩ := hdense rfl
      obtain ⟨slots, hres, _, _⟩ := getASObject_array_of_dense strValue intValue doubleValue
        booleanValue properties hn hd ih
      exact ⟨_, hres⟩
    | EO_OBJECT =>
      have hfetch : ∀ id ∈ ((ExtObject.mk EO_OBJECT properties).enumerate.2.1.take
          (ExtObject.mk EO_OBJECT properties).enumerate.2.2),
          ∃ r, fetchConverted (convertProperties properties) id = some r := by
        intro id hid
        have hmem := List.mem_of_mem_take hid
        simp only [ExtObject.enumerate, ExtObject.properties, List.mem_map] at hmem
        obtain ⟨e, he, hek⟩ := hmem
        have hek2 : e.1 = id := hek
        obtain ⟨r, hr⟩ := ih e he
        refine ⟨r, ?_⟩
        rw [← hek2, fetchConverted_of_mem properties hvalid e he]
        exact hr
      obtain ⟨vars, hvars⟩ := objectLoop_some (convertProperties properties) _ [] "" hfetch
      refine ⟨ASObject.Object vars, ?_⟩
      simp only [ExtVariant.getASObject, ExtObject.getASObject, hvars]

mutual
theorem ofPointer_of_represents (heap : Nat → ASNode) :
    ∀ (x : ASObject) (other : Nat), Represents heap other x →
      ∀ bound : Nat, x.depth < bound →
        ExtVariant.ofPointer heap bound other = some (ExtVariant.ofASObject x)
  | .ASString s, other, h, bound, hb => by
    obtain ⟨b, rfl⟩ : ∃ b, bound = b + 1 := ⟨bound - 1, by omega⟩
    simp only [Represents] at h
    simp [ExtVariant.ofPointer, h, ExtVariant.ofASObject]
  | .Integer i, other, h, bound, hb => by
    obtain ⟨b, rfl⟩ : ∃ b, bound = b + 1 := ⟨bound - 1, by omega⟩
    simp only [Represents] at h
    simp [ExtVariant.ofPointer, h, ExtVariant.ofASObject]
  | .Number d, other, h, bound, hb => by
    obtain ⟨b, rfl⟩ : ∃ b, bound = b + 1 := ⟨bound - 1, by omega⟩
    simp only [Represents] at h
    simp [ExtVariant.ofPointer, h, ExtVariant.ofASObject]
  | .Boolean v, other, h, bound, hb => by
    obtain ⟨b, rfl⟩ : ∃ b, bound = b + 1 := ⟨bound - 1, by omega⟩
    simp only [Represents] at h
    simp [ExtVariant.ofPointer, h, ExtVariant.ofASObject]
  | .Null, other, h, bound, hb => by
    obtain ⟨b, rfl⟩ : ∃ b, bound = b + 1 := ⟨bound - 1, by omega⟩
    simp only [Represents] at h
    simp [ExtVariant.ofPointer, h, ExtVariant.ofASObject]
  | .Undefined, other, h, bound, hb => by
    obtain ⟨b, rfl⟩ : ∃ b, bound = b + 1 := ⟨bound - 1, by omega⟩
    simp only [Represents] at h
    simp [ExtVariant.ofPointer, h, ExtVariant.ofASObject]
  | .Other t, other, h, bound, hb => by
    obtain ⟨b, rfl⟩ : ∃ b, bound = b + 1 := ⟨bound - 1, by omega⟩
    simp only [Represents] at h
    simp [ExtVariant.ofPointer, h, ExtVariant.ofASObject]
  | .Array entries, other, h, bound, hb => by
    obtain ⟨b, rfl⟩ : ∃ b, bound = b + 1 := ⟨bound - 1, by omega⟩
    simp only [Represents] at h
    obtain ⟨pointers, hp, hrep⟩ := h
    have hd : entriesDepth entries ≤ b := by
      simp only [ASObject.depth] at hb; omega
    have := enumerationLoopWith_of_represents heap entries pointers hrep b hd
      (ExtObject.setType ExtObject.mkDefault EO_ARRAY)
    simp [ExtVariant.ofPointer, hp, this, ExtVariant.ofASObject]
  | .Object entries, other, h, bound, hb => by
    obtain ⟨b, rfl⟩ : ∃ b, bound = b + 1 := ⟨bound - 1, by omega⟩
    simp only [Represents] at h
    obtain ⟨pointers, hp, hrep⟩ := h
    have hd : entriesDepth entries ≤ b := by
      simp only [ASObject.depth] at hb; omega
    have := enumerationLoopWith_of_represents heap entries pointers hrep b hd
      ExtObject.mkDefault
    simp [ExtVariant.ofPointer, hp, this, ExtVariant.ofASObject]
theorem enumerationLoopWith_of_represents (heap : Nat → ASNode) :
    ∀ (entries : List (ASName × ASObject)) (pointers : List (ASName × Nat)),
      RepresentsEntries heap pointers entries →
      ∀ bound : Nat, entriesDepth entries ≤ bound →
      ∀ o : ExtObject,
        enumerationLoopWith (ExtVariant.ofPointer heap bound) pointers o =
          some (enumerationLoop entries o)
  | [], [], _, bound, _, o => by
    simp [enumerationLoopWith, enumerationLoop]
  | [], _ :: _, h, _, _, _ => by
    simp [RepresentsEntries] at h
  | _ :: _, [], h, _, _, _ => by
    simp [RepresentsEntries] at h
  | (m, value) :: es, (n, q) :: ps, h, bound, hb, o => by
    simp only [RepresentsEntries] at h
    obtain ⟨hn, hq, hrest⟩ := h
    subst hn
    simp only [entriesDepth] at hb
    have hv := ofPointer_of_represents heap value q hq bound (by omega)
    have hr := enumerationLoopWith_of_represents heap es ps hrest bound (by omega)
    unfold enumerationLoopWith
    rw [hv]
    cases n with
    | Integer i => simp only; rw [hr, enumerationLoop_cons_integer]
    | Other text => simp only; rw [hr, enumerationLoop_cons_other]
end

theorem ofPointer_selfReferential (bound : Nat) :
    ExtVariant.ofPointer selfReferentialHeap bound 0 = none := by
  induction bound with
  | zero => rfl
  | succ b ih =>
    simp [ExtVariant.ofPointer, selfReferentialHeap, enumerationLoopWith, ih]

/-- C20. The conversion `getASObject` returns a value on every variant whose objects,
at every level, have a valid property map and, when of kind `EO_ARRAY`, exactly the
integer keys `0 .. n-1` (a variant holds its objects by value, so the recursion is on
a finite tree). The constructor from a native value returns on every pointer that
holds a finite acyclic value, with the variant of that value, as soon as the allowed
depth of nested constructor calls exceeds the nesting depth of the value. On a
self-referential object no allowed depth is enough: the recursion is not bounded, and
nothing detects the cycle. -/
theorem C20_conversions_terminate_on_finite_values :
    (∀ v : ExtVariant, v.Convertible → ∃ r, ExtVariant.getASObject v = some r) ∧
    (∀ (heap : Nat → ASNode) (other : Nat) (x : ASObject), Represents heap other x →
      ∀ bound : Nat, x.depth < bound →
        ExtVariant.ofPointer heap bound other = some (ExtVariant.ofASObject x)) ∧
    (∀ bound : Nat, ExtVariant.ofPointer selfReferentialHeap bound 0 = none) :=
  ⟨getASObject_of_convertible,
    fun heap other x h bound hb => ofPointer_of_represents heap x other h bound hb,
    ofPointer_selfReferential⟩

/-- Witness for C20: the object `a: [5]` held at the addresses 0, 1 and 2 has nesting
depth 2 and is converted within three nested constructor calls. -/
theorem C20_conversions_terminate_on_finite_values_witness :
    ExtVariant.ofPointer
      (fun address =>
        if address = 0 then ASNode.Object [(ASName.Other "a", 1)]
        else if address = 1 then ASNode.Array [(ASName.Integer 0, 2)]
        else ASNode.Integer 5)
      3 0 =
    some (ExtVariant.ofASObject
      (ASObject.Object [(ASName.Other "a", ASObject.Array [(ASName.Integer 0, ASObject.Integer 5)])])) :=
  C20_conversions_terminate_on_finite_values.2.1
    (fun address =>
        if address = 0 then ASNode.Object [(ASName.Other "a", 1)]
        else if address = 1 then ASNode.Array [(ASName.Integer 0, 2)]
        else ASNode.Integer 5)
    0
    (ASObject.Object [(ASName.Other "a", ASObject.Array [(ASName.Integer 0, ASObject.Integer 5)])])
    (by simp [Represents, RepresentsEntries])
    3 (by decide)

end lightspark
